import Mathlib

/-! # librime storage / freshness layer: a shallow embedding

Definitions follow `src/rime/algo/utilities.{h,cc}`, `src/rime/resource.{h,cc}`,
`src/rime/rimePath.h`, `src/rime/dict/mapped_file.cc`, `src/rime/signature.cc` and
`src/rime/config/build_info_plugin.cc`.  `uint32_t` and `size_t` values are natural
numbers, `int` and `time_t` values are integers with the conversion to 32 bits written
out; `std::string` is a list of characters (a list of bytes where it is text stored
in the arena); a file's contents is a list of bytes.
-/

namespace rime

/-! ## CRC32Calculator (`utilities.h`) -/

/-- An octet, the `uint8_t` read through `bytes[i]`. -/
abbrev Byte := Fin 256

/-- The members of `class CRC32Calculator`: the lookup table and the register. -/
structure CRC32Calculator where
  table_ : List Nat
  crc_ : Nat

/-- One pass of the inner constructor loop:
`crc = (crc >> 1) ^ ((crc & 1) ? 0xEDB88320 : 0)`. -/
def crcShiftStep (crc : Nat) : Nat :=
  (crc >>> 1) ^^^ (if crc &&& 1 ≠ 0 then 0xEDB88320 else 0)

/-- The body of the outer constructor loop for index `i`: `crc = i`, eight passes
of the inner loop, and the value stored in `table_[i]`. -/
def crcTableEntry (i : Nat) : Nat :=
  crcShiftStep^[8] i

/-- `CRC32Calculator::Reset`. -/
def CRC32Calculator.Reset (c : CRC32Calculator) : CRC32Calculator :=
  { c with crc_ := 0xFFFFFFFF }

/-- The constructor `CRC32Calculator()`: fills `table_[0..255]`, then calls `Reset`. -/
def CRC32Calculator.new : CRC32Calculator :=
  CRC32Calculator.Reset { table_ := (List.range 256).map crcTableEntry, crc_ := 0 }

/-- One iteration of the loop of `Update`:
`crc_ = table_[(crc_ ^ bytes[i]) & 0xFF] ^ (crc_ >> 8)`. -/
def CRC32Calculator.feed (c : CRC32Calculator) (b : Byte) : CRC32Calculator :=
  { c with crc_ := c.table_.getD ((c.crc_ ^^^ b.val) &&& 0xFF) 0 ^^^ (c.crc_ >>> 8) }

/-- `CRC32Calculator::Update(data, length)`; the pair is the list of the `length`
bytes at `data`. -/
def CRC32Calculator.Update (c : CRC32Calculator) (data : List Byte) : CRC32Calculator :=
  data.foldl CRC32Calculator.feed c

/-- `CRC32Calculator::Finalize`. -/
def CRC32Calculator.Finalize (c : CRC32Calculator) : Nat :=
  c.crc_ ^^^ 0xFFFFFFFF

/-! ### The reference CRC-32, bit by bit (from the specification's words) -/

/-- The reflected generator polynomial. -/
def specPoly : Nat := 0xEDB88320

/-- Shift one message bit through the register, least significant bit first: the
feedback bit is the register's low bit exclusive-or the message bit; the register
moves right by one and the polynomial is added when the feedback bit is set. -/
def specBit (reg : Nat) (bit : Bool) : Nat :=
  if xor (reg.testBit 0) bit then (reg / 2) ^^^ specPoly else reg / 2

/-- The eight bits of a byte, least significant first. -/
def specBitsOf (b : Byte) : List Bool :=
  (List.range 8).map (fun k => b.val.testBit k)

/-- The reference checksum: register preset to `0xFFFFFFFF`, every message bit
shifted through, final exclusive-or with `0xFFFFFFFF`. -/
def specCrc32 (data : List Byte) : Nat :=
  ((data.flatMap specBitsOf).foldl specBit 0xFFFFFFFF) ^^^ 0xFFFFFFFF

/-- The calculator used as the class is meant to be used: construct (or `Reset`),
`Update` over the bytes, `Finalize`. -/
def crc32 (data : List Byte) : Nat :=
  ((CRC32Calculator.new.Reset).Update data).Finalize

/-! ## ChecksumComputer (`utilities.h`, `utilities.cc`) -/

/-- The member of `class ChecksumComputer`. -/
structure ChecksumComputer where
  crc_ : CRC32Calculator

/-- The implicit default constructor: it constructs the `crc_` member. -/
def ChecksumComputer.new : ChecksumComputer :=
  { crc_ := CRC32Calculator.new }

/-- What `std::ifstream file(file_name, std::ios::binary)` finds: the bytes of the
file, or nothing when the file cannot be opened. -/
abbrev FileSystem := List Char → Option (List Byte)

/-- `const size_t buffer_size = 65536`. -/
def buffer_size : Nat := 65536

/-- The loop `while (file) { file.read(buffer, buffer_size); crc_.Update(buffer,
file.gcount()); }` over the bytes not yet read.  `read` delivers `buffer_size`
bytes and leaves the stream good when that many remain; otherwise it delivers what
remains (possibly nothing) and sets the fail bit, which ends the loop. -/
def readLoop (crc : CRC32Calculator) (rest : List Byte) : CRC32Calculator :=
  if buffer_size ≤ rest.length then
    readLoop (crc.Update (rest.take buffer_size)) (rest.drop buffer_size)
  else
    crc.Update (rest.take buffer_size)
termination_by rest.length
decreasing_by
  simp only [List.length_drop]
  unfold buffer_size at *
  omega

/-- `ChecksumComputer::ProcessFile`: the outcome (the message of the
`std::runtime_error` thrown, or normal return) and the object afterwards.  `Reset`
runs before the file is opened. -/
def ChecksumComputer.ProcessFile (c : ChecksumComputer) (fs : FileSystem)
    (file_name : List Char) : Except (List Char) Unit × ChecksumComputer :=
  let crc := c.crc_.Reset
  match fs file_name with
  | none => (Except.error ("Cannot open file: ".toList ++ file_name), { crc_ := crc })
  | some bytes => (Except.ok (), { crc_ := readLoop crc bytes })

/-- `ChecksumComputer::Checksum`. -/
def ChecksumComputer.Checksum (c : ChecksumComputer) : Nat :=
  c.crc_.Finalize

/-- The inline `Checksum(file_name)`: a fresh computer, `ProcessFile`, `Checksum`;
the exception of `ProcessFile` propagates. -/
def Checksum (fs : FileSystem) (file_name : List Char) : Except (List Char) Nat :=
  match ChecksumComputer.new.ProcessFile fs file_name with
  | (Except.error e, _) => Except.error e
  | (Except.ok (), c) => Except.ok c.Checksum

/-! ## Path (`rimePath.h`) -/

/-- The predicate handed to `std::unique` by `normalize`. -/
def bothSlash (l r : Char) : Bool :=
  l == '/' && r == '/'

/-- Two neighbouring characters are not both `/`: the negation of `bothSlash`, as a
proposition. -/
abbrev NotBothSlash (a b : Char) : Prop :=
  ¬ (a = '/' ∧ b = '/')

/-- `std::unique` after its first element: `last` is the element kept most
recently; an element equivalent to it is skipped, another one is kept. -/
def uniqueFrom (pred : Char → Char → Bool) (last : Char) : List Char → List Char
  | [] => []
  | x :: xs => if pred last x then uniqueFrom pred last xs else x :: uniqueFrom pred x xs

/-- `std::unique(first, last, pred)` followed by `erase(new_end, end)`. -/
def unique (pred : Char → Char → Bool) : List Char → List Char
  | [] => []
  | x :: xs => x :: uniqueFrom pred x xs

/-- The member of `class Path`. -/
structure Path where
  path_ : List Char
deriving DecidableEq, Repr

/-- `Path::normalize`. -/
def Path.normalize (path : List Char) : List Char :=
  if path.isEmpty then [] else unique bothSlash path

/-- `Path(const std::string &path)`. -/
def Path.ofString (path : List Char) : Path :=
  { path_ := Path.normalize path }

/-- `Path::empty`. -/
def Path.empty (p : Path) : Bool :=
  p.path_.isEmpty

/-- `Path::generic_string`. -/
def Path.generic_string (p : Path) : List Char :=
  p.path_

/-- `Path::string`. -/
def Path.string (p : Path) : List Char :=
  p.path_

/-- `Path::generic_string_slash`. -/
def Path.generic_string_slash (p : Path) : List Char :=
  p.path_

/-- `Path::has_parent_path`: `path_.find('/') != npos`. -/
def Path.has_parent_path (p : Path) : Bool :=
  p.path_.contains '/'

/-- `Path::join`. -/
def Path.join (base path : List Char) : List Char :=
  if base.isEmpty then path
  else if path.isEmpty then base
  else
    let base_ends := base.getLast? == some '/'
    let path_starts := path.head? == some '/'
    if base_ends && path_starts then base ++ path.drop 1
    else if !base_ends && !path_starts then base ++ '/' :: path
    else base ++ path

/-- `Path::operator/(const std::string &other)`. -/
def Path.slash (p : Path) (other : List Char) : Path :=
  Path.ofString (Path.join p.path_ (Path.normalize other))

/-- `Path::is_absolute`. -/
def Path.is_absolute (p : Path) : Bool :=
  !p.path_.isEmpty && p.path_.head? == some '/'

/-- `Path::absolute(base)`. -/
def Path.absolute (p base : Path) : Path :=
  if p.is_absolute then p else base.slash p.path_

/-- `starts_with(str, prefix)`: long enough, and the first characters compare equal. -/
def starts_with (str pre : List Char) : Bool :=
  decide (pre.length ≤ str.length) && (str.take pre.length == pre)

/-- `ends_with(str, suffix)`: long enough, and the last characters compare equal. -/
def ends_with (str suffix : List Char) : Bool :=
  decide (suffix.length ≤ str.length) && (str.drop (str.length - suffix.length) == suffix)

/-- The oracle behind `Exists(path)`: whether `stat` succeeds on the string and
names a regular file. -/
abbrev RegularFiles := List Char → Bool

/-- `Exists(const Path &path)`. -/
def Exists (fs : RegularFiles) (path : Path) : Bool :=
  fs path.generic_string_slash

/-! ## ResourceResolver (`resource.h`, `resource.cc`) -/

/-- `struct ResourceType`; the field `prefix` is spelled `prefix_` here. -/
structure ResourceType where
  name : List Char
  prefix_ : List Char
  suffix : List Char

/-- The members of `class ResourceResolver`. -/
structure ResourceResolver where
  type_ : ResourceType
  root_path_ : Path

/-- The constructor `ResourceResolver(type)`: the root path is default-constructed. -/
def ResourceResolver.new (type : ResourceType) : ResourceResolver :=
  { type_ := type, root_path_ := { path_ := [] } }

/-- `ResourceResolver::set_root_path`. -/
def ResourceResolver.set_root_path (r : ResourceResolver) (root_path : Path) : ResourceResolver :=
  { r with root_path_ := root_path }

/-- Subtraction of two `size_t` values: unsigned, modulo `2 ^ 64`. -/
def size_t_sub (a b : Nat) : Nat :=
  (a + 2 ^ 64 - b) % 2 ^ 64

/-- `std::string::substr(pos, count)`: throws `std::out_of_range` (no value) when
`pos` is past the end, else the characters from `pos`, at most `count` of them. -/
def substr (s : List Char) (pos count : Nat) : Option (List Char) :=
  if pos > s.length then none else some ((s.drop pos).take count)

/-- `ResourceResolver::ToResourceId`. -/
def ResourceResolver.ToResourceId (r : ResourceResolver) (file_path : List Char) :
    Option (List Char) :=
  let path := Path.ofString file_path
  let path_string := path.generic_string
  let has_prefix := starts_with path_string r.type_.prefix_
  let has_suffix := ends_with path_string r.type_.suffix
  let start := if has_prefix then r.type_.prefix_.length else 0
  let end_ := size_t_sub path_string.length (if has_suffix then r.type_.suffix.length else 0)
  substr path_string start (size_t_sub end_ start)

/-- `ResourceResolver::ToFilePath`. -/
def ResourceResolver.ToFilePath (r : ResourceResolver) (resource_id : List Char) : List Char :=
  let file_path := Path.ofString resource_id
  let path_str := file_path.generic_string
  let missing_prefix := !file_path.has_parent_path && !starts_with path_str r.type_.prefix_
  let missing_suffix := !ends_with path_str r.type_.suffix
  (if missing_prefix then r.type_.prefix_ else []) ++ path_str ++
    (if missing_suffix then r.type_.suffix else [])

/-- `ResourceResolver::ResolvePath`. -/
def ResourceResolver.ResolvePath (r : ResourceResolver) (resource_id : List Char) : Path :=
  let relative_path := r.type_.prefix_ ++ resource_id ++ r.type_.suffix
  (Path.ofString relative_path).absolute r.root_path_

/-- The members of `class FallbackResourceResolver`: those of the base class and the
fallback root. -/
structure FallbackResourceResolver extends ResourceResolver where
  fallback_root_path_ : Path

/-- `FallbackResourceResolver::ResolvePath`. -/
def FallbackResourceResolver.ResolvePath (r : FallbackResourceResolver) (fs : RegularFiles)
    (resource_id : List Char) : Path :=
  let default_path := r.toResourceResolver.ResolvePath resource_id
  if Exists fs default_path then default_path
  else if !r.fallback_root_path_.empty then
    let fallback_path :=
      r.fallback_root_path_.slash (r.type_.prefix_ ++ resource_id ++ r.type_.suffix)
    if Exists fs fallback_path then fallback_path else default_path
  else default_path

/-! ## The file system under `MappedFile`

The POSIX and C++ library calls made by `mapped_file.cc` and `remove_file`, over a
file system in which a name denotes nothing, a regular file or a directory. -/

/-- What a name denotes: a regular file with its bytes, or a directory. -/
inductive Node where
  | regular (content : List Byte)
  | directory
deriving DecidableEq

/-- The error numbers told apart here. -/
inductive Errno where
  | ENOENT
  | EISDIR
  | EINVAL
  | EEXIST
  | ENOTDIR
  | EACCES
  | ENAMETOOLONG
deriving DecidableEq

/-- The file system: what each resolved name denotes; under which names a new file
may be created and under which a file may be removed (the parent directory exists
and may be written); the largest file length it supports; and the error with which
the resolution of a name that denotes nothing fails: `ENOENT`, or for instance
`ENOTDIR` for a name below a regular file, `ENAMETOOLONG`, `EACCES`. -/
structure FileSys where
  node : List Char → Option Node
  creatable : List Char → Bool
  removable : List Char → Bool
  max_size : Nat
  absent_errno : List Char → Errno

/-- Pathname resolution: the empty name resolves to nothing (`ENOENT`), and a run
of slashes counts as one slash. -/
def FileSys.lookup (fs : FileSys) (name : List Char) : Option Node :=
  if name.isEmpty then none else fs.node (Path.normalize name)

/-- The file system with what `name` denotes replaced. -/
def FileSys.put (fs : FileSys) (name : List Char) (n : Option Node) : FileSys :=
  { fs with node := fun k => if k = Path.normalize name then n else fs.node k }

/-- The oracle of `Exists` given by a file system: `stat` succeeds and `S_ISREG`. -/
def FileSys.regularFiles (fs : FileSys) : RegularFiles :=
  fun name =>
    match fs.lookup name with
    | some (Node.regular _) => true
    | _ => false

/-- The conversion of a `size_t` argument to the signed 64-bit `off_t` parameter of
`truncate` and of `pubseekoff`. -/
def to_off_t (n : Nat) : Int :=
  if n % 2 ^ 64 < 2 ^ 63 then ((n % 2 ^ 64 : Nat) : Int) else ((n % 2 ^ 64 : Nat) : Int) - 2 ^ 64

/-- `::truncate(path, length)`: fails when the name denotes no regular file, when
the length is negative (`EINVAL`), and when the file would grow beyond the largest
length the file system supports (`EFBIG`); otherwise the file keeps its first
`length` bytes and is extended with zero bytes up to `length`.  The result is whether
it returned 0. -/
def posix_truncate (fs : FileSys) (path : List Char) (length : Int) : Bool × FileSys :=
  match fs.lookup path with
  | some (Node.regular content) =>
    if length < 0 then (false, fs)
    else if content.length < length.toNat ∧ fs.max_size < length.toNat then (false, fs)
    else
      (true, fs.put path (some (Node.regular
        (content.take length.toNat ++ List.replicate (length.toNat - content.length) 0))))
  | _ => (false, fs)

/-- `unlink(path)`: removes a regular file where the file system lets it (`EACCES`
otherwise); `EISDIR` for a directory; for a name that denotes nothing the error with
which its resolution fails, `ENOENT` or another one.  No error number means it
returned 0. -/
def posix_unlink (fs : FileSys) (path : List Char) : Option Errno × FileSys :=
  match fs.lookup path with
  | some (Node.regular _) =>
    if fs.removable (Path.normalize path) then (none, fs.put path none)
    else (some Errno.EACCES, fs)
  | some Node.directory => (some Errno.EISDIR, fs)
  | none => (some (fs.absent_errno path), fs)

/-- `remove_file(const std::string &file_name)` of `rimePath.h`: the value returned,
or the message of the `std::system_error` thrown, and the file system afterwards. -/
def remove_file (fs : FileSys) (file_name : List Char) : Except (List Char) Bool × FileSys :=
  if file_name.isEmpty then (Except.ok false, fs)
  else
    match posix_unlink fs file_name with
    | (none, fs') => (Except.ok true, fs')
    | (some Errno.ENOENT, fs') => (Except.ok true, fs')
    | (some _, fs') => (Except.error ("Cannot delete file: ".toList ++ file_name), fs')

/-- The `std::filebuf` block of `MappedFile::Create`: `open` with
`in | out | trunc | binary` creates the file empty, or empties it, and fails on a
directory or where no file may be created; when it failed the later calls do
nothing.  For `capacity > 0`, `pubseekoff(capacity - 1, beg)` moves the position
unless the offset is negative as a signed 64-bit value or beyond the largest length
the file system supports (the position then stays 0); `sputc(0)` and `close` write
one zero byte at the position, which fails when the file would become longer than
the file system supports and then leaves the file empty. -/
def filebuf_create (fs : FileSys) (file_name : List Char) (capacity : Nat) : FileSys :=
  let opened : Bool :=
    match fs.lookup file_name with
    | some (Node.regular _) => true
    | some Node.directory => false
    | none => !file_name.isEmpty && fs.creatable (Path.normalize file_name)
  if !opened then fs
  else if capacity > 0 then
    let pos :=
      if to_off_t (capacity - 1) < 0 ∨ fs.max_size < capacity - 1 then 0 else capacity - 1
    if fs.max_size < pos + 1 then fs.put file_name (some (Node.regular []))
    else fs.put file_name (some (Node.regular (List.replicate pos 0 ++ [0])))
  else fs.put file_name (some (Node.regular []))

/-! ## MappedFileImpl and MappedFile (`mapped_file.cc`) -/

/-- `enum OpenMode`. -/
inductive OpenMode where
  | kOpenReadOnly
  | kOpenReadWrite
deriving DecidableEq

/-- The members of `class MappedFileImpl`.  The descriptor is represented by the
name of the file it was opened on; `address_` is the base address chosen by `mmap`;
`size_` is the length mapped. -/
structure MappedFileImpl where
  file_descriptor_ : List Char
  address_ : Nat
  size_ : Nat
deriving DecidableEq

/-- The constructor `MappedFileImpl(file_name, mode)`, that is `open_posix`: the
object, or the message of the `std::runtime_error` thrown.  `open` fails on a name
that denotes nothing and, for `O_RDWR`, on a directory; `fstat` succeeds on an open
descriptor; `mmap` fails for length 0 and for a directory.  `addr` is the address
`mmap` returns when it succeeds. -/
def MappedFileImpl.open_posix (fs : FileSys) (file_name : List Char) (mode : OpenMode)
    (addr : Nat) : Except (List Char) MappedFileImpl :=
  match fs.lookup file_name with
  | none => Except.error ("Cannot open file: ".toList ++ file_name)
  | some Node.directory =>
    if mode = OpenMode.kOpenReadOnly then Except.error "Cannot map file".toList
    else Except.error ("Cannot open file: ".toList ++ file_name)
  | some (Node.regular content) =>
    if content.length = 0 then Except.error "Cannot map file".toList
    else Except.ok { file_descriptor_ := file_name, address_ := addr, size_ := content.length }

/-- `MappedFileImpl::get_size`. -/
def MappedFileImpl.get_size (impl : MappedFileImpl) : Nat :=
  impl.size_

/-- The members of `class MappedFile` that `mapped_file.cc` uses: the file name, the
logical size and the owning pointer `file_` (nothing when null). -/
structure MappedFile where
  file_name_ : List Char
  size_ : Nat
  file_ : Option MappedFileImpl
deriving DecidableEq

/-- The constructor `MappedFile(file_name)`. -/
def MappedFile.new (file_name : List Char) : MappedFile :=
  { file_name_ := file_name, size_ := 0, file_ := none }

/-- What a call leaves behind: the value returned or the message of the exception
thrown, the store and the file system. -/
structure Outcome (α : Type) where
  result : Except (List Char) α
  store : MappedFile
  fs : FileSys

/-- `MappedFile::Exists`: `rime::Exists(file_name_)`, the name converted to a `Path`. -/
def MappedFile.Exists (m : MappedFile) (fs : FileSys) : Bool :=
  rime.Exists fs.regularFiles (Path.ofString m.file_name_)

/-- `MappedFile::IsOpen`. -/
def MappedFile.IsOpen (m : MappedFile) : Bool :=
  m.file_.isSome

/-- `MappedFile::Close`; unmapping and closing the descriptor leave the file as it is. -/
def MappedFile.Close (m : MappedFile) : MappedFile :=
  if m.file_.isSome then { m with file_ := none, size_ := 0 } else m

/-- `MappedFile::capacity`: `file_->get_size()`, nothing when `file_` is null. -/
def MappedFile.capacity (m : MappedFile) : Option Nat :=
  m.file_.map MappedFileImpl.get_size

/-- `MappedFile::Resize`.  `RESIZE_FILE(P, SZ)` is `(::truncate(P, SZ) == 0)`, an
expression whose value the statement drops; `truncate` throws nothing, so the
`catch` branch is never entered. -/
def MappedFile.Resize (m : MappedFile) (fs : FileSys) (capacity : Nat) : Outcome Bool :=
  let m1 := if m.IsOpen then m.Close else m
  let truncated := posix_truncate fs m1.file_name_ (to_off_t capacity)
  { result := Except.ok true, store := m1, fs := truncated.2 }

/-- `MappedFile::Create`; `addr` is the address `mmap` will return. -/
def MappedFile.Create (m : MappedFile) (fs : FileSys) (capacity : Nat) (addr : Nat) :
    Outcome Bool :=
  let prepared : MappedFile × FileSys :=
    if m.Exists fs then ((m.Resize fs capacity).store, (m.Resize fs capacity).fs)
    else (m, filebuf_create fs m.file_name_ capacity)
  match MappedFileImpl.open_posix prepared.2 prepared.1.file_name_ OpenMode.kOpenReadWrite addr with
  | Except.error e => { result := Except.error e, store := prepared.1, fs := prepared.2 }
  | Except.ok impl =>
    { result := Except.ok true, store := { prepared.1 with file_ := some impl, size_ := 0 },
      fs := prepared.2 }

/-- `MappedFile::OpenReadOnly`; `addr` is the address `mmap` will return. -/
def MappedFile.OpenReadOnly (m : MappedFile) (fs : FileSys) (addr : Nat) : Outcome Bool :=
  if !m.Exists fs then { result := Except.ok false, store := m, fs := fs }
  else
    match MappedFileImpl.open_posix fs m.file_name_ OpenMode.kOpenReadOnly addr with
    | Except.error e => { result := Except.error e, store := m, fs := fs }
    | Except.ok impl =>
      { result := Except.ok true, store := { m with file_ := some impl, size_ := impl.get_size },
        fs := fs }

/-- `MappedFile::OpenReadWrite`; `addr` is the address `mmap` will return. -/
def MappedFile.OpenReadWrite (m : MappedFile) (fs : FileSys) (addr : Nat) : Outcome Bool :=
  if !m.Exists fs then { result := Except.ok false, store := m, fs := fs }
  else
    match MappedFileImpl.open_posix fs m.file_name_ OpenMode.kOpenReadWrite addr with
    | Except.error e => { result := Except.error e, store := m, fs := fs }
    | Except.ok impl =>
      { result := Except.ok true, store := { m with file_ := some impl, size_ := 0 }, fs := fs }

/-- `MappedFile::ShrinkToFit` (the log line is not modelled). -/
def MappedFile.ShrinkToFit (m : MappedFile) (fs : FileSys) : Outcome Bool :=
  m.Resize fs m.size_

/-- `MappedFile::Remove`. -/
def MappedFile.Remove (m : MappedFile) (fs : FileSys) : Outcome Bool :=
  let m1 := if m.IsOpen then m.Close else m
  let removed := remove_file fs m1.file_name_
  { result := removed.1, store := m1, fs := removed.2 }

/-! ## The arena: `Allocate`, `CreateString`, `CopyString`

A pointer into the mapping is represented by its distance from `address()`; the
null pointer is nothing.  The mapping is shared, so the bytes of the mapping are
the bytes of the file. -/

/-- The bytes `content` with `bytes` stored from offset `off` on. -/
def writeAt (content : List Byte) (off : Nat) (bytes : List Byte) : List Byte :=
  content.take off ++ bytes ++ content.drop (off + bytes.length)

/-- A store through the mapping: `bytes` written at `address() + off`. -/
def MappedFile.poke (m : MappedFile) (fs : FileSys) (off : Nat) (bytes : List Byte) : FileSys :=
  match m.file_ with
  | none => fs
  | some impl =>
    match fs.lookup impl.file_descriptor_ with
    | some (Node.regular content) =>
      fs.put impl.file_descriptor_ (some (Node.regular (writeAt content off bytes)))
    | _ => fs

/-- A load through the mapping: the `n` bytes at `address() + off`. -/
def MappedFile.peek (m : MappedFile) (fs : FileSys) (off n : Nat) : List Byte :=
  match m.file_ with
  | none => []
  | some impl =>
    match fs.lookup impl.file_descriptor_ with
    | some (Node.regular content) => (content.drop off).take n
    | _ => []

/-- Modelled from the spec: `MappedFile::Allocate<T>(count)` is a template of
`mapped_file.h`, which is not among the sources.  By the spec it takes
`count * sizeof(T)` bytes from `[size, capacity)`, fills them with zero, advances
`size` and returns a reference to their start; it returns a null reference when the
request would exceed `capacity`, and it never grows the file.  A closed store has no
capacity and yields the null reference. -/
def MappedFile.Allocate (m : MappedFile) (fs : FileSys) (sizeof_T count : Nat) :
    Option Nat × MappedFile × FileSys :=
  match m.file_ with
  | none => (none, m, fs)
  | some impl =>
    let required_space := sizeof_T * count
    if m.size_ + required_space > impl.get_size then (none, m, fs)
    else
      (some m.size_, { m with size_ := m.size_ + required_space },
        m.poke fs m.size_ (List.replicate required_space 0))

/-- Modelled from the spec: the record `String` of `mapped_file.h`, which is not
among the sources: its size, the bytes that `dest->data = ptr` stores in a record
at offset `dest` for a pointer to offset `ptr`, and the pointer that `data` yields
from the bytes of a record at a given offset (nothing when null).  By the spec only
offsets are stored, never addresses. -/
structure StringLayout where
  sizeof_String : Nat
  store : Nat → Nat → List Byte
  load : Nat → List Byte → Option Nat
  store_length : ∀ dest ptr, (store dest ptr).length = sizeof_String

/-- `std::strncpy(ptr, src.c_str(), n)`: the characters of `src` before its first
zero byte, at most `n` of them, then zero bytes up to `n`. -/
def strncpy (src : List Byte) (n : Nat) : List Byte :=
  ((src.takeWhile (fun b => b ≠ 0)) ++
    List.replicate (n - (src.takeWhile (fun b => b ≠ 0)).length) 0).take n

/-- `MappedFile::CopyString`; `str` is the text as bytes. -/
def MappedFile.CopyString (layout : StringLayout) (m : MappedFile) (fs : FileSys)
    (src : List Byte) (dest : Option Nat) : Bool × MappedFile × FileSys :=
  match dest with
  | none => (false, m, fs)
  | some d =>
    let size := src.length + 1
    match m.Allocate fs 1 size with
    | (none, m1, fs1) => (false, m1, fs1)
    | (some ptr, m1, fs1) =>
      let fs2 := m1.poke fs1 ptr (strncpy src size)
      (true, m1, m1.poke fs2 d (layout.store d ptr))

/-- `MappedFile::CreateString`; `str` is the text as bytes. -/
def MappedFile.CreateString (layout : StringLayout) (m : MappedFile) (fs : FileSys)
    (str : List Byte) : Option Nat × MappedFile × FileSys :=
  match m.Allocate fs layout.sizeof_String 1 with
  | (some ret, m1, fs1) =>
    if !str.isEmpty then
      let copied := MappedFile.CopyString layout m1 fs1 str (some ret)
      (some ret, copied.2.1, copied.2.2)
    else (some ret, m1, fs1)
  | (none, m1, fs1) => (none, m1, fs1)

/-- The C string that starts at offset `off` of `content`: the bytes before the
first zero byte. -/
def c_str_at (content : List Byte) (off : Nat) : List Byte :=
  (content.drop off).takeWhile (fun b => b ≠ 0)

/-- `std::isspace` of an `unsigned char` in the "C" locale: the space and the five
controls from horizontal tab to carriage return. -/
def isspace (c : Char) : Bool :=
  c = ' ' || c = '\t' || c = '\n' || c = '\x0b' || c = '\x0c' || c = '\r'

/-- The loop of `trim_right`: `while (end > 0 && isspace(str[end - 1])) --end;`,
entered with the given value of `end`; the value of `end` when it stops. -/
def trim_right_end (str : List Char) : Nat → Nat
  | 0 => 0
  | e + 1 =>
    match str.get? e with
    | some c => if isspace c then trim_right_end str e else e + 1
    | none => e + 1

/-- `rime::trim_right(std::string&)`: nothing for the empty string, else
`str.resize(end)` with `end` found by the loop from `str.size()`. -/
def trim_right (str : List Char) : List Char :=
  if str.isEmpty then str else str.take (trim_right_end str str.length)

/-- The loop of `trim_left`: `while (start < str.size() && isspace(str[start])) ++start;`
from `start = 0`, on the characters still ahead; the value of `start` when it stops. -/
def trim_left_start : List Char → Nat
  | [] => 0
  | c :: rest => if isspace c then trim_left_start rest + 1 else 0

/-- `rime::trim_left(std::string&)`: nothing for the empty string, else
`str.erase(0, start)`. -/
def trim_left (str : List Char) : List Char :=
  if str.isEmpty then str else str.drop (trim_left_start str)

/-- `rime::trim(std::string&)`: `trim_left(str); trim_right(str);`. -/
def trim (str : List Char) : List Char :=
  trim_right (trim_left str)

/-! ## `signature.cc` -/

/-- Modelled from the spec: `Config` is declared in `config.h`, which is not among
the sources.  Of a configuration only the strings under its key paths matter here:
the string stored under a path, nothing where no string is stored. -/
abbrev Config := List Char → Option (List Char)

/-- Modelled from the spec: `Config::SetString(path, value)` stores `value` under
`path` and leaves every other path as it is. -/
def Config.SetString (config : Config) (path value : List Char) : Config :=
  fun k => if k = path then some value else config k

/-- The members of `Signature` that `Sign` reads. -/
structure Signature where
  generator_ : List Char
  key_ : List Char

/-- The members of `Deployer` that `Sign` reads. -/
structure Deployer where
  distribution_code_name : List Char
  distribution_version : List Char

/-- `Signature::Sign(config, deployer)`: the value returned and the configuration
afterwards.  `config` is nothing for the null pointer; `RIME_VERSION` is the macro
of the build; `ctime_now` is the string `ctime(&now)` yields for the time read. -/
def Signature.Sign (sig : Signature) (RIME_VERSION ctime_now : List Char)
    (config : Option Config) (deployer : Deployer) : Bool × Option Config :=
  match config with
  | none => (false, none)
  | some c =>
    let c1 := c.SetString (sig.key_ ++ "/generator".toList) sig.generator_
    let popped :=
      if !ctime_now.isEmpty && ctime_now.getLast? == some '\n' then ctime_now.dropLast
      else ctime_now
    let time_str := trim popped
    let c2 := c1.SetString (sig.key_ ++ "/modified_time".toList) time_str
    let c3 := c2.SetString (sig.key_ ++ "/distribution_code_name".toList)
      deployer.distribution_code_name
    let c4 := c3.SetString (sig.key_ ++ "/distribution_version".toList)
      deployer.distribution_version
    let c5 := c4.SetString (sig.key_ ++ "/rime_version".toList) RIME_VERSION
    (true, some c5)

/-! ## `build_info_plugin.cc` -/

/-- Modelled from the spec: a scalar held by a configuration item (the item classes
are not among the sources): a whole number or a string. -/
inductive ConfigValue
  | int (value : Int)
  | string (value : List Char)
  deriving DecidableEq

/-- Modelled from the spec: the tree under a `ConfigResource` (the class is not
among the sources), as the scalars it holds, each under the chain of keys that
`operator[]` was given to reach it; the entry stored last comes first. -/
structure ConfigTree where
  entries : List (List (List Char) × ConfigValue)

/-- The scalar under a chain of keys, nothing when none is stored. -/
def ConfigTree.get (tree : ConfigTree) (keys : List (List Char)) : Option ConfigValue :=
  (tree.entries.find? (fun e => e.1 = keys)).map Prod.snd

/-- An assignment through an item reference, `root[k1][k2]... = value`: it replaces
what was stored under that chain of keys. -/
def ConfigTree.set (tree : ConfigTree) (keys : List (List Char)) (value : ConfigValue) :
    ConfigTree :=
  { entries := (keys, value) :: tree.entries.filter (fun e => e.1 ≠ keys) }

/-- The members of `ConfigResource` that the plugin reads; `file_name` is
`data->file_name()`. -/
structure ConfigResource where
  resource_id : List Char
  loaded : Bool
  file_name : List Char
  deriving DecidableEq

/-- What `stat` reports: `st_mtime` of the file of that name, nothing when the call
fails. -/
abbrev StatTimes := List Char → Option Int

/-- `get_last_write_time(file_name)`: 0 when `stat` fails, else `st_mtime`. -/
def get_last_write_time (stat : StatTimes) (file_name : List Char) : Int :=
  match stat file_name with
  | none => 0
  | some st_mtime => st_mtime

/-- The conversion `(int) t` of a `time_t` to a 32-bit `int`. -/
def to_int (t : Int) : Int :=
  (t + 2 ^ 31) % 2 ^ 32 - 2 ^ 31

/-- The function that `ReviewLinkOutput` hands to `EnumerateResources`, applied to
one resource: the assignment to `timestamps[resource->resource_id]`. -/
def BuildInfoPlugin.record (stat : StatTimes) (tree : ConfigTree) (resource : ConfigResource) :
    ConfigTree :=
  if !resource.loaded then
    tree.set ["__build_info".toList, "timestamps".toList, resource.resource_id]
      (ConfigValue.int 0)
  else if resource.file_name.isEmpty then
    tree.set ["__build_info".toList, "timestamps".toList, resource.resource_id]
      (ConfigValue.int 0)
  else
    tree.set ["__build_info".toList, "timestamps".toList, resource.resource_id]
      (ConfigValue.int (to_int (get_last_write_time stat resource.file_name)))

/-- `BuildInfoPlugin::ReviewLinkOutput(compiler, resource)`: the value returned and
the tree of `resource` afterwards.  `enumerated` lists the resources that
`compiler->EnumerateResources` visits, in order; `RIME_VERSION` is the macro of the
build. -/
def BuildInfoPlugin.ReviewLinkOutput (RIME_VERSION : List Char) (stat : StatTimes)
    (enumerated : List ConfigResource) (resource : ConfigTree) : Bool × ConfigTree :=
  let versioned :=
    resource.set ["__build_info".toList, "rime_version".toList] (ConfigValue.string RIME_VERSION)
  (true, enumerated.foldl (BuildInfoPlugin.record stat) versioned)

/-- The resource ids that have an entry under `__build_info/timestamps`. -/
def ConfigTree.timestamp_ids (tree : ConfigTree) : List (List Char) :=
  tree.entries.filterMap (fun e =>
    match e.1 with
    | [a, b, id] =>
      if a = "__build_info".toList ∧ b = "timestamps".toList then some id else none
    | _ => none)

/-- Modelled from the spec: `is_fresh(artifact, resources)` has no definition among
the sources.  By the spec it reads the record stored in the artifact and returns true
only if every resource now resolved (given as id and path) has a file whose current
modification time equals the timestamp stored for it and no resource is newly absent
or newly present; any mismatch forces false. -/
def is_fresh (stat : StatTimes) (artifact : ConfigTree)
    (resources : List (List Char × List Char)) : Bool :=
  resources.all (fun r =>
    match artifact.get ["__build_info".toList, "timestamps".toList, r.1], stat r.2 with
    | some (ConfigValue.int stored), some now => stored == now
    | _, _ => false) &&
  artifact.timestamp_ids.all (fun id => resources.any (fun r => r.1 == id))

/-- Modelled from the spec: the condition that the freshness contract puts on any
reader `fresh` of the build record, whatever its code: it answers true only if every
resource now resolved has a file whose current modification time is the timestamp
stored for it, and every stored timestamp belongs to a resource now resolved. -/
def fresh_only_if (fresh : StatTimes → ConfigTree → List (List Char × List Char) → Bool) :
    Prop :=
  ∀ stat artifact resources, fresh stat artifact resources = true →
    (∀ r ∈ resources, ∃ t, stat r.2 = some t ∧
      artifact.get ["__build_info".toList, "timestamps".toList, r.1]
        = some (ConfigValue.int t)) ∧
    (∀ id ∈ artifact.timestamp_ids, ∃ r ∈ resources, r.1 = id)

/-! ## `utilities.cc`: `split_string_any` and `CompareVersionString` -/

/-- The position of the first character that satisfies `p`, nothing when there is
none. -/
def first_index (p : Char → Bool) : List Char → Option Nat
  | [] => none
  | c :: rest => if p c then some 0 else (first_index p rest).map (· + 1)

/-- `str.find_first_of(delimiters, pos)`; nothing is `npos`. -/
def find_first_of (str delimiters : List Char) (pos : Nat) : Option Nat :=
  (first_index (fun c => delimiters.contains c) (str.drop pos)).map (· + pos)

/-- `str.find_first_not_of(delimiters, pos)`; nothing is `npos`. -/
def find_first_not_of (str delimiters : List Char) (pos : Nat) : Option Nat :=
  (first_index (fun c => !delimiters.contains c) (str.drop pos)).map (· + pos)

/-- The loop of `split_string_any`, entered with the given `start`, `end` and
`tokens`; the tokens when it is left.  The first argument bounds the number of
iterations. -/
def split_string_any_loop (str delimiters : List Char) :
    Nat → Nat → Nat → List (List Char) → List (List Char)
  | 0, _, _, tokens => tokens
  | fuel + 1, start, end_, tokens =>
    if start < str.length then
      match find_first_not_of str delimiters end_ with
      | none => tokens
      | some start1 =>
        let end1 := (find_first_of str delimiters start1).getD str.length
        split_string_any_loop str delimiters fuel start1 end1
          (tokens ++ [(str.drop start1).take (end1 - start1)])
    else tokens

/-- `split_string_any(str, delimiters)`.  Every iteration but the last adds a token
of at least one character, so `str.size() + 1` iterations are enough. -/
def split_string_any (str delimiters : List Char) : List (List Char) :=
  split_string_any_loop str delimiters (str.length + 1) 0 0 []

/-- What the loop of `split_string_any` yields from the characters at and behind
`end`: the delimiters ahead are skipped, the characters up to the next delimiter are
a token, and so on.  The first argument bounds the number of tokens. -/
def tokens_ahead (delimiters : List Char) : Nat → List Char → List (List Char)
  | 0, _ => []
  | fuel + 1, rest =>
    match rest.dropWhile (fun c => delimiters.contains c) with
    | [] => []
    | c :: cs =>
      (c :: cs).takeWhile (fun c => !delimiters.contains c) ::
        tokens_ahead delimiters fuel ((c :: cs).dropWhile (fun c => !delimiters.contains c))

/-- `atoi(s.c_str())`: white space is skipped, an optional sign is read, then decimal
digits.  Where the value does not fit an `int` the C standard leaves the result
undefined; this follows the common implementation `(int) strtol(s, NULL, 10)`, which
saturates at the bounds of `long` and keeps the low 32 bits. -/
def atoi (s : List Char) : Int :=
  let body := s.dropWhile isspace
  let negative := body.head? == some '-'
  let unsigned_part :=
    if body.head? == some '-' || body.head? == some '+' then body.tail else body
  let magnitude : Nat :=
    (unsigned_part.takeWhile Char.isDigit).foldl (fun acc d => 10 * acc + (d.toNat - 48)) 0
  let value : Int := if negative then -(magnitude : Int) else (magnitude : Int)
  to_int (max (-2 ^ 63) (min value (2 ^ 63 - 1)))

/-- `std::string::compare`: the characters are compared one by one, then the
lengths.  The standard fixes only the sign of the result; -1, 0 and 1 stand for
negative, zero and positive. -/
def string_compare : List Char → List Char → Int
  | [], [] => 0
  | [], _ :: _ => -1
  | _ :: _, [] => 1
  | a :: as, b :: bs =>
    if a < b then -1 else if b < a then 1 else string_compare as bs

/-- The loop of `CompareVersionString` and the tests behind it, on the components
from position `i` on.  The difference `dx - dy` is an `int`: it wraps when it does
not fit. -/
def CompareVersionString_loop : List (List Char) → List (List Char) → Int
  | x :: xx, y :: yy =>
    if atoi x ≠ atoi y then to_int (atoi x - atoi y)
    else if string_compare x y ≠ 0 then string_compare x y
    else CompareVersionString_loop xx yy
  | _ :: _, [] => 1
  | [], _ :: _ => -1
  | [], [] => 0

/-- `CompareVersionString(x, y)`. -/
def CompareVersionString (x y : List Char) : Int :=
  if x.isEmpty && y.isEmpty then 0
  else if x.isEmpty then -1
  else if y.isEmpty then 1
  else
    CompareVersionString_loop (split_string_any x ".".toList) (split_string_any y ".".toList)

/-- The decimal numeral of `n` without leading zeros; `0` for zero. -/
def decimal (n : Nat) : List Char :=
  if n = 0 then ['0'] else (Nat.digits 10 n).reverse.map (fun d => Char.ofNat (48 + d))

/-- The order of the claim on lists of component values: lexicographic, a proper
prefix being smaller. -/
def version_order : List Nat → List Nat → Ordering
  | [], [] => Ordering.eq
  | [], _ :: _ => Ordering.lt
  | _ :: _, [] => Ordering.gt
  | a :: as, b :: bs =>
    if a < b then Ordering.lt else if b < a then Ordering.gt else version_order as bs

/-! ## `shape.cc`: `ShapeFormatter::Format` -/

/-- The value of a `char` that holds the byte `b`.  Whether `char` is signed is left
to the platform: with a signed `char` the bytes from 128 on are negative. -/
def char_value (char_signed : Bool) (b : Byte) : Int :=
  if char_signed && decide (128 ≤ b.val) then (b.val : Int) - 256 else (b.val : Int)

/-- The conversion `char(v)` of an `int` to a `char`: the byte congruent to `v`. -/
def to_char (v : Int) : Byte :=
  Fin.ofNat (v % 256).toNat

/-- `is_non_printable(c)`: `c < 0x20 || c > 0x7E`. -/
def is_non_printable (char_signed : Bool) (c : Byte) : Bool :=
  decide (char_value char_signed c < 0x20) || decide (char_value char_signed c > 0x7E)

/-- What the loop of `Format` writes to the stream for one character `ch`. -/
def ShapeFormatter.put (char_signed : Bool) (ch : Byte) : List Byte :=
  if char_value char_signed ch = 0x20 then [0xe3, 0x80, 0x80]
  else if char_value char_signed ch > 0x20 ∧ char_value char_signed ch ≤ 0x7e then
    [0xef,
      to_char (char_value char_signed 0xbc + (char_value char_signed ch - 0x20) / 0x40),
      to_char (char_value char_signed 0x80 + (char_value char_signed ch - 0x20) % 0x40)]
  else [ch]

/-- `ShapeFormatter::Format(text)`: the text afterwards.  `full_shape` is the value of
`engine_->context()->get_option("full_shape")`. -/
def ShapeFormatter.Format (char_signed full_shape : Bool) (text : List Byte) : List Byte :=
  if !full_shape then text
  else if text.all (is_non_printable char_signed) then text
  else text.flatMap (ShapeFormatter.put char_signed)

/-- The UTF-8 encoding of a code point (specification): one byte below U+0080, two
below U+0800, three below U+10000, else four. -/
def utf8_encode (cp : Nat) : List Byte :=
  if cp < 0x80 then [Fin.ofNat cp]
  else if cp < 0x800 then [Fin.ofNat (0xC0 + cp / 64), Fin.ofNat (0x80 + cp % 64)]
  else if cp < 0x10000 then
    [Fin.ofNat (0xE0 + cp / 4096), Fin.ofNat (0x80 + cp / 64 % 64), Fin.ofNat (0x80 + cp % 64)]
  else
    [Fin.ofNat (0xF0 + cp / 262144), Fin.ofNat (0x80 + cp / 4096 % 64),
      Fin.ofNat (0x80 + cp / 64 % 64), Fin.ofNat (0x80 + cp % 64)]

/-- The replacement of the claim for one byte (specification): U+3000 for the space,
U+FF00 + (b - 0x20) for the other bytes from 0x21 to 0x7E, the byte itself
otherwise. -/
def full_width (b : Byte) : List Byte :=
  if b.val = 0x20 then utf8_encode 0x3000
  else if 0x21 ≤ b.val ∧ b.val ≤ 0x7E then utf8_encode (0xFF00 + (b.val - 0x20))
  else [b]

/-- The string with each maximal run of `/` replaced by one `/` (specification): a
`/` is kept, the `/` that follow it at once are dropped, and every other character is
kept. -/
def squeeze_slashes : List Char → List Char
  | [] => []
  | c :: rest =>
    if c = '/' then '/' :: squeeze_slashes (rest.dropWhile (fun x => x == '/'))
    else c :: squeeze_slashes rest
termination_by l => l.length
decreasing_by
  · simp only [List.length_cons]
    exact Nat.lt_succ_of_le (List.dropWhile_suffix _).length_le
  · simp only [List.length_cons]
    exact Nat.lt_succ_self _

/-! ## `rimePath.h`: `is_any_of` and `split` -/

/-- `is_any_of::operator()`: `delimiters_.find(c) != std::string::npos`. -/
def is_any_of (delimiters_ : List Char) (c : Char) : Bool :=
  (first_index (fun d => d == c) delimiters_).isSome

/-- An inner loop of `split`, `while (it != input_string.end() && cond(*it)) ++it;`,
entered at position `it` with the characters `ahead` of it: the position at which the
loop is left.  Iterators are positions counted from `begin()`. -/
def advance_while (cond : Char → Bool) : List Char → Nat → Nat
  | [], it => it
  | c :: ahead, it => if cond c then advance_while cond ahead (it + 1) else it

/-- The outer loop of `split`, entered with the given `start` and container; the
container when the loop is left.  The first argument bounds the number of
iterations. -/
def split_loop (input_string : List Char) (predicate : Char → Bool) (compress : Bool) :
    Nat → Nat → List (List Char) → List (List Char)
  | 0, _, result_container => result_container
  | fuel + 1, start, result_container =>
    if start ≠ input_string.length then
      let start1 := advance_while predicate (input_string.drop start) start
      if start1 = input_string.length then result_container
      else
        let end1 := advance_while (fun c => !predicate c) (input_string.drop start1) start1
        let pushed := result_container ++ [(input_string.drop start1).take (end1 - start1)]
        let end2 :=
          if compress then advance_while predicate (input_string.drop end1) end1 else end1
        split_loop input_string predicate compress fuel end2 pushed
    else result_container

/-- `split(result_container, input_string, is_any_of(delimiters), compress)`: the
container afterwards.  It is cleared first; every iteration but the last adds a token
of at least one character, so `input_string.size() + 1` iterations are enough. -/
def split (result_container : List (List Char)) (input_string delimiters : List Char)
    (compress : Bool) : List (List Char) :=
  let cleared : List (List Char) := result_container.take 0
  if input_string.isEmpty then cleared
  else split_loop input_string (is_any_of delimiters) compress (input_string.length + 1) 0
    cleared

/-! ## `rimePath.h`: `create_directories`

The POSIX calls made by `Path::exists`, `Path::is_directory` and
`create_directories`, over a tree of directories with a working directory: an
absolute name is resolved from the root, any other name from the working
directory. -/

/-- The files of a process: what each chain of names from the root denotes (the
empty chain is the root), in which directories an entry may be made, and the working
directory. -/
structure DirTree where
  kind : List (List Char) → Option Node
  writable : List (List Char) → Bool
  cwd : List (List Char)

/-- The components of a name: the non-empty parts between its slashes. -/
def DirTree.components (name : List Char) : List (List Char) :=
  (name.splitOn '/').filter (fun c => !c.isEmpty)

/-- Pathname resolution from the chain `at_` along `names`: every chain passed
through must be a directory; `.` stays and `..` goes up. -/
def DirTree.walk (t : DirTree) : List (List Char) → List (List Char) →
    Except Errno (List (List Char))
  | at_, [] => Except.ok at_
  | at_, c :: rest =>
    match t.kind at_ with
    | some Node.directory =>
      if c = ".".toList then t.walk at_ rest
      else if c = "..".toList then t.walk at_.dropLast rest
      else t.walk (at_ ++ [c]) rest
    | some (Node.regular _) => Except.error Errno.ENOTDIR
    | none => Except.error Errno.ENOENT

/-- Where the resolution of a name starts: the root for an absolute name, the
working directory otherwise. -/
def DirTree.origin (t : DirTree) (name : List Char) : List (List Char) :=
  if name.head? = some '/' then [] else t.cwd

/-- `stat(name, &stat_buf)`: what the name denotes; nothing when the call fails. -/
def DirTree.stat (t : DirTree) (name : List Char) : Option Node :=
  if name.isEmpty then none
  else
    match t.walk (t.origin name) (DirTree.components name) with
    | Except.error _ => none
    | Except.ok chain =>
      match t.kind chain with
      | some Node.directory => some Node.directory
      | some (Node.regular content) =>
        if name.getLast? = some '/' then none else some (Node.regular content)
      | none => none

/-- `mkdir(name, 0755)`: the error number when the call fails, and the tree
afterwards.  The parent must resolve to a writable directory and the name must not
denote anything yet. -/
def posix_mkdir (t : DirTree) (name : List Char) : Except Errno Unit × DirTree :=
  if name.isEmpty then (Except.error Errno.ENOENT, t)
  else
    match (DirTree.components name).getLast? with
    | none => (Except.error Errno.EEXIST, t)
    | some last =>
      match t.walk (t.origin name) (DirTree.components name).dropLast with
      | Except.error e => (Except.error e, t)
      | Except.ok parent =>
        match t.kind parent with
        | none => (Except.error Errno.ENOENT, t)
        | some (Node.regular _) => (Except.error Errno.ENOTDIR, t)
        | some Node.directory =>
          if last = ".".toList ∨ last = "..".toList then (Except.error Errno.EEXIST, t)
          else if (t.kind (parent ++ [last])).isSome then (Except.error Errno.EEXIST, t)
          else if !t.writable parent then (Except.error Errno.EACCES, t)
          else
            (Except.ok (),
              { t with
                kind := fun k => if k = parent ++ [last] then some Node.directory else t.kind k })

/-- `Path::exists`. -/
def Path.exists_ (p : Path) (t : DirTree) : Bool :=
  if p.path_.isEmpty then false else (t.stat p.path_).isSome

/-- `Path::is_directory`. -/
def Path.is_directory (p : Path) (t : DirTree) : Bool :=
  if p.path_.isEmpty then false else t.stat p.path_ == some Node.directory

/-- `Path::operator/=(const std::string &other)`. -/
def Path.slash_assign (p : Path) (other : List Char) : Path :=
  { path_ := Path.join p.path_ (Path.normalize other) }

/-- The loop of `create_directories` over the characters of `p.string()`, entered
with the given `parts` and `current`, followed by the push of the last part. -/
def path_parts : List Char → List (List Char) → List Char → List (List Char)
  | [], parts, current => if !current.isEmpty then parts ++ [current] else parts
  | c :: rest, parts, current =>
    if c = '/' then
      if !current.isEmpty then path_parts rest (parts ++ [current]) []
      else path_parts rest parts current
    else path_parts rest parts (current ++ [c])

/-- What a call of `create_directories` leaves: its result, the names it passed to
`mkdir` in order, and the tree afterwards. -/
structure Created where
  result : Bool
  made : List (List Char)
  tree : DirTree

/-- The loop of `create_directories` over `parts`, entered with the given
`current_path`. -/
def create_directories_loop : DirTree → Path → List (List Char) → List (List Char) → Created
  | t, _, made, [] => { result := true, made := made, tree := t }
  | t, current_path, made, part :: rest =>
    let current_path1 := current_path.slash_assign part
    if current_path1.exists_ t then
      if !current_path1.is_directory t then { result := false, made := made, tree := t }
      else create_directories_loop t current_path1 made rest
    else
      match posix_mkdir t current_path1.string with
      | (Except.ok (), t1) =>
        create_directories_loop t1 current_path1 (made ++ [current_path1.string]) rest
      | (Except.error e, t1) =>
        if e ≠ Errno.EEXIST then
          { result := false, made := made ++ [current_path1.string], tree := t1 }
        else create_directories_loop t1 current_path1 (made ++ [current_path1.string]) rest

/-- `create_directories(p)`. -/
def create_directories (t : DirTree) (p : Path) : Created :=
  if p.empty then { result := false, made := [], tree := t }
  else if p.exists_ t && p.is_directory t then { result := true, made := [], tree := t }
  else create_directories_loop t { path_ := [] } [] (path_parts p.string [] [])

/-! ## `recognizer.cc`: `RecognizerPatterns::GetMatch` -/

/-- Modelled from the spec: the type `RecognizerMatch` is declared in
`recognizer.h`, which is not among the sources; these are the three members
`GetMatch` fills in `return {v.first, start, end}`. -/
structure RecognizerMatch where
  tag : List Char
  start : Nat
  end_ : Nat
deriving DecidableEq, Repr

/-- Modelled from the spec: the value-initialized `RecognizerMatch()`, the not-found
match: an empty tag and an empty range. -/
def RecognizerMatch.none_ : RecognizerMatch :=
  { tag := [], start := 0, end_ := 0 }

/-- Modelled from the spec: `RecognizerMatch::found`, a match with a non-empty
range. -/
def RecognizerMatch.found (m : RecognizerMatch) : Bool :=
  decide (m.start < m.end_)

/-- Modelled from the spec: a `Segment`, of which `GetMatch` reads `start` only. -/
structure Segment where
  start : Nat
  end_ : Nat
deriving DecidableEq, Repr

/-- Modelled from the spec: a `Segmentation` is its segments in order; what
`GetCurrentEndPosition()` and `GetConfirmedPosition()` return is given with it, the
two functions being defined outside the sources. -/
structure Segmentation where
  segments : List Segment
  current_end_position : Nat
  confirmed_position : Nat

/-- The loop `for (const Segment &seg : segmentation)` of `GetMatch`: whether it
returns the match (it is left at the first segment starting behind `start`). -/
def starts_a_segment (start : Nat) : List Segment → Bool
  | [] => false
  | seg :: rest =>
    if start < seg.start then false
    else if start = seg.start then true
    else starts_a_segment start rest

/-- The loop of `GetMatch` over the patterns, in the order of iteration.
`regex_search active_input pattern` stands for `std::regex_search`: nothing when there
is no match, else `m.position()` and `m.length()`.  `start` and `end` are `size_t`. -/
def GetMatch_loop {Regex : Type} (regex_search : List Char → Regex → Option (Nat × Nat))
    (input active_input : List Char) (j k : Nat) (segments : List Segment) :
    List (List Char × Regex) → RecognizerMatch
  | [] => RecognizerMatch.none_
  | v :: rest =>
    match regex_search active_input v.2 with
    | some (position, length) =>
      let start := (k + position) % 2 ^ 64
      let end_ := (start + length) % 2 ^ 64
      if end_ ≠ input.length then
        GetMatch_loop regex_search input active_input j k segments rest
      else if start = j then { tag := v.1, start := start, end_ := end_ }
      else if starts_a_segment start segments then { tag := v.1, start := start, end_ := end_ }
      else GetMatch_loop regex_search input active_input j k segments rest
    | none => GetMatch_loop regex_search input active_input j k segments rest

/-- `RecognizerPatterns::GetMatch(input, segmentation)`; `input.substr(k)` throws
`std::out_of_range` when the confirmed position is behind the end of the input. -/
def RecognizerPatterns.GetMatch {Regex : Type} (patterns : List (List Char × Regex))
    (regex_search : List Char → Regex → Option (Nat × Nat))
    (input : List Char) (segmentation : Segmentation) : Except (List Char) RecognizerMatch :=
  let j := segmentation.current_end_position
  let k := segmentation.confirmed_position
  match substr input k (2 ^ 64 - 1) with
  | none => Except.error "out_of_range".toList
  | some active_input =>
    Except.ok (GetMatch_loop regex_search input active_input j k segmentation.segments
      patterns)

/-! ## `tpSignalSlot.h`: `tpSignal`

Objects, member functions, classes and callables are told apart by numbers (their
addresses, for classes their identity as a type). -/

/-- A slot behind a `tpSlotBase *`: a `tpSlot<T, ...>` with its receiver and member
function, or a `tpLamdaSlot` with its callable. -/
inductive Slot where
  | member (T receiver function : Nat)
  | lambda (function : Nat)
deriving DecidableEq, Repr

/-- `tpSignal::Connection`. -/
structure Connection where
  slot : Slot
  lambdaID : Nat
deriving DecidableEq, Repr

/-- The member `connections_` of a `tpSignal`. -/
structure tpSignal where
  connections_ : List Connection
deriving DecidableEq, Repr

/-- `LambdaConnectionManager::nextID()` on the static counter `id`: the counter
afterwards, which is also the value returned by `++id`. -/
def LambdaConnectionManager.nextID (id : Nat) : Nat :=
  (id + 1) % 2 ^ 64

/-- The test made on a connection by `do_connect` and `disconnect` for `obj` and
`func` of class `T`: the `dynamic_cast` to `tpSlot<T, ...>` succeeds, and receiver and
function are the given ones. -/
def Connection.is_slot_of (T obj func : Nat) (conn : Connection) : Bool :=
  match conn.slot with
  | Slot.member T1 receiver function => T1 == T && receiver == obj && function == func
  | Slot.lambda _ => false

/-- `tpSignal::do_connect(T *obj, void (T::*func)(...))`. -/
def tpSignal.do_connect (s : tpSignal) (T obj func : Nat) : tpSignal :=
  if s.connections_.any (Connection.is_slot_of T obj func) then s
  else { connections_ := s.connections_ ++ [{ slot := Slot.member T obj func, lambdaID := 0 }] }

/-- `tpSignal::do_connect(std::function<...> func)` with the static counter at `id`:
the counter afterwards, which is the id returned, and the signal afterwards. -/
def tpSignal.do_connect_lambda (s : tpSignal) (id func : Nat) : Nat × tpSignal :=
  let id1 := LambdaConnectionManager.nextID id
  (id1, { connections_ := s.connections_ ++ [{ slot := Slot.lambda func, lambdaID := id1 }] })

/-- `tpSignal::disconnect(T *obj, void (T::*func)(...))`. -/
def tpSignal.disconnect (s : tpSignal) (T obj func : Nat) : tpSignal :=
  { connections_ := s.connections_.filter (fun conn => !conn.is_slot_of T obj func) }

/-- `tpSignal::disconnect(ConnectionID id)`. -/
def tpSignal.disconnect_id (s : tpSignal) (id : Nat) : tpSignal :=
  { connections_ := s.connections_.filter (fun conn => !(conn.lambdaID == id)) }

/-- `tpSignal::emit`: the slots whose `exec` is called, in order. -/
def tpSignal.emit (s : tpSignal) : List Slot :=
  s.connections_.map (fun conn => conn.slot)

/-- A call made on a signal. -/
inductive Call where
  | connect (T obj func : Nat)
  | connect_lambda (func : Nat)
  | disconnect (T obj func : Nat)
  | disconnect_id (id : Nat)
deriving DecidableEq, Repr

/-- The static counter of `nextID` and the signal after one call. -/
def Call.apply (state : Nat × tpSignal) : Call → Nat × tpSignal
  | Call.connect T obj func => (state.1, state.2.do_connect T obj func)
  | Call.connect_lambda func => state.2.do_connect_lambda state.1 func
  | Call.disconnect T obj func => (state.1, state.2.disconnect T obj func)
  | Call.disconnect_id id => (state.1, state.2.disconnect_id id)

/-- The signal after a sequence of calls on a new signal, the static counter being
at `id` before. -/
def tpSignal.after (id : Nat) (calls : List Call) : tpSignal :=
  (calls.foldl Call.apply (id, { connections_ := [] })).2

/-- The (class, receiver, member function) triples of the member-function
connections of a signal, in the order of the list. -/
def tpSignal.member_pairs (s : tpSignal) : List (Nat × Nat × Nat) :=
  s.connections_.filterMap (fun conn =>
    match conn.slot with
    | Slot.member T receiver function => some (T, receiver, function)
    | Slot.lambda _ => none)

/-! ## Sample data for the concrete instances below -/

/-- A resource type with prefix `p_` and suffix `.yaml`. -/
def sampleType : ResourceType :=
  { name := "config".toList, prefix_ := "p_".toList, suffix := ".yaml".toList }

/-- A resource type with prefix `p_` whose suffix `/x` begins with a `/`. -/
def slashType : ResourceType :=
  { name := "config".toList, prefix_ := "p_".toList, suffix := "/x".toList }

/-- A resource type with an empty prefix and suffix `.yaml`. -/
def yamlType : ResourceType :=
  { name := "config".toList, prefix_ := [], suffix := ".yaml".toList }

/-- A fallback resolver for `sampleType` with root `/user` and fallback root `/shared`. -/
def sampleFallback : FallbackResourceResolver :=
  { type_ := sampleType, root_path_ := Path.ofString "/user".toList,
    fallback_root_path_ := Path.ofString "/shared".toList }

/-- An oracle under which the resource `luna` exists under both roots. -/
def inBothRoots : RegularFiles :=
  fun p => p == "/user/p_luna.yaml".toList || p == "/shared/p_luna.yaml".toList

/-- An oracle under which the resource `luna` exists under the fallback root only. -/
def inFallbackOnly : RegularFiles :=
  fun p => p == "/shared/p_luna.yaml".toList

/-- An oracle under which nothing exists. -/
def inNeither : RegularFiles :=
  fun _ => false

/-- A file system with a directory `/d`, in which files may be created and removed,
that holds the regular file `/d/x.bin` of four bytes and the regular file `/d/a.bin`
of twelve bytes, each of value 7.  Files may be 2^44 bytes long (16 TiB), and a name
below one of the two regular files fails to resolve with `ENOTDIR`. -/
def sampleFs : FileSys :=
  { node := fun k =>
      if k = "/d/x.bin".toList then some (Node.regular [1, 2, 3, 4])
      else if k = "/d/a.bin".toList then some (Node.regular (List.replicate 12 7))
      else if k = "/d".toList then some Node.directory
      else none,
    creatable := fun k => k.take 3 == "/d/".toList,
    removable := fun k => k.take 3 == "/d/".toList,
    max_size := 2 ^ 44,
    absent_errno := fun k =>
      if k.take 9 == "/d/x.bin/".toList || k.take 9 == "/d/a.bin/".toList then Errno.ENOTDIR
      else Errno.ENOENT }

/-- A closed store on the existing file `/d/x.bin`. -/
def storeX : MappedFile :=
  MappedFile.new "/d/x.bin".toList

/-- A closed store on the name `/d/y.bin`, which denotes nothing in `sampleFs`. -/
def storeY : MappedFile :=
  MappedFile.new "/d/y.bin".toList

/-- A closed store on the name `/d/x.bin/z`, below the regular file `/d/x.bin`. -/
def storeBelow : MappedFile :=
  MappedFile.new "/d/x.bin/z".toList

/-- An open store on `/d/x.bin`, mapped over its four bytes, of which two are in use. -/
def storeXUsed : MappedFile :=
  { file_name_ := "/d/x.bin".toList, size_ := 2,
    file_ := some { file_descriptor_ := "/d/x.bin".toList, address_ := 4096, size_ := 4 } }

/-- An open store on `/d/x.bin`, mapped over its four bytes, none of them in use. -/
def storeXFresh : MappedFile :=
  { file_name_ := "/d/x.bin".toList, size_ := 0,
    file_ := some { file_descriptor_ := "/d/x.bin".toList, address_ := 4096, size_ := 4 } }

/-- An open store on `/d/a.bin`, mapped over its twelve bytes, none of them in use. -/
def storeA : MappedFile :=
  { file_name_ := "/d/a.bin".toList, size_ := 0,
    file_ := some { file_descriptor_ := "/d/a.bin".toList, address_ := 4096, size_ := 12 } }

/-- A layout for the concrete instances: a record of four bytes that holds, least
significant byte first, the distance from the record to the characters; the
distance 0 is the null pointer. -/
def sampleLayout : StringLayout :=
  { sizeof_String := 4,
    store := fun dest ptr =>
      (List.range 4).map (fun i => (Fin.ofNat (((ptr - dest) / 256 ^ i) % 256) : Byte)),
    load := fun dest bytes =>
      if bytes.foldr (fun b acc => b.val + 256 * acc) 0 = 0 then none
      else some (dest + bytes.foldr (fun b acc => b.val + 256 * acc) 0),
    store_length := fun _ _ => by simp }

/-- A loaded resource read from the file `/d/default.yaml`. -/
def resDefault : ConfigResource :=
  { resource_id := "default".toList, loaded := true, file_name := "/d/default.yaml".toList }

/-- A resource that was not loaded. -/
def resMissing : ConfigResource :=
  { resource_id := "missing".toList, loaded := false, file_name := [] }

/-- A loaded resource that has no file name. -/
def resMemory : ConfigResource :=
  { resource_id := "memory".toList, loaded := true, file_name := [] }

/-- A loaded resource whose file `/d/gone.yaml` is no longer there. -/
def resGone : ConfigResource :=
  { resource_id := "gone".toList, loaded := true, file_name := "/d/gone.yaml".toList }

/-- Only `/d/default.yaml` can be stat'ed; it was modified at 1700000000. -/
def sampleStat : StatTimes :=
  fun k => if k = "/d/default.yaml".toList then some 1700000000 else none

/-- Only `/d/default.yaml` can be stat'ed; it was modified at 2147483648, the first
second that a 32-bit `int` does not hold. -/
def lateStat : StatTimes :=
  fun k => if k = "/d/default.yaml".toList then some 2147483648 else none

/-- A tree that holds nothing. -/
def emptyTree : ConfigTree :=
  { entries := [] }

/-- A signature with the generator id `installer` and the key prefix `customization`. -/
def sampleSignature : Signature :=
  { generator_ := "installer".toList, key_ := "customization".toList }

/-- A deployer of the distribution `Weasel`, version `0.15`. -/
def sampleDeployer : Deployer :=
  { distribution_code_name := "Weasel".toList, distribution_version := "0.15".toList }

/-- A configuration that holds no string. -/
def blankConfig : Config :=
  fun _ => none

/-- A line as `ctime` formats it, without its final newline. -/
def ctimeLine : List Char :=
  "Wed Jun 30 21:49:08 1993".toList

/-- A resource type with prefix `p_` whose suffix `//x` holds two adjacent `/`. -/
def doubleSlashType : ResourceType :=
  { name := "config".toList, prefix_ := "p_".toList, suffix := "//x".toList }

/-- A tree holding the root and the directory `/w`, which is the working
directory; entries may be made everywhere. -/
def workTree : DirTree :=
  { kind := fun k => if k = [] ∨ k = ["w".toList] then some Node.directory else none,
    writable := fun _ => true,
    cwd := ["w".toList] }

/-- A search oracle for patterns that are literal texts: the first place at which
the text occurs. -/
def literal_search (s : List Char) (pattern : List Char) : Option (Nat × Nat) :=
  ((List.range (s.length + 1)).find? (fun i => (s.drop i).take pattern.length == pattern)).map
    (fun i => (i, pattern.length))

/-- A segmentation of `ab12`: one segment `ab`, confirmed up to 0, ending at 2. -/
def sampleSegmentation : Segmentation :=
  { segments := [{ start := 0, end_ := 2 }], current_end_position := 2,
    confirmed_position := 0 }

/-! ## Lemmas on the register arithmetic -/

theorem crcShiftStep_xor (a b : Nat) :
    crcShiftStep (a ^^^ b) = crcShiftStep a ^^^ crcShiftStep b := by
  unfold crcShiftStep
  have hs : (a ^^^ b) >>> 1 = (a >>> 1) ^^^ (b >>> 1) := by
    apply Nat.eq_of_testBit_eq
    intro i
    simp
  rw [hs, Nat.and_xor_distrib_right, Nat.and_one_is_mod, Nat.and_one_is_mod]
  rcases Nat.mod_two_eq_zero_or_one a with ha | ha <;>
    rcases Nat.mod_two_eq_zero_or_one b with hb | hb <;>
    simp only [ha, hb] <;>
    apply Nat.eq_of_testBit_eq <;>
    intro i <;>
    simp only [Nat.testBit_xor] <;>
    cases (a >>> 1).testBit i <;> cases (b >>> 1).testBit i <;>
    cases (3988292384 : Nat).testBit i <;> simp

theorem crcShiftStep_iterate_xor (k a b : Nat) :
    crcShiftStep^[k] (a ^^^ b) = crcShiftStep^[k] a ^^^ crcShiftStep^[k] b := by
  induction k generalizing a b with
  | zero => rfl
  | succ k ih => simp only [Function.iterate_succ, Function.comp, crcShiftStep_xor, ih]

theorem crcShiftStep_double (y : Nat) : crcShiftStep (2 * y) = y := by
  unfold crcShiftStep
  have h1 : (2 * y) &&& 1 = 0 := by rw [Nat.and_one_is_mod]; omega
  have h2 : (2 * y) >>> 1 = y := by rw [Nat.shiftRight_eq_div_pow]; omega
  simp [h1, h2]

theorem crcShiftStep_iterate_shifted (k y : Nat) : crcShiftStep^[k] (2 ^ k * y) = y := by
  induction k generalizing y with
  | zero => simp
  | succ k ih =>
    rw [Function.iterate_succ, Function.comp,
      show 2 ^ (k + 1) * y = 2 * (2 ^ k * y) by ring, crcShiftStep_double, ih]

theorem split_low_high (k x : Nat) : x = (x % 2 ^ k) ^^^ (2 ^ k * (x >>> k)) := by
  apply Nat.eq_of_testBit_eq
  intro i
  rw [Nat.testBit_xor, Nat.testBit_mod_two_pow, Nat.testBit_mul_pow_two, Nat.testBit_shiftRight]
  by_cases h : i < k
  · simp [h, Nat.not_le.mpr h]
  · have h2 : k ≤ i := Nat.le_of_not_lt h
    simp [h, h2, Nat.add_sub_cancel' h2]

/-- Eight reduction steps act on the low byte alone; the rest moves down. -/
theorem crcShiftStep_eight (x : Nat) :
    crcShiftStep^[8] x = crcTableEntry (x % 256) ^^^ (x >>> 8) := by
  conv_lhs => rw [split_low_high 8 x]
  rw [crcShiftStep_iterate_xor, crcShiftStep_iterate_shifted]
  rfl

theorem table_lookup (i : Nat) (h : i < 256) :
    CRC32Calculator.new.table_.getD i 0 = crcTableEntry i := by
  simp [CRC32Calculator.new, CRC32Calculator.Reset, List.getD_eq_getElem?_getD, h]

theorem specBit_eq (reg : Nat) (bit : Bool) :
    specBit reg bit = crcShiftStep (reg ^^^ bit.toNat) := by
  have h1 : crcShiftStep 1 = 0xEDB88320 := by decide
  have hd : reg >>> 1 = reg / 2 := by rw [Nat.shiftRight_eq_div_pow, Nat.pow_one]
  cases bit
  · simp only [Bool.toNat_false, Nat.xor_zero]
    unfold specBit crcShiftStep specPoly
    rw [Nat.testBit_zero, Nat.and_one_is_mod, hd]
    rcases Nat.mod_two_eq_zero_or_one reg with h | h <;> simp [h]
  · simp only [Bool.toNat_true]
    rw [crcShiftStep_xor, h1]
    unfold specBit crcShiftStep specPoly
    rw [Nat.testBit_zero, Nat.and_one_is_mod, hd]
    rcases Nat.mod_two_eq_zero_or_one reg with h | h <;> simp [h, Nat.xor_cancel_right]

theorem mod_two_pow_succ_xor (x k : Nat) :
    x % 2 ^ (k + 1) = (x % 2 ^ k) ^^^ (2 ^ k * (x.testBit k).toNat) := by
  apply Nat.eq_of_testBit_eq
  intro i
  rw [Nat.testBit_xor, Nat.testBit_mod_two_pow, Nat.testBit_mod_two_pow,
    Nat.testBit_mul_pow_two, Nat.testBit_bool_to_nat]
  rcases Nat.lt_trichotomy i k with h | h | h
  · have h1 : i < k + 1 := by omega
    have h2 : ¬ k ≤ i := by omega
    simp [h, h1, h2]
  · subst h
    simp
  · have h1 : ¬ i < k + 1 := by omega
    have h2 : ¬ i < k := by omega
    have h3 : i - k ≠ 0 := by omega
    simp [h1, h2, h3]

/-- Shifting the low `k` bits of `x` through the register one at a time is `k`
reduction steps on the register with those bits added in. -/
theorem specBit_foldl (k reg x : Nat) :
    ((List.range k).map (fun i => x.testBit i)).foldl specBit reg
      = crcShiftStep^[k] (reg ^^^ (x % 2 ^ k)) := by
  induction k with
  | zero => simp [Nat.mod_one]
  | succ k ih =>
    rw [List.range_succ, List.map_append, List.foldl_append, ih]
    simp only [List.map_cons, List.map_nil, List.foldl_cons, List.foldl_nil]
    rw [specBit_eq, Function.iterate_succ_apply', mod_two_pow_succ_xor, ← Nat.xor_assoc,
      crcShiftStep_iterate_xor k (reg ^^^ x % 2 ^ k), crcShiftStep_iterate_shifted]

theorem specBit_byte (reg : Nat) (b : Byte) :
    (specBitsOf b).foldl specBit reg = crcShiftStep^[8] (reg ^^^ b.val) := by
  unfold specBitsOf
  rw [specBit_foldl, Nat.mod_eq_of_lt (show b.val < 2 ^ 8 from b.isLt)]

theorem xor_byte_shiftRight (crc : Nat) (b : Byte) : (crc ^^^ b.val) >>> 8 = crc >>> 8 := by
  apply Nat.eq_of_testBit_eq
  intro i
  have hb : b.val.testBit (8 + i) = false :=
    Nat.testBit_lt_two_pow (Nat.lt_of_lt_of_le b.isLt
      (show 256 ≤ 2 ^ (8 + i) by rw [Nat.pow_add]; exact Nat.le_mul_of_pos_right _ (by positivity)))
  simp [hb]

/-- With the constructor's table, one `Update` iteration is the byte added into the
register followed by eight reduction steps. -/
theorem feed_eq (c : CRC32Calculator) (h : c.table_ = CRC32Calculator.new.table_) (b : Byte) :
    (c.feed b).crc_ = crcShiftStep^[8] (c.crc_ ^^^ b.val) := by
  have hm : (c.crc_ ^^^ b.val) &&& 0xFF = (c.crc_ ^^^ b.val) % 256 :=
    Nat.and_pow_two_sub_one_eq_mod _ 8
  simp only [CRC32Calculator.feed]
  rw [h, hm, table_lookup _ (Nat.mod_lt _ (by decide)), crcShiftStep_eight, xor_byte_shiftRight]

theorem feed_table (c : CRC32Calculator) (b : Byte) : (c.feed b).table_ = c.table_ := rfl

theorem Update_table (c : CRC32Calculator) (data : List Byte) :
    (c.Update data).table_ = c.table_ := by
  induction data generalizing c with
  | nil => rfl
  | cons b bs ih => simp only [CRC32Calculator.Update, List.foldl_cons] at ih ⊢; rw [ih, feed_table]

theorem Update_eq_spec (c : CRC32Calculator) (h : c.table_ = CRC32Calculator.new.table_)
    (data : List Byte) :
    (c.Update data).crc_ = (data.flatMap specBitsOf).foldl specBit c.crc_ := by
  induction data generalizing c with
  | nil => rfl
  | cons b bs ih =>
    have ht : (c.feed b).table_ = CRC32Calculator.new.table_ := by rw [feed_table, h]
    have := ih (c.feed b) ht
    simp only [CRC32Calculator.Update, List.foldl_cons, List.flatMap_cons, List.foldl_append]
      at this ⊢
    rw [this, feed_eq c h, specBit_byte]

/-- The register after `Update`, with the constructor's table: each byte is added
into the register and eight reduction steps follow. -/
theorem Update_crc (c : CRC32Calculator) (h : c.table_ = CRC32Calculator.new.table_)
    (data : List Byte) :
    (c.Update data).crc_ = data.foldl (fun r b => crcShiftStep^[8] (r ^^^ b.val)) c.crc_ := by
  induction data generalizing c with
  | nil => rfl
  | cons b bs ih =>
    have ht : (c.feed b).table_ = CRC32Calculator.new.table_ := by rw [feed_table, h]
    have := ih (c.feed b) ht
    simp only [CRC32Calculator.Update, List.foldl_cons] at this ⊢
    rw [this, feed_eq c h]

theorem crcShiftStep_lt (x : Nat) (h : x < 2 ^ 32) : crcShiftStep x < 2 ^ 32 := by
  unfold crcShiftStep
  apply Nat.xor_lt_two_pow
  · rw [Nat.shiftRight_eq_div_pow]
    exact Nat.lt_of_le_of_lt (Nat.div_le_self _ _) h
  · split <;> decide

theorem crcShiftStep_testBit_top (x : Nat) (h : x < 2 ^ 32) :
    (crcShiftStep x).testBit 31 = decide (x % 2 = 1) := by
  unfold crcShiftStep
  have hx : x.testBit 32 = false := Nat.testBit_lt_two_pow h
  rw [Nat.testBit_xor, Nat.testBit_shiftRight, Nat.and_one_is_mod]
  rcases Nat.mod_two_eq_zero_or_one x with h0 | h0
  · simp [h0, hx]
  · have hp : (3988292384 : Nat).testBit 31 = true := by decide
    simp [h0, hx, hp]

theorem crcShiftStep_inj (x y : Nat) (hx : x < 2 ^ 32) (hy : y < 2 ^ 32)
    (h : crcShiftStep x = crcShiftStep y) : x = y := by
  have hb : decide (x % 2 = 1) = decide (y % 2 = 1) := by
    rw [← crcShiftStep_testBit_top x hx, ← crcShiftStep_testBit_top y hy, h]
  have hpar : x % 2 = y % 2 := by
    rcases Nat.mod_two_eq_zero_or_one x with h0 | h0 <;>
      rcases Nat.mod_two_eq_zero_or_one y with h1 | h1 <;> simp_all
  unfold crcShiftStep at h
  rw [Nat.and_one_is_mod, Nat.and_one_is_mod, hpar] at h
  have hs : x >>> 1 = y >>> 1 := Nat.xor_left_injective h
  rw [Nat.shiftRight_eq_div_pow, Nat.shiftRight_eq_div_pow, Nat.pow_one] at hs
  omega

theorem crcShiftStep_iterate_lt (k x : Nat) (h : x < 2 ^ 32) : crcShiftStep^[k] x < 2 ^ 32 := by
  induction k generalizing x with
  | zero => exact h
  | succ k ih => rw [Function.iterate_succ_apply]; exact ih _ (crcShiftStep_lt x h)

theorem crcShiftStep_iterate_inj (k x y : Nat) (hx : x < 2 ^ 32) (hy : y < 2 ^ 32)
    (h : crcShiftStep^[k] x = crcShiftStep^[k] y) : x = y := by
  induction k generalizing x y with
  | zero => exact h
  | succ k ih =>
    rw [Function.iterate_succ_apply, Function.iterate_succ_apply] at h
    exact crcShiftStep_inj x y hx hy (ih _ _ (crcShiftStep_lt x hx) (crcShiftStep_lt y hy) h)

theorem xor_byte_lt (r : Nat) (b : Byte) (h : r < 2 ^ 32) : r ^^^ b.val < 2 ^ 32 :=
  Nat.xor_lt_two_pow h (Nat.lt_trans b.isLt (by decide))

/-- Registers that differ stay different, and in range, over any further bytes. -/
theorem foldl_register_ne (data : List Byte) (r s : Nat) (hr : r < 2 ^ 32) (hs : s < 2 ^ 32)
    (h : r ≠ s) :
    data.foldl (fun r b => crcShiftStep^[8] (r ^^^ b.val)) r
      ≠ data.foldl (fun r b => crcShiftStep^[8] (r ^^^ b.val)) s ∧
    data.foldl (fun r b => crcShiftStep^[8] (r ^^^ b.val)) r < 2 ^ 32 ∧
    data.foldl (fun r b => crcShiftStep^[8] (r ^^^ b.val)) s < 2 ^ 32 := by
  induction data generalizing r s with
  | nil => exact ⟨h, hr, hs⟩
  | cons b bs ih =>
    simp only [List.foldl_cons]
    apply ih
    · exact crcShiftStep_iterate_lt 8 _ (xor_byte_lt r b hr)
    · exact crcShiftStep_iterate_lt 8 _ (xor_byte_lt s b hs)
    · intro he
      have := crcShiftStep_iterate_inj 8 _ _ (xor_byte_lt r b hr) (xor_byte_lt s b hs) he
      exact h (Nat.xor_left_injective this)

theorem foldl_register_lt (data : List Byte) (r : Nat) (hr : r < 2 ^ 32) :
    data.foldl (fun r b => crcShiftStep^[8] (r ^^^ b.val)) r < 2 ^ 32 := by
  induction data generalizing r with
  | nil => exact hr
  | cons b bs ih =>
    simp only [List.foldl_cons]
    exact ih _ (crcShiftStep_iterate_lt 8 _ (xor_byte_lt r b hr))

theorem Update_append (c : CRC32Calculator) (xs ys : List Byte) :
    c.Update (xs ++ ys) = (c.Update xs).Update ys := by
  simp only [CRC32Calculator.Update, List.foldl_append]

theorem readLoop_eq_Update (n : Nat) :
    ∀ (c : CRC32Calculator) (bytes : List Byte), bytes.length ≤ n →
      readLoop c bytes = c.Update bytes := by
  induction n with
  | zero =>
    intro c bytes h
    have hb : bytes = [] := List.length_eq_zero.mp (Nat.le_zero.mp h)
    subst hb
    rw [readLoop]
    simp [buffer_size]
  | succ n ih =>
    intro c bytes h
    rw [readLoop]
    by_cases hlen : buffer_size ≤ bytes.length
    · rw [if_pos hlen, ih]
      · rw [← Update_append, List.take_append_drop]
      · rw [List.length_drop]
        unfold buffer_size at *
        omega
    · rw [if_neg hlen, List.take_of_length_le (Nat.le_of_lt (Nat.lt_of_not_le hlen))]

theorem ProcessFile_table (c : ChecksumComputer) (fs : FileSystem) (file_name : List Char) :
    (c.ProcessFile fs file_name).2.crc_.table_ = c.crc_.table_ := by
  unfold ChecksumComputer.ProcessFile
  cases fs file_name with
  | none => rfl
  | some bytes =>
    simp only
    rw [readLoop_eq_Update bytes.length _ _ (Nat.le_refl _), Update_table]
    rfl

/-! ## Lemmas on paths and strings -/

theorem bothSlash_eq_true (a b : Char) : bothSlash a b = true ↔ (a = '/' ∧ b = '/') := by
  simp [bothSlash]

theorem chain_of_no_double_slash (s : List Char) (h : ¬ ['/', '/'] <:+: s) :
    List.Chain' NotBothSlash s := by
  induction s with
  | nil => exact List.chain'_nil
  | cons x xs ih =>
    rw [List.infix_cons_iff, not_or] at h
    rw [List.chain'_cons']
    refine ⟨?_, ih h.2⟩
    intro y hy hxy
    cases xs with
    | nil => simp at hy
    | cons z zs =>
      simp only [List.head?_cons, Option.mem_def, Option.some.injEq] at hy
      subst hy
      apply h.1
      rw [hxy.1, hxy.2]
      exact ⟨zs, rfl⟩

theorem no_double_slash_of_chain (s : List Char) (h : List.Chain' NotBothSlash s) :
    ¬ ['/', '/'] <:+: s := by
  induction s with
  | nil =>
    intro hi
    have := List.eq_nil_of_infix_nil hi
    simp at this
  | cons x xs ih =>
    rw [List.chain'_cons'] at h
    rw [List.infix_cons_iff, not_or]
    refine ⟨?_, ih h.2⟩
    intro hp
    cases xs with
    | nil =>
      have := hp.length_le
      simp at this
    | cons z zs =>
      rw [List.cons_prefix_cons, List.cons_prefix_cons] at hp
      exact h.1 z rfl ⟨hp.1.symm, hp.2.1.symm⟩

theorem uniqueFrom_noop (last : Char) (xs : List Char)
    (h : List.Chain' NotBothSlash (last :: xs)) : uniqueFrom bothSlash last xs = xs := by
  induction xs generalizing last with
  | nil => rfl
  | cons x xs ih =>
    rw [List.chain'_cons'] at h
    have hne : bothSlash last x = false := by
      rw [← Bool.not_eq_true, bothSlash_eq_true]
      exact h.1 x rfl
    simp only [uniqueFrom, hne, Bool.false_eq_true, if_false]
    rw [ih x h.2]

theorem normalize_noop (s : List Char) (h : ¬ ['/', '/'] <:+: s) : Path.normalize s = s := by
  unfold Path.normalize
  cases s with
  | nil => rfl
  | cons x xs =>
    simp only [List.isEmpty_cons, Bool.false_eq_true, if_false, unique]
    rw [uniqueFrom_noop x xs (chain_of_no_double_slash _ h)]

theorem uniqueFrom_chain (last : Char) (xs : List Char) :
    List.Chain NotBothSlash last (uniqueFrom bothSlash last xs) := by
  induction xs generalizing last with
  | nil => exact List.Chain.nil
  | cons x xs ih =>
    unfold uniqueFrom
    by_cases hb : bothSlash last x = true
    · rw [if_pos hb]; exact ih last
    · rw [if_neg hb]
      refine List.Chain.cons ?_ (ih x)
      rw [bothSlash_eq_true] at hb
      exact hb

theorem normalize_no_double_slash (s : List Char) : ¬ ['/', '/'] <:+: Path.normalize s := by
  apply no_double_slash_of_chain
  unfold Path.normalize
  cases s with
  | nil => exact List.chain'_nil
  | cons x xs =>
    simp only [List.isEmpty_cons, Bool.false_eq_true, if_false, unique]
    exact uniqueFrom_chain x xs

theorem normalize_idem (s : List Char) :
    Path.normalize (Path.normalize s) = Path.normalize s :=
  normalize_noop _ (normalize_no_double_slash s)

theorem normalize_head? (s : List Char) : (Path.normalize s).head? = s.head? := by
  unfold Path.normalize
  cases s with
  | nil => rfl
  | cons x xs => rfl

theorem chain_of_no_slash (s : List Char) (h : '/' ∉ s) : List.Chain' NotBothSlash s := by
  induction s with
  | nil => exact List.chain'_nil
  | cons x xs ih =>
    rw [List.chain'_cons']
    refine ⟨fun y _ hxy => h (by rw [hxy.1]; exact List.mem_cons_self _ _), ih ?_⟩
    exact fun hm => h (List.mem_cons_of_mem _ hm)

/-- Slash-free text on both sides of a text without `//` brings in no `//`. -/
theorem no_double_slash_sandwich (a m z : List Char) (ha : '/' ∉ a) (hz : '/' ∉ z)
    (hm : ¬ ['/', '/'] <:+: m) : ¬ ['/', '/'] <:+: a ++ m ++ z := by
  apply no_double_slash_of_chain
  apply List.Chain'.append
  · apply List.Chain'.append (chain_of_no_slash a ha) (chain_of_no_double_slash m hm)
    intro x hx y _ hxy
    exact ha (by rw [← hxy.1]; exact List.mem_of_mem_getLast? hx)
  · exact chain_of_no_slash z hz
  · intro x _ y hy hxy
    exact hz (by rw [← hxy.2]; exact List.mem_of_mem_head? hy)

theorem starts_with_iff (str pre : List Char) : starts_with str pre = true ↔ pre <+: str := by
  unfold starts_with
  rw [Bool.and_eq_true, decide_eq_true_iff, beq_iff_eq]
  constructor
  · rintro ⟨_, h⟩
    exact List.prefix_iff_eq_take.mpr h.symm
  · intro h
    exact ⟨h.length_le, (List.prefix_iff_eq_take.mp h).symm⟩

theorem ends_with_iff (str suffix : List Char) :
    ends_with str suffix = true ↔ suffix <:+ str := by
  unfold ends_with
  rw [Bool.and_eq_true, decide_eq_true_iff, beq_iff_eq]
  constructor
  · rintro ⟨_, h⟩
    exact List.suffix_iff_eq_drop.mpr h.symm
  · intro h
    exact ⟨h.length_le, (List.suffix_iff_eq_drop.mp h).symm⟩

theorem size_t_sub_eq (a b : Nat) (hb : b ≤ a) (ha : a < 2 ^ 64) : size_t_sub a b = a - b := by
  unfold size_t_sub
  omega

theorem uniqueFrom_length_le (last : Char) (xs : List Char) :
    (uniqueFrom bothSlash last xs).length ≤ xs.length := by
  induction xs generalizing last with
  | nil => exact Nat.le_refl _
  | cons x xs ih =>
    unfold uniqueFrom
    split
    · exact Nat.le_succ_of_le (ih last)
    · exact Nat.succ_le_succ (ih x)

theorem normalize_length_le (s : List Char) : (Path.normalize s).length ≤ s.length := by
  unfold Path.normalize
  cases s with
  | nil => exact Nat.le_refl _
  | cons x xs =>
    simp only [List.isEmpty_cons, Bool.false_eq_true, if_false, unique, List.length_cons]
    exact Nat.succ_le_succ (uniqueFrom_length_le x xs)

/-- The computation of `ToResourceId` on a path whose normalized form splits as
`a ++ m ++ z`, where `a` is the prefix when the form starts with it and empty
otherwise, and `z` is the suffix when the form ends with it and empty otherwise. -/
theorem ToResourceId_strip (r : ResourceResolver) (file_path a m z : List Char)
    (hn : Path.normalize file_path = a ++ m ++ z) (hlen : file_path.length < 2 ^ 64)
    (ha : (if starts_with (a ++ m ++ z) r.type_.prefix_ then r.type_.prefix_ else []) = a)
    (hz : (if ends_with (a ++ m ++ z) r.type_.suffix then r.type_.suffix else []) = z) :
    r.ToResourceId file_path = some m := by
  have hle : (a ++ m ++ z).length < 2 ^ 64 := by
    rw [← hn]
    exact Nat.lt_of_le_of_lt (normalize_length_le file_path) hlen
  have hstart : (if starts_with (a ++ m ++ z) r.type_.prefix_ then r.type_.prefix_.length else 0)
      = a.length := by
    rw [← ha]
    split <;> simp_all
  have hend : (if ends_with (a ++ m ++ z) r.type_.suffix then r.type_.suffix.length else 0)
      = z.length := by
    rw [← hz]
    split <;> simp_all
  simp only [ResourceResolver.ToResourceId, Path.ofString, Path.generic_string]
  simp only [hn, hstart, hend]
  simp only [List.length_append] at hle ⊢
  rw [size_t_sub_eq _ _ (by omega) hle, size_t_sub_eq _ _ (by omega) (by omega)]
  unfold substr
  rw [if_neg (by simp only [List.length_append]; omega)]
  rw [List.append_assoc, show a.length + m.length + z.length - z.length - a.length = m.length by omega,
    List.drop_left, List.take_left]

/-- The shape of `ToFilePath` on an id without `//`. -/
theorem ToFilePath_eq (r : ResourceResolver) (id : List Char) (hid : ¬ ['/', '/'] <:+: id) :
    r.ToFilePath id =
      (if (!id.contains '/' && !starts_with id r.type_.prefix_) = true
        then r.type_.prefix_ else []) ++ id ++
      (if (!ends_with id r.type_.suffix) = true then r.type_.suffix else []) := by
  simp only [ResourceResolver.ToFilePath, Path.ofString, Path.generic_string,
    Path.has_parent_path, normalize_noop id hid]

theorem roundtrip_prefix_side (pre id z : List Char) (hp : '/' ∉ pre)
    (hnp : pre = [] ∨ ¬ pre <:+: id) :
    (if starts_with
        ((if (!id.contains '/' && !starts_with id pre) = true then pre else []) ++ id ++ z) pre
      then pre else [])
      = (if (!id.contains '/' && !starts_with id pre) = true then pre else []) := by
  by_cases hpre : pre = []
  · subst hpre
    simp
  · have hni : ¬ pre <:+: id := hnp.resolve_left hpre
    have hsw : starts_with id pre = false := by
      rw [← Bool.not_eq_true, starts_with_iff]
      exact fun h => hni h.isInfix
    by_cases hc : id.contains '/' = true
    · have hmem : '/' ∈ id := List.elem_iff.mp hc
      have hno : starts_with (id ++ z) pre = false := by
        rw [← Bool.not_eq_true, starts_with_iff]
        intro h
        rcases List.prefix_or_prefix_of_prefix h (List.prefix_append id z) with h1 | h1
        · exact hni h1.isInfix
        · exact hp (h1.subset hmem)
      have hcond : (!id.contains '/' && !starts_with id pre) = false := by rw [hc]; rfl
      rw [hcond]
      simp only [Bool.false_eq_true, if_false, List.nil_append, hno]
    · have hyes : starts_with (pre ++ id ++ z) pre = true := by
        rw [starts_with_iff, List.append_assoc]
        exact List.prefix_append _ _
      have hcond : (!id.contains '/' && !starts_with id pre) = true := by
        rw [Bool.not_eq_true] at hc
        rw [hc, hsw]
        rfl
      rw [hcond]
      simp only [if_true, hyes]

theorem roundtrip_suffix_side (suf a id : List Char) (hns : suf = [] ∨ ¬ suf <:+: id) :
    (if ends_with (a ++ id ++ (if (!ends_with id suf) = true then suf else [])) suf
      then suf else [])
      = (if (!ends_with id suf) = true then suf else []) := by
  by_cases hsuf : suf = []
  · subst hsuf
    simp
  · have hni : ¬ suf <:+: id := hns.resolve_left hsuf
    have hew : ends_with id suf = false := by
      rw [← Bool.not_eq_true, ends_with_iff]
      exact fun h => hni h.isInfix
    have hyes : ends_with (a ++ id ++ suf) suf = true := by
      rw [ends_with_iff]
      exact List.suffix_append _ _
    rw [hew]
    simp only [Bool.not_false, if_true, hyes]

theorem ResolvePath_absolute_iff (rel : List Char) :
    (Path.ofString rel).is_absolute = true ↔ rel.head? = some '/' := by
  unfold Path.is_absolute Path.ofString
  simp only [Bool.and_eq_true, Bool.not_eq_true', beq_iff_eq, normalize_head?]
  constructor
  · exact fun h => h.2
  · intro h
    refine ⟨?_, h⟩
    cases rel with
    | nil => simp at h
    | cons x xs => rfl

theorem slash_normalize (base : Path) (other : List Char) :
    base.slash (Path.normalize other) = base.slash other := by
  unfold Path.slash
  rw [normalize_idem]

theorem ToResourceId_start_le (r : ResourceResolver) (p : List Char) :
    (if starts_with p r.type_.prefix_ then r.type_.prefix_.length else 0) ≤ p.length := by
  split
  · rename_i h
    exact ((starts_with_iff _ _).mp h).length_le
  · exact Nat.zero_le _

/-! ## Lemmas on `ProcessFile`, the file system and the store -/

theorem Checksum_of_bytes (fs : FileSystem) (file_name : List Char) (bytes : List Byte)
    (h : fs file_name = some bytes) : Checksum fs file_name = Except.ok (crc32 bytes) := by
  unfold Checksum ChecksumComputer.ProcessFile
  rw [h]
  simp only [ChecksumComputer.Checksum]
  rw [readLoop_eq_Update bytes.length _ _ (Nat.le_refl _)]
  rfl

theorem Checksum_of_none (fs : FileSystem) (file_name : List Char) (h : fs file_name = none) :
    Checksum fs file_name = Except.error ("Cannot open file: ".toList ++ file_name) := by
  unfold Checksum ChecksumComputer.ProcessFile
  rw [h]

theorem normalize_eq_nil_iff (s : List Char) : Path.normalize s = [] ↔ s = [] := by
  unfold Path.normalize
  cases s with
  | nil => simp
  | cons x xs => simp [unique]

theorem normalize_isEmpty (s : List Char) : (Path.normalize s).isEmpty = s.isEmpty := by
  cases s with
  | nil => rfl
  | cons x xs => simp [Path.normalize, unique]

theorem lookup_normalize (fs : FileSys) (name : List Char) :
    fs.lookup (Path.normalize name) = fs.lookup name := by
  unfold FileSys.lookup
  rw [normalize_isEmpty, normalize_idem]

theorem lookup_put_self (fs : FileSys) (name : List Char) (n : Option Node) (h : name ≠ []) :
    (fs.put name n).lookup name = n := by
  unfold FileSys.lookup FileSys.put
  have he : name.isEmpty = false := by
    cases name with
    | nil => exact absurd rfl h
    | cons x xs => rfl
  simp [he]

theorem lookup_some_ne_nil (fs : FileSys) (name : List Char) (n : Node)
    (h : fs.lookup name = some n) : name ≠ [] := by
  intro he
  subst he
  simp [FileSys.lookup] at h

theorem Exists_eq (m : MappedFile) (fs : FileSys) :
    m.Exists fs = (match fs.lookup m.file_name_ with
      | some (Node.regular _) => true
      | _ => false) := by
  simp only [MappedFile.Exists, rime.Exists, Path.generic_string_slash, Path.ofString,
    FileSys.regularFiles, lookup_normalize]

theorem Exists_of_regular (m : MappedFile) (fs : FileSys) (content : List Byte)
    (h : fs.lookup m.file_name_ = some (Node.regular content)) : m.Exists fs = true := by
  rw [Exists_eq, h]

theorem Exists_of_absent (m : MappedFile) (fs : FileSys) (h : fs.lookup m.file_name_ = none) :
    m.Exists fs = false := by
  rw [Exists_eq, h]

theorem to_off_t_of_lt (n : Nat) (h : n < 2 ^ 63) : to_off_t n = (n : Int) := by
  unfold to_off_t
  have h1 : n % 2 ^ 64 = n := Nat.mod_eq_of_lt (by omega)
  rw [h1, if_pos h]

theorem Close_file_name (m : MappedFile) : m.Close.file_name_ = m.file_name_ := by
  unfold MappedFile.Close
  split <;> rfl

theorem Close_file (m : MappedFile) : m.Close.file_ = none := by
  unfold MappedFile.Close
  split
  · rfl
  · rename_i h
    simpa using h

theorem closed_file_name (m : MappedFile) :
    (if m.IsOpen then m.Close else m).file_name_ = m.file_name_ := by
  split
  · exact Close_file_name m
  · rfl

theorem closed_file (m : MappedFile) : (if m.IsOpen then m.Close else m).file_ = none := by
  split
  · exact Close_file m
  · rename_i h
    simpa [MappedFile.IsOpen] using h

/-- `Resize` on an existing regular file with a length that fits `off_t` and does
not make the file longer than the file system supports. -/
theorem Resize_regular (m : MappedFile) (fs : FileSys) (capacity : Nat) (content : List Byte)
    (hc : capacity < 2 ^ 63) (hg : capacity ≤ content.length ∨ capacity ≤ fs.max_size)
    (h : fs.lookup m.file_name_ = some (Node.regular content)) :
    (m.Resize fs capacity).fs.lookup m.file_name_
      = some (Node.regular (content.take capacity ++
          List.replicate (capacity - content.length) 0)) := by
  simp only [MappedFile.Resize, posix_truncate, closed_file_name, h, to_off_t_of_lt capacity hc]
  rw [if_neg (by omega)]
  simp only [Int.toNat_ofNat]
  rw [if_neg (by omega)]
  exact lookup_put_self _ _ _ (lookup_some_ne_nil fs _ _ h)

theorem Resize_file_name (m : MappedFile) (fs : FileSys) (capacity : Nat) :
    (m.Resize fs capacity).store.file_name_ = m.file_name_ := by
  simp only [MappedFile.Resize, closed_file_name]

theorem open_posix_ok (fs : FileSys) (file_name : List Char) (mode : OpenMode) (addr : Nat)
    (impl : MappedFileImpl)
    (h : MappedFileImpl.open_posix fs file_name mode addr = Except.ok impl) :
    ∃ content, fs.lookup file_name = some (Node.regular content) ∧ content.length ≠ 0 ∧
      impl = { file_descriptor_ := file_name, address_ := addr, size_ := content.length } := by
  unfold MappedFileImpl.open_posix at h
  cases hl : fs.lookup file_name with
  | none => rw [hl] at h; simp at h
  | some n =>
    cases n with
    | directory =>
      rw [hl] at h
      simp only at h
      split at h <;> simp at h
    | regular content =>
      rw [hl] at h
      simp only at h
      by_cases hz : content.length = 0
      · rw [if_pos hz] at h; simp at h
      · rw [if_neg hz] at h
        exact ⟨content, rfl, hz, (Except.ok.inj h).symm⟩

theorem open_posix_regular (fs : FileSys) (file_name : List Char) (mode : OpenMode) (addr : Nat)
    (content : List Byte) (h : fs.lookup file_name = some (Node.regular content))
    (hz : content ≠ []) :
    MappedFileImpl.open_posix fs file_name mode addr
      = Except.ok { file_descriptor_ := file_name, address_ := addr, size_ := content.length } := by
  unfold MappedFileImpl.open_posix
  rw [h]
  simp only
  rw [if_neg (fun hl => hz (List.length_eq_zero.mp hl))]

/-- The file that `Create` prepares before it maps it. -/
theorem Create_prepared (m : MappedFile) (fs : FileSys) (capacity addr : Nat) :
    (m.Create fs capacity addr).fs
      = (if m.Exists fs then (m.Resize fs capacity).fs
          else filebuf_create fs m.file_name_ capacity) := by
  unfold MappedFile.Create
  by_cases he : m.Exists fs = true
  · simp only [he, if_true]
    split <;> rfl
  · simp only [he, Bool.false_eq_true, if_false]
    split <;> rfl

/-- A `Create` that returns leaves the store open on a non-empty regular file, mapped
over its whole length, with logical size 0. -/
theorem Create_ok (m : MappedFile) (fs : FileSys) (capacity addr : Nat) (b : Bool)
    (h : (m.Create fs capacity addr).result = Except.ok b) :
    b = true ∧
    ∃ content, (m.Create fs capacity addr).fs.lookup m.file_name_ = some (Node.regular content) ∧
      content.length ≠ 0 ∧
      (m.Create fs capacity addr).store
        = { file_name_ := m.file_name_, size_ := 0,
            file_ := some { file_descriptor_ := m.file_name_, address_ := addr,
                            size_ := content.length } } := by
  have hname : (if m.Exists fs then ((m.Resize fs capacity).store, (m.Resize fs capacity).fs)
      else (m, filebuf_create fs m.file_name_ capacity)).1.file_name_ = m.file_name_ := by
    split
    · exact Resize_file_name m fs capacity
    · rfl
  unfold MappedFile.Create at h ⊢
  simp only at h ⊢
  split at h
  · simp at h
  · rename_i impl himpl
    obtain ⟨content, hl, hz, hi⟩ := open_posix_ok _ _ _ _ _ himpl
    rw [hname] at hl hi
    simp only [Except.ok.injEq] at h
    refine ⟨h.symm, content, hl, hz, ?_⟩
    simp only
    rw [hi, hname]

/-! ## Lemmas on the arena -/

theorem writeAt_length (content : List Byte) (off : Nat) (bytes : List Byte)
    (h : off + bytes.length ≤ content.length) :
    (writeAt content off bytes).length = content.length := by
  unfold writeAt
  simp only [List.length_append, List.length_take, List.length_drop]
  omega

/-- Reading back what was just written. -/
theorem writeAt_read_same (content : List Byte) (off : Nat) (bytes : List Byte)
    (h : off ≤ content.length) :
    ((writeAt content off bytes).drop off).take bytes.length = bytes := by
  unfold writeAt
  have hl : (content.take off).length = off := by
    rw [List.length_take]
    omega
  rw [List.append_assoc, List.drop_left' hl, List.take_left' rfl]

/-- A region that ends where the write begins is not touched. -/
theorem writeAt_read_before (content : List Byte) (off : Nat) (bytes : List Byte) (a n : Nat)
    (han : a + n ≤ off) (h : off ≤ content.length) :
    ((writeAt content off bytes).drop a).take n = (content.drop a).take n := by
  unfold writeAt
  have hl : (content.take off).length = off := by
    rw [List.length_take]
    omega
  rw [List.append_assoc, List.drop_append_of_le_length (by omega),
    List.take_append_of_le_length (by rw [List.length_drop]; omega), List.drop_take,
    List.take_take, Nat.min_eq_left (by omega)]

/-- A region that begins where the write ends is not touched. -/
theorem writeAt_read_after (content : List Byte) (off : Nat) (bytes : List Byte) (a n : Nat)
    (ha : off + bytes.length ≤ a) (h : off ≤ content.length) :
    ((writeAt content off bytes).drop a).take n = (content.drop a).take n := by
  unfold writeAt
  have hl : (content.take off ++ bytes).length = off + bytes.length := by
    rw [List.length_append, List.length_take]
    omega
  rw [show a = (content.take off ++ bytes).length + (a - (off + bytes.length)) by omega,
    List.drop_append, List.drop_drop, hl]

theorem poke_lookup (m : MappedFile) (fs : FileSys) (impl : MappedFileImpl)
    (content : List Byte) (off : Nat) (bytes : List Byte)
    (himpl : m.file_ = some impl)
    (hfile : fs.lookup impl.file_descriptor_ = some (Node.regular content)) :
    (m.poke fs off bytes).lookup impl.file_descriptor_
      = some (Node.regular (writeAt content off bytes)) := by
  unfold MappedFile.poke
  rw [himpl]
  simp only [hfile]
  exact lookup_put_self _ _ _ (lookup_some_ne_nil fs _ _ hfile)

theorem peek_eq (m : MappedFile) (fs : FileSys) (impl : MappedFileImpl)
    (content : List Byte) (off n : Nat)
    (himpl : m.file_ = some impl)
    (hfile : fs.lookup impl.file_descriptor_ = some (Node.regular content)) :
    m.peek fs off n = (content.drop off).take n := by
  unfold MappedFile.peek
  rw [himpl]
  simp only [hfile]

/-- `Allocate` when the request fits. -/
theorem Allocate_fits (m : MappedFile) (fs : FileSys) (impl : MappedFileImpl)
    (sizeof_T count : Nat) (himpl : m.file_ = some impl)
    (hroom : m.size_ + sizeof_T * count ≤ impl.size_) :
    m.Allocate fs sizeof_T count
      = (some m.size_, { m with size_ := m.size_ + sizeof_T * count },
          m.poke fs m.size_ (List.replicate (sizeof_T * count) 0)) := by
  unfold MappedFile.Allocate
  rw [himpl]
  simp only [MappedFileImpl.get_size]
  rw [if_neg (by omega)]

/-- `Allocate` when the request exceeds what is left: nothing changes. -/
theorem Allocate_fails (m : MappedFile) (fs : FileSys) (impl : MappedFileImpl)
    (sizeof_T count : Nat) (himpl : m.file_ = some impl)
    (hroom : impl.size_ < m.size_ + sizeof_T * count) :
    m.Allocate fs sizeof_T count = (none, m, fs) := by
  unfold MappedFile.Allocate
  rw [himpl]
  simp only [MappedFileImpl.get_size]
  rw [if_pos (by omega)]

theorem strncpy_text (text : List Byte) (hnz : (0 : Byte) ∉ text) :
    strncpy text (text.length + 1) = text ++ [0] := by
  unfold strncpy
  have ht : text.takeWhile (fun b => decide (b ≠ 0)) = text := by
    rw [List.takeWhile_eq_self_iff]
    intro x hx
    simp only [ne_eq, decide_not, Bool.not_eq_true', decide_eq_false_iff_not]
    intro h0
    exact hnz (h0 ▸ hx)
  rw [ht, show text.length + 1 - text.length = 1 by omega]
  exact List.take_of_length_le (by simp)

theorem c_str_at_text (content text rest : List Byte) (off : Nat)
    (hnz : (0 : Byte) ∉ text) (h : content.drop off = text ++ 0 :: rest) :
    c_str_at content off = text := by
  unfold c_str_at
  rw [h, List.takeWhile_append_of_pos, List.takeWhile_cons_of_neg (by simp), List.append_nil]
  intro x hx
  simp only [ne_eq, decide_not, Bool.not_eq_true', decide_eq_false_iff_not]
  intro h0
  exact hnz (h0 ▸ hx)

/-- `CreateString` of a non-empty text when there is room for the record and for the
characters: the value returned, the store and the contents of the mapped file. -/
theorem CreateString_fits (layout : StringLayout) (m : MappedFile) (fs : FileSys)
    (impl : MappedFileImpl) (content text : List Byte)
    (himpl : m.file_ = some impl)
    (hfile : fs.lookup impl.file_descriptor_ = some (Node.regular content))
    (hroom : m.size_ + layout.sizeof_String + (text.length + 1) ≤ impl.size_)
    (hne : text ≠ []) :
    (MappedFile.CreateString layout m fs text).1 = some m.size_ ∧
    (MappedFile.CreateString layout m fs text).2.1
      = { m with size_ := m.size_ + layout.sizeof_String + (text.length + 1) } ∧
    (MappedFile.CreateString layout m fs text).2.2.lookup impl.file_descriptor_
      = some (Node.regular
          (writeAt
            (writeAt
              (writeAt (writeAt content m.size_ (List.replicate layout.sizeof_String 0))
                (m.size_ + layout.sizeof_String) (List.replicate (text.length + 1) 0))
              (m.size_ + layout.sizeof_String) (strncpy text (text.length + 1)))
            m.size_ (layout.store m.size_ (m.size_ + layout.sizeof_String)))) := by
  have hemp : text.isEmpty = false := by
    cases text with
    | nil => exact absurd rfl hne
    | cons x xs => rfl
  have h1 := Allocate_fits m fs impl layout.sizeof_String 1 himpl (by omega)
  have himpl1 : ({ m with size_ := m.size_ + layout.sizeof_String * 1 } : MappedFile).file_
      = some impl := himpl
  have hfile1 := poke_lookup m fs impl content m.size_
    (List.replicate (layout.sizeof_String * 1) 0) himpl hfile
  have h2 := Allocate_fits { m with size_ := m.size_ + layout.sizeof_String * 1 }
    (m.poke fs m.size_ (List.replicate (layout.sizeof_String * 1) 0)) impl 1 (text.length + 1)
    himpl1 (by simp only; omega)
  have himpl2 : ({ ({ m with size_ := m.size_ + layout.sizeof_String * 1 } : MappedFile) with
      size_ := m.size_ + layout.sizeof_String * 1 + 1 * (text.length + 1) } : MappedFile).file_
      = some impl := himpl
  have hfile2 := poke_lookup _ _ impl _ (m.size_ + layout.sizeof_String * 1)
    (List.replicate (1 * (text.length + 1)) 0) himpl1 hfile1
  have hfile3 := poke_lookup _ _ impl _ (m.size_ + layout.sizeof_String * 1)
    (strncpy text (text.length + 1)) himpl2 hfile2
  have hfile4 := poke_lookup _ _ impl _ m.size_
    (layout.store m.size_ (m.size_ + layout.sizeof_String * 1)) himpl2 hfile3
  simp only [Nat.mul_one, Nat.one_mul] at h1 h2 hfile4
  simp only [MappedFile.CreateString, MappedFile.CopyString, h1, h2, hemp, Bool.not_false,
    if_true]
  refine ⟨trivial, ?_, hfile4⟩
  simp only [Nat.add_assoc]

/-- A closed store has logical size 0: this holds after the constructor and is kept
by `Close`, `Resize`, `ShrinkToFit`, `Remove`, `Create`, `OpenReadOnly`,
`OpenReadWrite` and `Allocate`. -/
theorem closed_size_zero_kept (m : MappedFile) (fs : FileSys) (n addr k : Nat)
    (h : m.file_ = none → m.size_ = 0) :
    (∀ name, (MappedFile.new name).file_ = none → (MappedFile.new name).size_ = 0) ∧
    (m.Close.file_ = none → m.Close.size_ = 0) ∧
    ((m.Resize fs n).store.file_ = none → (m.Resize fs n).store.size_ = 0) ∧
    ((m.ShrinkToFit fs).store.file_ = none → (m.ShrinkToFit fs).store.size_ = 0) ∧
    ((m.Remove fs).store.file_ = none → (m.Remove fs).store.size_ = 0) ∧
    ((m.Create fs n addr).store.file_ = none → (m.Create fs n addr).store.size_ = 0) ∧
    ((m.OpenReadOnly fs addr).store.file_ = none → (m.OpenReadOnly fs addr).store.size_ = 0) ∧
    ((m.OpenReadWrite fs addr).store.file_ = none →
      (m.OpenReadWrite fs addr).store.size_ = 0) ∧
    ((m.Allocate fs n k).2.1.file_ = none → (m.Allocate fs n k).2.1.size_ = 0) := by
  have hclose : ∀ x : MappedFile, (x.file_ = none → x.size_ = 0) →
      (if x.IsOpen then x.Close else x).size_ = 0 := by
    intro x hx
    unfold MappedFile.IsOpen MappedFile.Close
    cases hf : x.file_ with
    | none => simpa [hf] using hx hf
    | some impl => simp
  refine ⟨fun _ _ => rfl, ?_, fun _ => hclose m h, fun _ => hclose m h, fun _ => hclose m h,
    ?_, ?_, ?_, ?_⟩
  · intro _
    have := hclose m h
    unfold MappedFile.IsOpen MappedFile.Close at this
    unfold MappedFile.Close
    cases hf : m.file_ with
    | none => simpa [hf] using h hf
    | some impl => simp
  · unfold MappedFile.Create
    simp only
    split
    · intro hc
      by_cases he : m.Exists fs = true
      · simp only [he, if_true] at hc ⊢
        exact hclose m h
      · simp only [he, Bool.false_eq_true, if_false] at hc ⊢
        exact h hc
    · intro hc
      simp at hc
  · unfold MappedFile.OpenReadOnly
    split
    · exact h
    · split
      · exact h
      · intro hc
        simp at hc
  · unfold MappedFile.OpenReadWrite
    split
    · exact h
    · split
      · exact h
      · intro hc
        simp at hc
  · intro hc
    unfold MappedFile.Allocate at hc ⊢
    cases hf : m.file_ with
    | none =>
      simp only [hf] at hc ⊢
      exact h hf
    | some impl =>
      simp only [hf] at hc ⊢
      split at hc <;> simp [hf] at hc

theorem ConfigTree.get_set_self (tree : ConfigTree) (keys : List (List Char))
    (value : ConfigValue) : (tree.set keys value).get keys = some value := by
  simp [ConfigTree.get, ConfigTree.set]

theorem ConfigTree.get_set_other (tree : ConfigTree) (keys other : List (List Char))
    (value : ConfigValue) (h : other ≠ keys) :
    (tree.set keys value).get other = tree.get other := by
  unfold ConfigTree.get ConfigTree.set
  simp only
  rw [List.find?_cons_of_neg _ (by simpa using fun e => h e.symm)]
  congr 1
  induction tree.entries with
  | nil => rfl
  | cons e rest ih =>
    by_cases he : e.1 = keys
    · have hne : ¬ e.1 = other := fun h2 => h (h2 ▸ he)
      rw [List.filter_cons_of_neg (by simpa using he), List.find?_cons_of_neg _ (by simpa using hne)]
      exact ih
    · rw [List.filter_cons_of_pos (by simpa using he)]
      by_cases ho : e.1 = other
      · rw [List.find?_cons_of_pos _ (by simpa using ho),
          List.find?_cons_of_pos _ (by simpa using ho)]
      · rw [List.find?_cons_of_neg _ (by simpa using ho),
          List.find?_cons_of_neg _ (by simpa using ho)]
        exact ih

/-- One step of the enumeration is an assignment of a whole number to the timestamp
of the resource. -/
theorem record_eq_set (stat : StatTimes) (tree : ConfigTree) (r : ConfigResource) :
    BuildInfoPlugin.record stat tree r
      = tree.set ["__build_info".toList, "timestamps".toList, r.resource_id]
          (ConfigValue.int
            (if r.loaded = false ∨ r.file_name = [] then 0
              else to_int (get_last_write_time stat r.file_name))) := by
  unfold BuildInfoPlugin.record
  cases hl : r.loaded with
  | false => simp
  | true =>
    cases hf : r.file_name with
    | nil => simp
    | cons c cs => simp

/-- The enumeration leaves alone every chain of keys that is not the timestamp of an
enumerated resource. -/
theorem foldl_record_get_other (stat : StatTimes) (rs : List ConfigResource) :
    ∀ (tree : ConfigTree) (keys : List (List Char)),
    (∀ r ∈ rs, keys ≠ ["__build_info".toList, "timestamps".toList, r.resource_id]) →
    (rs.foldl (BuildInfoPlugin.record stat) tree).get keys = tree.get keys := by
  induction rs with
  | nil => intro tree keys _; rfl
  | cons a rest ih =>
    intro tree keys h
    rw [List.foldl_cons, ih _ keys (fun r hr => h r (List.mem_cons_of_mem _ hr)),
      record_eq_set, ConfigTree.get_set_other _ _ _ _ (h a (List.mem_cons_self _ _))]

/-- After the enumeration of resources with distinct ids, the timestamp of each is
the whole number its step assigned. -/
theorem foldl_record_get (stat : StatTimes) (rs : List ConfigResource) :
    ∀ (tree : ConfigTree), (rs.map ConfigResource.resource_id).Nodup →
    ∀ r ∈ rs,
    (rs.foldl (BuildInfoPlugin.record stat) tree).get
        ["__build_info".toList, "timestamps".toList, r.resource_id]
      = some (ConfigValue.int
          (if r.loaded = false ∨ r.file_name = [] then 0
            else to_int (get_last_write_time stat r.file_name))) := by
  induction rs with
  | nil => intro tree _ r hr; cases hr
  | cons a rest ih =>
    intro tree hnd r hr
    rw [List.map_cons, List.nodup_cons] at hnd
    rw [List.foldl_cons]
    rcases List.mem_cons.mp hr with rfl | hr
    · rw [foldl_record_get_other stat rest _ _ ?_, record_eq_set, ConfigTree.get_set_self]
      intro r2 hr2 heq
      simp only [List.cons.injEq, and_true, true_and] at heq
      exact hnd.1 (heq ▸ List.mem_map_of_mem _ hr2)
    · exact ih _ hnd.2 r hr

/-- Every enumerated resource has a whole number recorded, distinct ids or not. -/
theorem foldl_record_some (stat : StatTimes) (rs : List ConfigResource) :
    ∀ (tree : ConfigTree), ∀ r ∈ rs,
    ∃ v, (rs.foldl (BuildInfoPlugin.record stat) tree).get
        ["__build_info".toList, "timestamps".toList, r.resource_id]
      = some (ConfigValue.int v) := by
  induction rs with
  | nil => intro tree r hr; cases hr
  | cons a rest ih =>
    intro tree r hr
    rw [List.foldl_cons]
    by_cases hin : r ∈ rest
    · exact ih _ r hin
    · rcases List.mem_cons.mp hr with rfl | hr
      · by_cases hid : ∃ r2 ∈ rest, r2.resource_id = r.resource_id
        · obtain ⟨r2, hr2, he⟩ := hid
          rw [← he]
          exact ih _ r2 hr2
        · rw [foldl_record_get_other stat rest _ _ ?_, record_eq_set,
            ConfigTree.get_set_self]
          · exact ⟨_, rfl⟩
          · intro r2 hr2 heq
            simp only [List.cons.injEq, and_true, true_and] at heq
            exact hid ⟨r2, hr2, heq.symm⟩
      · exact absurd hr hin

theorem to_int_of_range (t : Int) (hlo : -2 ^ 31 ≤ t) (hhi : t < 2 ^ 31) : to_int t = t := by
  unfold to_int
  rw [Int.emod_eq_of_lt (by omega) (by omega)]
  omega

/-! ## Lemmas on trimming -/

theorem trim_left_eq (s : List Char) : trim_left s = s.dropWhile isspace := by
  unfold trim_left
  have h : ∀ l : List Char, l.drop (trim_left_start l) = l.dropWhile isspace := by
    intro l
    induction l with
    | nil => rfl
    | cons c rest ih =>
      unfold trim_left_start
      by_cases hc : isspace c = true
      · rw [if_pos hc, List.drop_succ_cons, List.dropWhile_cons_of_pos hc]
        exact ih
      · rw [if_neg hc, List.drop_zero, List.dropWhile_cons_of_neg hc]
  split
  · rename_i he
    rw [List.isEmpty_iff] at he
    rw [he]
    rfl
  · exact h s

theorem trim_right_end_le (s : List Char) (n : Nat) : trim_right_end s n ≤ n := by
  induction n with
  | zero => exact Nat.le_refl _
  | succ e ih =>
    unfold trim_right_end
    split
    · split
      · omega
      · exact Nat.le_refl _
    · exact Nat.le_refl _

theorem trim_right_end_append (l r : List Char) (n : Nat) (h : n ≤ l.length) :
    trim_right_end (l ++ r) n = trim_right_end l n := by
  induction n with
  | zero => rfl
  | succ e ih =>
    unfold trim_right_end
    have hget : (l ++ r).get? e = l.get? e := by
      simp only [List.get?_eq_getElem?]
      exact List.getElem?_append_left (by omega)
    rw [hget, ih (by omega)]

theorem trim_right_eq (s : List Char) : trim_right s = s.rdropWhile isspace := by
  unfold trim_right
  split
  · rename_i he
    rw [List.isEmpty_iff] at he
    rw [he]
    rfl
  · clear * -
    induction s using List.reverseRecOn with
    | nil => rfl
    | append_singleton init c ih =>
      rw [List.rdropWhile_concat, List.length_append, List.length_singleton]
      unfold trim_right_end
      have hget : (init ++ [c]).get? init.length = some c := by
        simp [List.get?_eq_getElem?]
      rw [hget]
      simp only
      by_cases hc : isspace c = true
      · rw [if_pos hc, if_pos hc, trim_right_end_append _ _ _ (Nat.le_refl _),
          List.take_append_of_le_length (trim_right_end_le _ _)]
        exact ih
      · rw [if_neg hc, if_neg hc]
        exact List.take_of_length_le (by simp)

theorem trim_eq (s : List Char) : trim s = (s.dropWhile isspace).rdropWhile isspace := by
  unfold trim
  rw [trim_left_eq, trim_right_eq]

theorem trim_head_not_space (s : List Char) (c : Char) (h : (trim s).head? = some c) :
    isspace c = false := by
  rw [trim_eq] at h
  have hpre : (s.dropWhile isspace).rdropWhile isspace <+: s.dropWhile isspace :=
    List.rdropWhile_prefix _ _
  obtain ⟨t, ht⟩ := hpre
  have hnot := List.head?_dropWhile_not isspace s
  rw [← ht] at hnot
  cases hr : (s.dropWhile isspace).rdropWhile isspace with
  | nil => rw [hr] at h; simp at h
  | cons x xs =>
    rw [hr] at h hnot
    simp only [List.head?_cons, Option.some.injEq] at h
    simp only [List.cons_append, List.head?_cons] at hnot
    rw [← h]
    exact hnot

theorem trim_last_not_space (s : List Char) (c : Char) (h : (trim s).getLast? = some c) :
    isspace c = false := by
  rw [trim_eq] at h
  have hne : (s.dropWhile isspace).rdropWhile isspace ≠ [] := by
    intro he
    rw [he] at h
    simp at h
  have hnot := List.rdropWhile_last_not isspace (s.dropWhile isspace) hne
  rw [List.getLast?_eq_getLast _ hne, Option.some.injEq] at h
  rw [← h]
  simpa using hnot

/-- The string is its leading white space, the trimmed string and its trailing white
space, in this order. -/
theorem trim_decompose (s : List Char) :
    s = s.takeWhile isspace ++ trim s ++ (s.dropWhile isspace).rtakeWhile isspace := by
  have h2 : ∀ l : List Char, l.rdropWhile isspace ++ l.rtakeWhile isspace = l := by
    intro l
    unfold List.rdropWhile List.rtakeWhile
    rw [← List.reverse_append, List.takeWhile_append_dropWhile, List.reverse_reverse]
  rw [trim_eq, List.append_assoc, h2, List.takeWhile_append_dropWhile]

theorem trim_idem (s : List Char) : trim (trim s) = trim s := by
  have hd : (trim s).dropWhile isspace = trim s := by
    cases ht : trim s with
    | nil => rfl
    | cons x xs =>
      have := trim_head_not_space s x (by rw [ht]; rfl)
      rw [List.dropWhile_cons_of_neg (by simp [this])]
  rw [trim_eq (trim s), hd, trim_eq, List.rdropWhile_idempotent]

theorem trim_mem (s : List Char) (c : Char) (h : c ∈ trim s) : c ∈ s := by
  rw [trim_decompose s]
  exact List.mem_append_left _ (List.mem_append_right _ h)

/-- A newline at the end makes no difference to the trimmed string. -/
theorem trim_append_newline (s : List Char) : trim (s ++ ['\n']) = trim s := by
  have hnl : isspace '\n' = true := by decide
  rw [trim_eq, trim_eq, List.dropWhile_append]
  split
  · rename_i he
    rw [List.isEmpty_iff] at he
    rw [he, List.dropWhile_cons_of_pos hnl]
    rfl
  · exact List.rdropWhile_concat_pos _ _ _ hnl

/-- What `Sign` trims: the time string, with or without the newline popped. -/
theorem trim_popped (s : List Char) :
    trim (if !s.isEmpty && s.getLast? == some '\n' then s.dropLast else s) = trim s := by
  induction s using List.reverseRecOn with
  | nil => rfl
  | append_singleton init c _ =>
    by_cases hc : c = '\n'
    · subst hc
      have hcond : (!(init ++ ['\n']).isEmpty && (init ++ ['\n']).getLast? == some '\n')
          = true := by
        simp
      rw [hcond, if_pos rfl, List.dropLast_concat]
      exact (trim_append_newline init).symm
    · have : ((init ++ [c]).getLast? == some '\n') = false := by
        simp [hc]
      rw [this, Bool.and_false]
      rfl

/-- When `is_fresh` answers true: every resource has a file whose modification time
is the timestamp stored for it, and every stored timestamp belongs to a resource. -/
theorem is_fresh_iff (stat : StatTimes) (artifact : ConfigTree)
    (resources : List (List Char × List Char)) :
    is_fresh stat artifact resources = true ↔
      (∀ r ∈ resources, ∃ t, stat r.2 = some t ∧
        artifact.get ["__build_info".toList, "timestamps".toList, r.1]
          = some (ConfigValue.int t)) ∧
      (∀ id ∈ artifact.timestamp_ids, ∃ r ∈ resources, r.1 = id) := by
  unfold is_fresh
  rw [Bool.and_eq_true, List.all_eq_true, List.all_eq_true]
  refine and_congr (forall_congr' fun r => forall_congr' fun _ => ?_)
    (forall_congr' fun id => forall_congr' fun _ => ?_)
  · cases hg : artifact.get ["__build_info".toList, "timestamps".toList, r.1] with
    | none => simp
    | some v =>
      cases v with
      | string x => simp
      | int stored =>
        cases hs : stat r.2 with
        | none => simp
        | some now =>
          simp only [beq_iff_eq, Option.some.injEq, ConfigValue.int.injEq]
          constructor
          · intro he
            exact ⟨now, rfl, he⟩
          · rintro ⟨t, ht, he⟩
            subst ht
            exact he
  · simp only [List.any_eq_true, beq_iff_eq]

/-- The reader `is_fresh` meets the condition of the freshness contract. -/
theorem is_fresh_only_if : fresh_only_if is_fresh :=
  fun stat artifact resources h => (is_fresh_iff stat artifact resources).mp h

theorem first_index_none (p : Char → Bool) (l : List Char) (h : first_index p l = none) :
    ∀ c ∈ l, p c = false := by
  induction l with
  | nil => intro c hc; cases hc
  | cons x xs ih =>
    unfold first_index at h
    by_cases hx : p x = true
    · rw [if_pos hx] at h
      cases h
    · rw [if_neg hx] at h
      intro c hc
      rcases List.mem_cons.mp hc with rfl | hc
      · simpa using hx
      · exact ih (by simpa using h) c hc

theorem first_index_some (p : Char → Bool) (l : List Char) (k : Nat)
    (h : first_index p l = some k) :
    k < l.length ∧ l.take k = l.takeWhile (fun c => !p c) ∧
      l.drop k = l.dropWhile (fun c => !p c) := by
  induction l generalizing k with
  | nil => cases h
  | cons x xs ih =>
    unfold first_index at h
    by_cases hx : p x = true
    · rw [if_pos hx] at h
      cases h
      refine ⟨by simp, ?_, ?_⟩
      · rw [List.takeWhile_cons_of_neg (by simp [hx])]
        rfl
      · rw [List.dropWhile_cons_of_neg (by simp [hx])]
        rfl
    · rw [if_neg hx] at h
      cases hk : first_index p xs with
      | none => rw [hk] at h; cases h
      | some j =>
        rw [hk] at h
        cases h
        obtain ⟨h1, h2, h3⟩ := ih j hk
        refine ⟨by simp; omega, ?_, ?_⟩
        · rw [List.take_succ_cons, List.takeWhile_cons_of_pos (by simpa using hx), h2]
        · rw [List.drop_succ_cons, List.dropWhile_cons_of_pos (by simpa using hx), h3]

/-- The loop of `split_string_any` in terms of the characters at and behind `end`. -/
theorem split_string_any_loop_eq (str delimiters : List Char) :
    ∀ (fuel start end_ : Nat) (tokens : List (List Char)), start < str.length →
    split_string_any_loop str delimiters fuel start end_ tokens
      = tokens ++ tokens_ahead delimiters fuel (str.drop end_) := by
  intro fuel
  induction fuel with
  | zero =>
    intro start end_ tokens _
    simp [split_string_any_loop, tokens_ahead]
  | succ fuel ih =>
    intro start end_ tokens hstart
    unfold split_string_any_loop tokens_ahead
    rw [if_pos hstart]
    have hnn : (fun c : Char => !(!delimiters.contains c)) = fun c => delimiters.contains c := by
      funext c
      simp
    cases hf : first_index (fun c => !delimiters.contains c) (str.drop end_) with
    | none =>
      have hall := first_index_none _ _ hf
      have hd : (str.drop end_).dropWhile (fun c => delimiters.contains c) = [] := by
        rw [List.dropWhile_eq_nil_iff]
        intro c hc
        simpa using hall c hc
      simp only [find_first_not_of, hf, Option.map_none', hd, List.append_nil]
    | some k =>
      obtain ⟨hk, -, hdrop⟩ := first_index_some _ _ k hf
      rw [hnn, List.drop_drop] at hdrop
      rw [List.length_drop] at hk
      have hlt : k + end_ < str.length := by omega
      simp only [find_first_not_of, hf, Option.map_some']
      rw [← hdrop]
      have hne : str.drop (end_ + k) ≠ [] := by
        intro he
        have := congrArg List.length he
        simp only [List.length_drop, List.length_nil] at this
        omega
      have hcomm : k + end_ = end_ + k := Nat.add_comm _ _
      rw [hcomm]
      cases hs : str.drop (end_ + k) with
      | nil => exact absurd hs hne
      | cons c cs =>
        simp only
        rw [ih _ _ _ (by omega), List.append_assoc, List.singleton_append, ← hs]
        congr 2
        · cases hg : first_index (fun c => delimiters.contains c) (str.drop (end_ + k)) with
          | none =>
            have hall := first_index_none _ _ hg
            simp only [find_first_of, hg, Option.map_none', Option.getD_none]
            rw [List.take_of_length_le (by simp), List.takeWhile_eq_self_iff.mpr]
            intro x hx
            simpa using hall x hx
          | some j =>
            obtain ⟨-, htake, -⟩ := first_index_some _ _ j hg
            simp only [find_first_of, hg, Option.map_some', Option.getD_some]
            rw [show j + (end_ + k) - (end_ + k) = j by omega]
            exact htake
        · congr 1
          cases hg : first_index (fun c => delimiters.contains c) (str.drop (end_ + k)) with
          | none =>
            have hall := first_index_none _ _ hg
            simp only [find_first_of, hg, Option.map_none', Option.getD_none]
            rw [List.drop_length, eq_comm, List.dropWhile_eq_nil_iff]
            intro x hx
            simpa using hall x hx
          | some j =>
            obtain ⟨-, -, hdrop2⟩ := first_index_some _ _ j hg
            simp only [find_first_of, hg, Option.map_some', Option.getD_some]
            rw [← hdrop2, List.drop_drop, Nat.add_comm]

theorem split_string_any_eq (str delimiters : List Char) :
    split_string_any str delimiters = tokens_ahead delimiters (str.length + 1) str := by
  unfold split_string_any
  cases str with
  | nil => simp [split_string_any_loop, tokens_ahead]
  | cons c cs =>
    rw [split_string_any_loop_eq _ _ _ _ _ _ (by simp), List.nil_append, List.drop_zero]
/-- The characters of dot-separated components, all but the first with the separator
in front. -/
theorem intercalate_cons (sep : Char) (t : List Char) (ts : List (List Char)) :
    List.intercalate [sep] (t :: ts) = t ++ ts.flatMap (fun u => sep :: u) := by
  induction ts generalizing t with
  | nil => simp [List.intercalate]
  | cons u us ih =>
    have h := ih u
    simp only [List.intercalate, List.intersperse_cons_cons, List.flatten_cons,
      List.flatMap_cons] at h ⊢
    rw [h]
    simp

/-- The tokens found ahead of components that are non-empty and free of delimiters,
each with a delimiter in front. -/
theorem tokens_ahead_joined (delimiters : List Char) (sep : Char)
    (hsep : delimiters.contains sep = true) (ts : List (List Char)) :
    (∀ t ∈ ts, t ≠ [] ∧ ∀ c ∈ t, delimiters.contains c = false) →
    ∀ fuel, ts.length < fuel →
    tokens_ahead delimiters fuel (ts.flatMap (fun u => sep :: u)) = ts := by
  induction ts with
  | nil =>
    intro _ fuel hfuel
    cases fuel with
    | zero => omega
    | succ f => simp [tokens_ahead]
  | cons u us ih =>
    intro hts fuel hfuel
    cases fuel with
    | zero => omega
    | succ f =>
      obtain ⟨hne, hclean⟩ := hts u (List.mem_cons_self _ _)
      have hrest : ∀ c, (us.flatMap (fun u => sep :: u)).head? = some c →
          delimiters.contains c = true := by
        intro c hc
        cases us with
        | nil => simp at hc
        | cons v vs =>
          simp only [List.flatMap_cons, List.cons_append, List.head?_cons,
            Option.some.injEq] at hc
          rw [← hc]
          exact hsep
      cases u with
      | nil => exact absurd rfl hne
      | cons c cs =>
        have hc : delimiters.contains c = false := hclean c (List.mem_cons_self _ _)
        have hskip : ∀ l : List Char,
            (sep :: l).dropWhile (fun c => delimiters.contains c)
              = l.dropWhile (fun c => delimiters.contains c) :=
          fun l => List.dropWhile_cons_of_pos hsep
        unfold tokens_ahead
        rw [List.flatMap_cons, List.cons_append, hskip, List.cons_append,
          List.dropWhile_cons_of_neg (by simpa using hc)]
        simp only
        have htw : (c :: (cs ++ us.flatMap (fun u => sep :: u))).takeWhile
            (fun c => !delimiters.contains c) = c :: cs := by
          rw [← List.cons_append, List.takeWhile_append_of_pos
            (fun a ha => by simpa using hclean a ha)]
          cases hr : us.flatMap (fun u => sep :: u) with
          | nil => simp
          | cons r rs =>
            rw [List.takeWhile_cons_of_neg (by simpa using hrest r (by rw [hr]; rfl))]
            simp
        have hdw : (c :: (cs ++ us.flatMap (fun u => sep :: u))).dropWhile
            (fun c => !delimiters.contains c) = us.flatMap (fun u => sep :: u) := by
          rw [← List.cons_append, List.dropWhile_append_of_pos
            (fun a ha => by simpa using hclean a ha)]
          cases hr : us.flatMap (fun u => sep :: u) with
          | nil => simp
          | cons r rs =>
            rw [List.dropWhile_cons_of_neg (by simpa using hrest r (by rw [hr]; rfl))]
        rw [htw, hdw, ih (fun t ht => hts t (List.mem_cons_of_mem _ ht)) f (by
          simp only [List.length_cons] at hfuel; omega)]

/-- `split_string_any` gives back the components of a string made of non-empty,
delimiter-free components with one delimiter between them. -/
theorem split_string_any_intercalate (delimiters : List Char) (sep : Char)
    (hsep : delimiters.contains sep = true) (ts : List (List Char))
    (hts : ∀ t ∈ ts, t ≠ [] ∧ ∀ c ∈ t, delimiters.contains c = false) :
    split_string_any (List.intercalate [sep] ts) delimiters = ts := by
  cases ts with
  | nil => simp [List.intercalate, split_string_any, split_string_any_loop]
  | cons t us =>
    obtain ⟨hne, -⟩ := hts t (List.mem_cons_self _ _)
    have h := tokens_ahead_joined delimiters sep hsep (t :: us) hts
      ((List.intercalate [sep] (t :: us)).length + 1) (by
        rw [intercalate_cons, List.length_append, List.length_cons]
        have hlen : ∀ l : List (List Char), l.length ≤ (l.flatMap (fun u => sep :: u)).length := by
          intro l
          induction l with
          | nil => simp
          | cons v vs ihv =>
            simp only [List.flatMap_cons, List.cons_append, List.length_cons,
              List.length_append]
            omega
        have := hlen us
        have : 0 < t.length := List.length_pos.mpr hne
        omega)
    have hskip : ∀ l : List Char,
        (sep :: l).dropWhile (fun c => delimiters.contains c)
          = l.dropWhile (fun c => delimiters.contains c) :=
      fun l => List.dropWhile_cons_of_pos hsep
    rw [split_string_any_eq]
    unfold tokens_ahead at h
    rw [List.flatMap_cons, List.cons_append, hskip, ← intercalate_cons] at h
    unfold tokens_ahead
    exact h
/-- The character of a decimal digit: a digit, no white space, no sign, no dot. -/
theorem digit_char_facts (d : Nat) (hd : d < 10) :
    isspace (Char.ofNat (48 + d)) = false ∧ (Char.ofNat (48 + d)).isDigit = true ∧
    (Char.ofNat (48 + d)).toNat - 48 = d ∧ Char.ofNat (48 + d) ≠ '-' ∧
    Char.ofNat (48 + d) ≠ '+' ∧ Char.ofNat (48 + d) ≠ '.' := by
  interval_cases d <;> decide

/-- `atoi` of a non-empty string of decimal digits whose value fits an `int`. -/
theorem atoi_digits (L : List Nat) (hL : ∀ d ∈ L, d < 10) (hne : L ≠ [])
    (hval : Nat.ofDigits 10 L.reverse < 2 ^ 31) :
    atoi (L.map (fun d => Char.ofNat (48 + d))) = (Nat.ofDigits 10 L.reverse : Nat) := by
  have hfold : ∀ (l : List Nat) (acc : Nat), (∀ d ∈ l, d < 10) →
      (l.map (fun d => Char.ofNat (48 + d))).foldl (fun acc d => 10 * acc + (d.toNat - 48)) acc
        = acc * 10 ^ l.length + Nat.ofDigits 10 l.reverse := by
    intro l
    induction l with
    | nil => intro acc _; simp
    | cons x xs ih =>
      intro acc hx
      rw [List.map_cons, List.foldl_cons, ih _ (fun d hd => hx d (List.mem_cons_of_mem _ hd)),
        (digit_char_facts x (hx x (List.mem_cons_self _ _))).2.2.1, List.reverse_cons,
        Nat.ofDigits_append, Nat.ofDigits_singleton, List.length_reverse, List.length_cons]
      ring
  have hall : ∀ c ∈ L.map (fun d => Char.ofNat (48 + d)), c.isDigit = true := by
    intro c hc
    obtain ⟨d, hd, rfl⟩ := List.mem_map.mp hc
    exact (digit_char_facts d (hL d hd)).2.1
  cases L with
  | nil => exact absurd rfl hne
  | cons x xs =>
    have hx := digit_char_facts x (hL x (List.mem_cons_self _ _))
    have hbody : (((x :: xs).map (fun d => Char.ofNat (48 + d))).dropWhile isspace)
        = (x :: xs).map (fun d => Char.ofNat (48 + d)) := by
      rw [List.map_cons, List.dropWhile_cons_of_neg (by simp [hx.1])]
    have hminus : ((((x :: xs).map (fun d => Char.ofNat (48 + d))).head?) == some '-') = false := by
      simp [hx.2.2.2.1]
    have hplus : ((((x :: xs).map (fun d => Char.ofNat (48 + d))).head?) == some '+') = false := by
      simp [hx.2.2.2.2.1]
    unfold atoi
    simp only [hbody, hminus, hplus, Bool.or_self, Bool.false_eq_true, if_false]
    rw [List.takeWhile_eq_self_iff.mpr hall, hfold _ 0 hL, Nat.zero_mul, Nat.zero_add]
    have h1 : ((Nat.ofDigits 10 (x :: xs).reverse : Nat) : Int) < 2 ^ 31 := by
      exact_mod_cast hval
    have h0 : (0 : Int) ≤ ((Nat.ofDigits 10 (x :: xs).reverse : Nat) : Int) := Int.natCast_nonneg _
    rw [min_eq_left (by omega), max_eq_right (by omega)]
    exact to_int_of_range _ (by omega) h1

theorem decimal_eq_map (n : Nat) :
    ∃ L : List Nat, decimal n = L.map (fun d => Char.ofNat (48 + d)) ∧ L ≠ [] ∧
      (∀ d ∈ L, d < 10) ∧ Nat.ofDigits 10 L.reverse = n := by
  unfold decimal
  by_cases h0 : n = 0
  · subst h0
    exact ⟨[0], by simp, by simp, by simp, by simp⟩
  · rw [if_neg h0]
    refine ⟨(Nat.digits 10 n).reverse, rfl, ?_, ?_, ?_⟩
    · intro he
      rw [List.reverse_eq_nil_iff] at he
      exact h0 (Nat.digits_eq_nil_iff_eq_zero.mp he)
    · intro d hd
      exact Nat.digits_lt_base (by decide) (List.mem_reverse.mp hd)
    · rw [List.reverse_reverse, Nat.ofDigits_digits]

/-- `atoi` reads a decimal numeral below `2^31` as its value. -/
theorem atoi_decimal (n : Nat) (hn : n < 2 ^ 31) : atoi (decimal n) = (n : Int) := by
  obtain ⟨L, hL, hne, hlt, hval⟩ := decimal_eq_map n
  rw [hL, atoi_digits L hlt hne (by rw [hval]; exact hn), hval]

/-- A decimal numeral is not empty and has no dot. -/
theorem decimal_component (n : Nat) :
    decimal n ≠ [] ∧ ∀ c ∈ decimal n, (".".toList).contains c = false := by
  obtain ⟨L, hL, hne, hlt, -⟩ := decimal_eq_map n
  rw [hL]
  refine ⟨by simpa using hne, ?_⟩
  intro c hc
  obtain ⟨d, hd, rfl⟩ := List.mem_map.mp hc
  have := (digit_char_facts d (hlt d hd)).2.2.2.2.2
  simpa using this

theorem string_compare_self (s : List Char) : string_compare s s = 0 := by
  induction s with
  | nil => rfl
  | cons c cs ih =>
    unfold string_compare
    rw [if_neg (lt_irrefl c), if_neg (lt_irrefl c)]
    exact ih

/-- The loop of `CompareVersionString` on decimal numerals below `2^31` follows the
order on the lists of their values. -/
theorem CompareVersionString_loop_decimal (xs : List Nat) :
    ∀ ys : List Nat, (∀ n ∈ xs, n < 2 ^ 31) → (∀ n ∈ ys, n < 2 ^ 31) →
    (CompareVersionString_loop (xs.map decimal) (ys.map decimal) < 0
      ↔ version_order xs ys = Ordering.lt) ∧
    (CompareVersionString_loop (xs.map decimal) (ys.map decimal) = 0
      ↔ version_order xs ys = Ordering.eq) ∧
    (0 < CompareVersionString_loop (xs.map decimal) (ys.map decimal)
      ↔ version_order xs ys = Ordering.gt) := by
  induction xs with
  | nil =>
    intro ys _ _
    cases ys with
    | nil => simp [CompareVersionString_loop, version_order]
    | cons b bs => simp [CompareVersionString_loop, version_order]
  | cons a as ih =>
    intro ys hxs hys
    cases ys with
    | nil => simp [CompareVersionString_loop, version_order]
    | cons b bs =>
      have ha := hxs a (List.mem_cons_self _ _)
      have hb := hys b (List.mem_cons_self _ _)
      simp only [List.map_cons, CompareVersionString_loop, version_order,
        atoi_decimal a ha, atoi_decimal b hb]
      by_cases hab : a = b
      · subst hab
        simp only [ne_eq, not_true_eq_false, if_false, string_compare_self, lt_irrefl]
        exact ih bs (fun n hn => hxs n (List.mem_cons_of_mem _ hn))
          (fun n hn => hys n (List.mem_cons_of_mem _ hn))
      · have hne : ¬ ((a : Int) = (b : Int)) := by
          intro h
          exact hab (by exact_mod_cast h)
        rw [if_pos hne, to_int_of_range _ (by omega) (by omega)]
        by_cases hlt : a < b
        · rw [if_pos hlt]
          have : (a : Int) < b := by exact_mod_cast hlt
          simp only [reduceCtorEq, iff_false, iff_true, not_lt]
          omega
        · have hgt : b < a := by omega
          rw [if_neg hlt, if_pos hgt]
          have : (b : Int) < a := by exact_mod_cast hgt
          simp only [reduceCtorEq, iff_false, iff_true, not_lt]
          omega
/-- The order `version_order` is the lexicographic order of lists. -/
theorem version_order_iff (xs : List Nat) :
    ∀ ys : List Nat,
    (version_order xs ys = Ordering.lt ↔ List.Lex (fun a b : Nat => a < b) xs ys) ∧
    (version_order xs ys = Ordering.eq ↔ xs = ys) ∧
    (version_order xs ys = Ordering.gt ↔ List.Lex (fun a b : Nat => a < b) ys xs) := by
  induction xs with
  | nil =>
    intro ys
    cases ys with
    | nil => simp [version_order]
    | cons b bs => simp [version_order, List.Lex.nil]
  | cons a as ih =>
    intro ys
    cases ys with
    | nil => simp [version_order, List.Lex.nil]
    | cons b bs =>
      unfold version_order
      by_cases hlt : a < b
      · rw [if_pos hlt]
        refine ⟨by simp [List.Lex.rel hlt], by simp; omega, ?_⟩
        simp only [reduceCtorEq, false_iff]
        intro h
        cases h with
        | cons h => omega
        | rel h => omega
      · rw [if_neg hlt]
        by_cases hgt : b < a
        · rw [if_pos hgt]
          refine ⟨?_, by simp; omega, by simp [List.Lex.rel hgt]⟩
          simp only [reduceCtorEq, false_iff]
          intro h
          cases h with
          | cons h => omega
          | rel h => omega
        · rw [if_neg hgt]
          have hab : a = b := by omega
          subst hab
          obtain ⟨i1, i2, i3⟩ := ih bs
          exact ⟨i1.trans List.Lex.cons_iff.symm, by rw [i2]; simp,
            i3.trans List.Lex.cons_iff.symm⟩

theorem to_int_bounds (t : Int) : -2 ^ 31 ≤ to_int t ∧ to_int t < 2 ^ 31 := by
  unfold to_int
  omega

theorem atoi_bounds (s : List Char) : -2 ^ 31 ≤ atoi s ∧ atoi s < 2 ^ 31 := by
  unfold atoi
  exact to_int_bounds _

theorem string_compare_antisymm (s : List Char) :
    ∀ t : List Char, string_compare s t = -string_compare t s := by
  induction s with
  | nil =>
    intro t
    cases t with
    | nil => rfl
    | cons b bs => rfl
  | cons a as ih =>
    intro t
    cases t with
    | nil => rfl
    | cons b bs =>
      unfold string_compare
      by_cases hab : a < b
      · rw [if_pos hab, if_neg (lt_asymm hab), if_pos hab]
      · rw [if_neg hab]
        by_cases hba : b < a
        · rw [if_pos hba, if_pos hba]
          rfl
        · rw [if_neg hba, if_neg hba, if_neg hab]
          exact ih bs

theorem CompareVersionString_loop_self (xx : List (List Char)) :
    CompareVersionString_loop xx xx = 0 := by
  induction xx with
  | nil => rfl
  | cons x rest ih =>
    unfold CompareVersionString_loop
    simp only [ne_eq, not_true_eq_false, if_false, string_compare_self]
    exact ih

/-- Without a component that `atoi` reads as negative, swapping the arguments of the
loop negates its result. -/
theorem CompareVersionString_loop_antisymm (xx : List (List Char)) :
    ∀ yy : List (List Char), (∀ s ∈ xx, 0 ≤ atoi s) → (∀ s ∈ yy, 0 ≤ atoi s) →
    CompareVersionString_loop xx yy = -CompareVersionString_loop yy xx := by
  induction xx with
  | nil =>
    intro yy _ _
    cases yy with
    | nil => rfl
    | cons y rest => rfl
  | cons x rest ih =>
    intro yy hx hy
    cases yy with
    | nil => rfl
    | cons y rest2 =>
      have hx0 := hx x (List.mem_cons_self _ _)
      have hy0 := hy y (List.mem_cons_self _ _)
      have hxb := atoi_bounds x
      have hyb := atoi_bounds y
      unfold CompareVersionString_loop
      by_cases he : atoi x = atoi y
      · rw [if_neg (not_not.mpr he), if_neg (not_not.mpr he.symm)]
        by_cases hc : string_compare x y = 0
        · have hc2 : string_compare y x = 0 := by
            rw [string_compare_antisymm, hc]
            rfl
          rw [if_neg (not_not.mpr hc), if_neg (not_not.mpr hc2)]
          exact ih rest2 (fun s hs => hx s (List.mem_cons_of_mem _ hs))
            (fun s hs => hy s (List.mem_cons_of_mem _ hs))
        · have hc2 : string_compare y x ≠ 0 := by
            intro h
            apply hc
            rw [string_compare_antisymm, h]
            rfl
          rw [if_pos hc, if_pos hc2]
          exact string_compare_antisymm x y
      · rw [if_pos he, if_pos (fun h => he h.symm), to_int_of_range _ (by omega) (by omega),
          to_int_of_range _ (by omega) (by omega)]
        omega

/-! ## Lemmas on `ShapeFormatter::Format` -/

set_option maxRecDepth 100000 in
/-- What the loop writes for a byte is the replacement of the claim, whether `char`
is signed or not. -/
theorem put_eq_full_width : ∀ (s : Bool) (b : Byte), ShapeFormatter.put s b = full_width b := by
  decide

set_option maxRecDepth 100000 in
theorem is_non_printable_iff : ∀ (s : Bool) (b : Byte),
    is_non_printable s b = !(decide (0x20 ≤ b.val) && decide (b.val ≤ 0x7E)) := by
  decide

set_option maxRecDepth 100000 in
theorem full_width_length : ∀ b : Byte,
    (full_width b).length = if 0x20 ≤ b.val ∧ b.val ≤ 0x7E then 3 else 1 := by
  decide

set_option maxRecDepth 100000 in
theorem full_width_all_not_ascii : ∀ b : Byte,
    (full_width b).all (fun c => !(decide (0x20 ≤ c.val) && decide (c.val ≤ 0x7E))) = true := by
  decide

theorem full_width_not_ascii (b c : Byte) (hc : c ∈ full_width b) :
    ¬ (0x20 ≤ c.val ∧ c.val ≤ 0x7E) := by
  have h := List.all_eq_true.mp (full_width_all_not_ascii b) c hc
  intro hr
  simp [hr.1, hr.2] at h

theorem Format_eq (s : Bool) (text : List Byte) :
    ShapeFormatter.Format s true text
      = if (∀ b ∈ text, ¬ (0x20 ≤ b.val ∧ b.val ≤ 0x7E)) then text
        else text.flatMap full_width := by
  unfold ShapeFormatter.Format
  simp only [Bool.not_true, Bool.false_eq_true, if_false]
  have hput : ShapeFormatter.put s = full_width := funext (put_eq_full_width s)
  have hall : text.all (is_non_printable s) = true
      ↔ ∀ b ∈ text, ¬ (0x20 ≤ b.val ∧ b.val ≤ 0x7E) := by
    rw [List.all_eq_true]
    refine forall_congr' fun b => forall_congr' fun _ => ?_
    rw [is_non_printable_iff]
    simp only [Bool.not_eq_true', Bool.and_eq_false_imp, decide_eq_true_eq,
      decide_eq_false_iff_not, not_and]
  by_cases h : ∀ b ∈ text, ¬ (0x20 ≤ b.val ∧ b.val ≤ 0x7E)
  · rw [if_pos (hall.mpr h), if_pos h]
  · rw [if_neg (fun hc => h (hall.mp hc)), if_neg h, hput]

theorem flatMap_full_width_length (text : List Byte) :
    (text.flatMap full_width).length
      = text.length + 2 * text.countP (fun b => decide (0x20 ≤ b.val ∧ b.val ≤ 0x7E)) := by
  induction text with
  | nil => rfl
  | cons b rest ih =>
    rw [List.flatMap_cons, List.length_append, ih, full_width_length, List.length_cons,
      List.countP_cons]
    by_cases hb : 0x20 ≤ b.val ∧ b.val ≤ 0x7E
    · rw [if_pos hb, if_pos (by simpa using hb)]
      omega
    · rw [if_neg hb, if_neg (by simpa using hb)]
      omega

theorem flatMap_full_width_noop (text : List Byte)
    (h : ∀ b ∈ text, ¬ (0x20 ≤ b.val ∧ b.val ≤ 0x7E)) : text.flatMap full_width = text := by
  induction text with
  | nil => rfl
  | cons b rest ih =>
    have hb := h b (List.mem_cons_self _ _)
    rw [List.flatMap_cons, ih (fun c hc => h c (List.mem_cons_of_mem _ hc))]
    have : full_width b = [b] := by
      unfold full_width
      rw [if_neg (by omega), if_neg (by omega)]
    rw [this]
    rfl

/-! ## Lemmas on `ToFilePath` -/

theorem uniqueFrom_keeps_suffix (S : List Char) (hS : List.Chain' NotBothSlash S)
    (Y : List Char) :
    ∀ last : Char, S <:+ last :: uniqueFrom bothSlash last (Y ++ S) := by
  induction Y with
  | nil =>
    intro last
    rw [List.nil_append]
    cases S with
    | nil => exact List.nil_suffix
    | cons s S' =>
      unfold uniqueFrom
      by_cases hb : bothSlash last s = true
      · rw [if_pos hb]
        rw [bothSlash_eq_true] at hb
        rw [uniqueFrom_noop last S' (by rw [hb.1, ← hb.2]; exact hS), hb.1, ← hb.2]
      · rw [if_neg hb, uniqueFrom_noop s S' hS]
        exact List.suffix_cons _ _
  | cons y Y' ih =>
    intro last
    rw [List.cons_append]
    unfold uniqueFrom
    by_cases hb : bothSlash last y = true
    · rw [if_pos hb]
      exact ih last
    · rw [if_neg hb]
      exact (ih y).trans (List.suffix_cons _ _)

/-- A string without `//` that ends the argument still ends the normalized string. -/
theorem normalize_keeps_suffix (Y S : List Char) (hS : ¬ ['/', '/'] <:+: S) :
    S <:+ Path.normalize (Y ++ S) := by
  cases Y with
  | nil =>
    rw [List.nil_append, normalize_noop S hS]
  | cons y Y' =>
    unfold Path.normalize
    simp only [List.cons_append, List.isEmpty_cons, Bool.false_eq_true, if_false, unique]
    exact uniqueFrom_keeps_suffix S (chain_of_no_double_slash S hS) Y' y

theorem uniqueFrom_mem (last : Char) (xs : List Char) (c : Char) :
    c ∈ uniqueFrom bothSlash last xs → c ∈ xs := by
  induction xs generalizing last with
  | nil => intro h; exact h
  | cons x xs ih =>
    unfold uniqueFrom
    by_cases hb : bothSlash last x = true
    · rw [if_pos hb]
      exact fun h => List.mem_cons_of_mem _ (ih last h)
    · rw [if_neg hb]
      intro h
      rcases List.mem_cons.mp h with rfl | h
      · exact List.mem_cons_self _ _
      · exact List.mem_cons_of_mem _ (ih x h)

theorem uniqueFrom_slash_mem (last : Char) (xs : List Char) (h : '/' ∈ xs) :
    last = '/' ∨ '/' ∈ uniqueFrom bothSlash last xs := by
  induction xs generalizing last with
  | nil => cases h
  | cons x xs ih =>
    unfold uniqueFrom
    by_cases hb : bothSlash last x = true
    · rw [bothSlash_eq_true] at hb
      exact Or.inl hb.1
    · rw [if_neg hb]
      right
      rcases List.mem_cons.mp h with rfl | h
      · exact List.mem_cons_self _ _
      · rcases ih x h with hx | hx
        · rw [hx]
          exact List.mem_cons_self _ _
        · exact List.mem_cons_of_mem _ hx

/-- Normalizing neither adds nor removes the last `/`. -/
theorem normalize_contains_slash (s : List Char) :
    (Path.normalize s).contains '/' = s.contains '/' := by
  unfold Path.normalize
  cases s with
  | nil => rfl
  | cons x xs =>
    simp only [List.isEmpty_cons, Bool.false_eq_true, if_false, unique]
    rw [Bool.eq_iff_iff]
    constructor
    · intro h
      apply List.elem_iff.mpr
      rcases List.mem_cons.mp (List.elem_iff.mp h) with h | h
      · rw [h]
        exact List.mem_cons_self _ _
      · exact List.mem_cons_of_mem _ (uniqueFrom_mem x xs _ h)
    · intro h
      apply List.elem_iff.mpr
      rcases List.mem_cons.mp (List.elem_iff.mp h) with h | h
      · rw [h]
        exact List.mem_cons_self _ _
      · rcases uniqueFrom_slash_mem x xs h with hx | hx
        · rw [hx]
          exact List.mem_cons_self _ _
        · exact List.mem_cons_of_mem _ hx

/-- `ToFilePath` in terms of the normalized id. -/
theorem ToFilePath_parts (r : ResourceResolver) (id : List Char) :
    r.ToFilePath id =
      (if (!id.contains '/' && !starts_with (Path.normalize id) r.type_.prefix_) = true
        then r.type_.prefix_ else []) ++ Path.normalize id ++
      (if (!ends_with (Path.normalize id) r.type_.suffix) = true then r.type_.suffix else []) := by
  simp only [ResourceResolver.ToFilePath, Path.ofString, Path.generic_string,
    Path.has_parent_path, normalize_contains_slash]

theorem ToFilePath_ends (r : ResourceResolver) (id : List Char) :
    r.type_.suffix <:+ r.ToFilePath id := by
  rw [ToFilePath_parts]
  by_cases h : ends_with (Path.normalize id) r.type_.suffix = true
  · rw [h]
    simp only [Bool.not_true, Bool.false_eq_true, if_false, List.append_nil]
    exact ((ends_with_iff _ _).mp h).trans (List.suffix_append _ _)
  · rw [Bool.not_eq_true] at h
    rw [h]
    simp only [Bool.not_false, if_true]
    exact List.suffix_append _ _

theorem ToFilePath_starts (r : ResourceResolver) (id : List Char)
    (hc : id.contains '/' = false) : r.type_.prefix_ <+: r.ToFilePath id := by
  rw [ToFilePath_parts]
  by_cases hs : starts_with (Path.normalize id) r.type_.prefix_ = true
  · rw [hs, hc]
    simp only [Bool.not_true, Bool.and_false, Bool.false_eq_true, if_false, List.nil_append,
      List.append_assoc]
    exact ((starts_with_iff _ _).mp hs).trans (List.prefix_append _ _)
  · rw [Bool.not_eq_true] at hs
    rw [hs, hc]
    simp only [Bool.not_false, Bool.and_self, if_true, List.append_assoc]
    exact List.prefix_append _ _

/-! ## Lemmas on `Path::normalize` as a specification -/

theorem uniqueFrom_after_slash (xs : List Char) :
    uniqueFrom bothSlash '/' xs = unique bothSlash (xs.dropWhile (fun x => x == '/')) := by
  induction xs with
  | nil => rfl
  | cons x xs ih =>
    unfold uniqueFrom
    by_cases hx : x = '/'
    · subst hx
      rw [if_pos (by decide), List.dropWhile_cons_of_pos (by decide)]
      exact ih
    · have hb : bothSlash '/' x = false := by
        simp [bothSlash, hx]
      rw [hb, List.dropWhile_cons_of_neg (by simpa using hx)]
      rfl

theorem uniqueFrom_after_other (c : Char) (hc : c ≠ '/') (xs : List Char) :
    uniqueFrom bothSlash c xs = unique bothSlash xs := by
  cases xs with
  | nil => rfl
  | cons x xs =>
    unfold uniqueFrom
    have hb : bothSlash c x = false := by
      simp [bothSlash, hc]
    rw [hb]
    rfl

theorem unique_eq_squeeze (n : Nat) :
    ∀ l : List Char, l.length ≤ n → unique bothSlash l = squeeze_slashes l := by
  induction n with
  | zero =>
    intro l hl
    have : l = [] := List.length_eq_zero.mp (Nat.le_zero.mp hl)
    subst this
    rw [squeeze_slashes]
    rfl
  | succ n ih =>
    intro l hl
    cases l with
    | nil =>
      rw [squeeze_slashes]
      rfl
    | cons c rest =>
      rw [squeeze_slashes]
      simp only [List.length_cons] at hl
      by_cases hc : c = '/'
      · subst hc
        have hlen : (rest.dropWhile (fun x => x == '/')).length ≤ rest.length :=
          (List.dropWhile_suffix _).length_le
        have hu : unique bothSlash ('/' :: rest) = '/' :: uniqueFrom bothSlash '/' rest := rfl
        rw [if_pos rfl, ← ih _ (by omega), hu, uniqueFrom_after_slash]
      · have hu : unique bothSlash (c :: rest) = c :: uniqueFrom bothSlash c rest := rfl
        rw [if_neg hc, ← ih rest (by omega), hu, uniqueFrom_after_other c hc]

theorem normalize_eq_squeeze (p : List Char) : Path.normalize p = squeeze_slashes p := by
  unfold Path.normalize
  cases p with
  | nil =>
    rw [squeeze_slashes]
    rfl
  | cons c rest =>
    simp only [List.isEmpty_cons, Bool.false_eq_true, if_false]
    exact unique_eq_squeeze _ _ (Nat.le_refl _)

theorem uniqueFrom_filter (last : Char) (xs : List Char) :
    (uniqueFrom bothSlash last xs).filter (fun c => c != '/')
      = xs.filter (fun c => c != '/') := by
  induction xs generalizing last with
  | nil => rfl
  | cons x xs ih =>
    unfold uniqueFrom
    by_cases hb : bothSlash last x = true
    · rw [if_pos hb]
      rw [bothSlash_eq_true] at hb
      obtain ⟨-, h2⟩ := hb
      subst h2
      rw [ih]
      exact (List.filter_cons_of_neg (by decide)).symm
    · rw [if_neg hb, List.filter_cons, List.filter_cons, ih]

theorem normalize_filter (p : List Char) :
    (Path.normalize p).filter (fun c => c != '/') = p.filter (fun c => c != '/') := by
  unfold Path.normalize
  cases p with
  | nil => rfl
  | cons x xs =>
    simp only [List.isEmpty_cons, Bool.false_eq_true, if_false, unique]
    rw [List.filter_cons, List.filter_cons, uniqueFrom_filter]

/-! ## Lemmas on the tokens of `split_string_any` and `split` -/

/-- The non-empty pieces between delimiters are those behind the leading
delimiters. -/
theorem pieces_skip (p : Char → Bool) (l : List Char) :
    (l.splitOnP p).filter (fun t => !t.isEmpty)
      = ((l.dropWhile p).splitOnP p).filter (fun t => !t.isEmpty) := by
  induction l with
  | nil => rfl
  | cons c cs ih =>
    by_cases hc : p c = true
    · rw [List.dropWhile_cons_of_pos hc, List.splitOnP_cons, if_pos hc,
        List.filter_cons_of_neg (by simp)]
      exact ih
    · rw [List.dropWhile_cons_of_neg hc]

/-- The non-empty pieces of a string that begins with a non-delimiter: the run of
non-delimiters at its head, then the pieces of the rest. -/
theorem pieces_token (p : Char → Bool) (c : Char) (cs : List Char) (hc : p c = false) :
    ((c :: cs).splitOnP p).filter (fun t => !t.isEmpty)
      = (c :: cs).takeWhile (fun x => !p x) ::
        (((c :: cs).dropWhile (fun x => !p x)).splitOnP p).filter (fun t => !t.isEmpty) := by
  have hsplit := List.takeWhile_append_dropWhile (fun x => !p x) (c :: cs)
  have hclean : ∀ x ∈ (c :: cs).takeWhile (fun x => !p x), ¬ p x = true := by
    intro x hx
    have := List.mem_takeWhile_imp hx
    simpa using this
  have hne : ((c :: cs).takeWhile (fun x => !p x)).isEmpty = false := by
    rw [List.takeWhile_cons_of_pos (by simp [hc])]
    rfl
  cases hd : (c :: cs).dropWhile (fun x => !p x) with
  | nil =>
    rw [hd, List.append_nil] at hsplit
    rw [hsplit] at hclean ⊢
    rw [List.splitOnP_eq_single p _ hclean, List.splitOnP_nil]
    simp
  | cons s rest =>
    have hs : p s = true := by
      have := List.head?_dropWhile_not (fun x => !p x) (c :: cs)
      rw [hd] at this
      simpa using this
    rw [hd] at hsplit
    conv_lhs => rw [← hsplit]
    rw [List.splitOnP_first p _ hclean s hs rest, List.filter_cons_of_pos (by simp [hne]),
      List.splitOnP_cons, if_pos hs, List.filter_cons_of_neg (by simp)]

/-- With enough fuel the tokens ahead are the non-empty pieces between delimiters. -/
theorem tokens_ahead_eq_pieces (delimiters : List Char) (fuel : Nat) :
    ∀ l : List Char, l.length < fuel →
    tokens_ahead delimiters fuel l
      = (l.splitOnP (fun c => delimiters.contains c)).filter (fun t => !t.isEmpty) := by
  induction fuel with
  | zero => intro l hl; omega
  | succ fuel ih =>
    intro l hl
    rw [pieces_skip]
    unfold tokens_ahead
    have hlen : (l.dropWhile (fun c => delimiters.contains c)).length ≤ l.length :=
      (List.dropWhile_suffix _).length_le
    cases hd : l.dropWhile (fun c => delimiters.contains c) with
    | nil => rfl
    | cons c cs =>
      have hc : delimiters.contains c = false := by
        have := List.head?_dropWhile_not (fun c => delimiters.contains c) l
        rw [hd] at this
        simpa using this
      simp only
      rw [pieces_token (fun c => delimiters.contains c) c cs hc]
      congr 1
      apply ih
      rw [hd] at hlen
      have h2 : ((c :: cs).dropWhile (fun x => !delimiters.contains x)).length ≤ cs.length := by
        rw [List.dropWhile_cons_of_pos (by rw [hc]; rfl)]
        exact (List.dropWhile_suffix _).length_le
      simp only [List.length_cons] at hlen
      omega

/-- The loop of `split_string_any` yields the same tokens with any fuel from
`str.size() + 1` on: it is left through its own exits. -/
theorem split_string_any_fuel (str delimiters : List Char) (fuel : Nat)
    (h : str.length + 1 ≤ fuel) :
    split_string_any_loop str delimiters fuel 0 0 []
      = (str.splitOnP (fun c => delimiters.contains c)).filter (fun t => !t.isEmpty) := by
  cases str with
  | nil =>
    cases fuel with
    | zero => simp at h
    | succ f => simp [split_string_any_loop]
  | cons c cs =>
    rw [split_string_any_loop_eq _ _ _ _ _ _ (by simp), List.nil_append, List.drop_zero]
    exact tokens_ahead_eq_pieces delimiters fuel _ (by omega)

theorem pieces_nonempty_clean (p : Char → Bool) (l : List Char) :
    ∀ t ∈ (l.splitOnP p).filter (fun t => !t.isEmpty), t ≠ [] ∧ ∀ c ∈ t, p c = false := by
  have hfuel : ∀ n : Nat, ∀ l : List Char, l.length ≤ n →
      ∀ t ∈ (l.splitOnP p).filter (fun t => !t.isEmpty), t ≠ [] ∧ ∀ c ∈ t, p c = false := by
    intro n
    induction n with
    | zero =>
      intro l hl t ht
      have : l = [] := List.length_eq_zero.mp (Nat.le_zero.mp hl)
      subst this
      simp at ht
    | succ n ih =>
      intro l hl t ht
      rw [pieces_skip] at ht
      have hlen : (l.dropWhile p).length ≤ l.length := (List.dropWhile_suffix _).length_le
      cases hd : l.dropWhile p with
      | nil =>
        rw [hd] at ht
        simp at ht
      | cons c cs =>
        have hc : p c = false := by
          have := List.head?_dropWhile_not p l
          rw [hd] at this
          simpa using this
        rw [hd, pieces_token p c cs hc] at ht
        rcases List.mem_cons.mp ht with rfl | ht
        · refine ⟨?_, fun x hx => ?_⟩
          · rw [List.takeWhile_cons_of_pos (by simp [hc])]
            exact List.cons_ne_nil _ _
          · have := List.mem_takeWhile_imp hx
            simpa using this
        · refine ih _ ?_ t ht
          rw [hd] at hlen
          have h2 : ((c :: cs).dropWhile (fun x => !p x)).length ≤ cs.length := by
            rw [List.dropWhile_cons_of_pos (by simp [hc])]
            exact (List.dropWhile_suffix _).length_le
          simp only [List.length_cons] at hlen
          omega
  exact hfuel l.length l (Nat.le_refl _)

theorem pieces_flatten (p : Char → Bool) (l : List Char) :
    ((l.splitOnP p).filter (fun t => !t.isEmpty)).flatten = l.filter (fun c => !p c) := by
  have hfuel : ∀ n : Nat, ∀ l : List Char, l.length ≤ n →
      ((l.splitOnP p).filter (fun t => !t.isEmpty)).flatten = l.filter (fun c => !p c) := by
    intro n
    induction n with
    | zero =>
      intro l hl
      have : l = [] := List.length_eq_zero.mp (Nat.le_zero.mp hl)
      subst this
      simp
    | succ n ih =>
      intro l hl
      have hskip : l.filter (fun c => !p c) = (l.dropWhile p).filter (fun c => !p c) := by
        conv_lhs => rw [← List.takeWhile_append_dropWhile p l]
        rw [List.filter_append, List.filter_eq_nil_iff.mpr, List.nil_append]
        intro x hx
        simpa using List.mem_takeWhile_imp hx
      rw [pieces_skip, hskip]
      have hlen : (l.dropWhile p).length ≤ l.length := (List.dropWhile_suffix _).length_le
      cases hd : l.dropWhile p with
      | nil => simp
      | cons c cs =>
        have hc : p c = false := by
          have := List.head?_dropWhile_not p l
          rw [hd] at this
          simpa using this
        rw [pieces_token p c cs hc, List.flatten_cons, ih]
        · have htw : ((c :: cs).takeWhile (fun x => !p x)).filter (fun c => !p c)
              = (c :: cs).takeWhile (fun x => !p x) :=
            List.filter_eq_self.mpr (fun x hx => @List.mem_takeWhile_imp _ (fun x => !p x) (c :: cs) x hx)
          conv_rhs => rw [← List.takeWhile_append_dropWhile (fun x => !p x) (c :: cs)]
          rw [List.filter_append, htw]
        · rw [hd] at hlen
          have h2 : ((c :: cs).dropWhile (fun x => !p x)).length ≤ cs.length := by
            rw [List.dropWhile_cons_of_pos (by simp [hc])]
            exact (List.dropWhile_suffix _).length_le
          simp only [List.length_cons] at hlen
          omega
  exact hfuel l.length l (Nat.le_refl _)
/-- `is_any_of` is membership in the delimiter string. -/
theorem is_any_of_eq (delimiters : List Char) :
    is_any_of delimiters = fun c => delimiters.contains c := by
  funext c
  induction delimiters with
  | nil => rfl
  | cons d ds ih =>
    unfold is_any_of at ih ⊢
    unfold first_index
    by_cases h : d = c
    · subst h; simp
    · have h2 : (d == c) = false := by simpa using h
      have h3 : (c == d) = false := by simpa using fun e : c = d => h e.symm
      rw [h2]
      simp only [Bool.false_eq_true, if_false, Option.isSome_map', List.contains_cons, h3,
        Bool.false_or] at ih ⊢
      simpa [List.contains, Option.isSome_map] using ih

/-- The inner loop of `split` advances over the longest run satisfying `cond`. -/
theorem advance_while_eq (cond : Char → Bool) :
    ∀ (ahead : List Char) (it : Nat),
      advance_while cond ahead it = it + (ahead.takeWhile cond).length := by
  intro ahead
  induction ahead with
  | nil => intro it; simp [advance_while]
  | cons c cs ih =>
    intro it
    by_cases hc : cond c = true
    · simp only [advance_while, hc, if_true, List.takeWhile_cons_of_pos hc, List.length_cons,
        ih]
      omega
    · simp [advance_while, hc]

/-- Where an inner loop of `split` stops, in terms of the characters at and behind
the position it starts from. -/
theorem advance_while_spec (cond : Char → Bool) (input : List Char) (i : Nat)
    (hi : i ≤ input.length) :
    i ≤ advance_while cond (input.drop i) i ∧
    advance_while cond (input.drop i) i ≤ input.length ∧
    input.drop (advance_while cond (input.drop i) i) = (input.drop i).dropWhile cond ∧
    (input.drop i).take (advance_while cond (input.drop i) i - i)
      = (input.drop i).takeWhile cond := by
  rw [advance_while_eq]
  have hlen : ((input.drop i).takeWhile cond).length ≤ (input.drop i).length :=
    (List.takeWhile_prefix cond).length_le
  rw [List.length_drop] at hlen
  have hd := List.drop_left (List.takeWhile cond (input.drop i))
    (List.dropWhile cond (input.drop i))
  have ht := List.take_left (List.takeWhile cond (input.drop i))
    (List.dropWhile cond (input.drop i))
  rw [List.takeWhile_append_dropWhile] at hd ht
  refine ⟨by omega, by omega, ?_, ?_⟩
  · rw [← List.drop_drop]
    exact hd
  · rw [Nat.add_sub_cancel_left]
    exact ht

/-- The outer loop of `split`, entered at `start`, appends the non-empty pieces of
the characters at and behind `start`, whatever `compress` is. -/
theorem split_loop_eq (input : List Char) (p : Char → Bool) (compress : Bool) (fuel : Nat) :
    ∀ (start : Nat) (result : List (List Char)), start ≤ input.length →
      input.length - start < fuel →
      split_loop input p compress fuel start result
        = result ++ ((input.drop start).splitOnP p).filter (fun t => !t.isEmpty) := by
  induction fuel with
  | zero => intro start result _ h; omega
  | succ fuel ih =>
    intro start result hs hf
    unfold split_loop
    by_cases hend : start = input.length
    · rw [if_neg (not_not.mpr hend), hend, List.drop_length]
      simp [List.splitOnP_nil]
    · rw [if_pos hend]
      obtain ⟨h1, h2, h3, _⟩ := advance_while_spec p input start hs
      rw [pieces_skip p (input.drop start), ← h3]
      generalize advance_while p (input.drop start) start = start1 at *
      by_cases hend1 : start1 = input.length
      · simp only [hend1, if_true, List.drop_length]
        simp [List.splitOnP_nil]
      · simp only [hend1, if_false]
        have hlt : start1 < input.length := by omega
        obtain ⟨c, cs, hcs⟩ : ∃ c cs, input.drop start1 = c :: cs := by
          cases hd : input.drop start1 with
          | nil =>
            have := congrArg List.length hd
            rw [List.length_drop] at this
            simp at this
            omega
          | cons c cs => exact ⟨c, cs, rfl⟩
        have hc : p c = false := by
          have hh : (List.dropWhile p (input.drop start)).head? = some c := by
            rw [← h3, hcs]; rfl
          have := List.head?_dropWhile_not p (input.drop start)
          rw [hh] at this
          simpa using this
        obtain ⟨e1, e2, e3, e4⟩ := advance_while_spec (fun c => !p c) input start1 h2
        have htok : 0 < ((input.drop start1).takeWhile (fun c => !p c)).length := by
          rw [hcs, List.takeWhile_cons_of_pos (by simp [hc])]
          simp
        have hadv : start1 < advance_while (fun c => !p c) (input.drop start1) start1 := by
          rw [advance_while_eq]; omega
        rw [e4]
        generalize advance_while (fun c => !p c) (input.drop start1) start1 = end1 at *
        have hpieces : ((input.drop start1).splitOnP p).filter (fun t => !t.isEmpty)
            = (input.drop start1).takeWhile (fun c => !p c) ::
              ((input.drop end1).splitOnP p).filter (fun t => !t.isEmpty) := by
          rw [hcs, pieces_token p c cs hc, ← hcs, e3]
        rw [hpieces]
        cases compress with
        | false =>
          simp only [Bool.false_eq_true, if_false]
          rw [ih end1 _ e2 (by omega), List.append_assoc]
          rfl
        | true =>
          simp only [if_true]
          obtain ⟨f1, f2, f3, _⟩ := advance_while_spec p input end1 e2
          rw [ih _ _ f2 (by omega), f3, ← pieces_skip p (input.drop end1), List.append_assoc]
          rfl

/-- The tokens of `split` are the non-empty pieces of the input between delimiters,
whatever the container held and whatever `compress` is. -/
theorem split_eq_pieces (result_container : List (List Char))
    (input_string delimiters : List Char) (compress : Bool) :
    split result_container input_string delimiters compress
      = (input_string.splitOnP (fun c => delimiters.contains c)).filter
          (fun t => !t.isEmpty) := by
  unfold split
  cases input_string with
  | nil => simp [List.splitOnP_nil]
  | cons c cs =>
    simp only [List.isEmpty_cons, Bool.false_eq_true, if_false, List.take_zero]
    rw [split_loop_eq _ _ _ _ 0 [] (Nat.zero_le _) (by omega), is_any_of_eq]
    rfl

/-! ## Lemmas on `create_directories` -/

/-- The parts cut out of a path by `create_directories` are non-empty and hold no
`/`; in particular none starts with `/`. -/
theorem path_parts_relative :
    ∀ (chars : List Char) (parts : List (List Char)) (current : List Char),
      (∀ x ∈ parts, x ≠ [] ∧ x.head? ≠ some '/') → current.head? ≠ some '/' →
      ∀ x ∈ path_parts chars parts current, x ≠ [] ∧ x.head? ≠ some '/' := by
  intro chars
  induction chars with
  | nil =>
    intro parts current hp hc x hx
    unfold path_parts at hx
    cases current with
    | nil => exact hp x (by simpa using hx)
    | cons c cs =>
      simp only [List.isEmpty_cons, Bool.not_false, if_true, List.mem_append,
        List.mem_singleton] at hx
      rcases hx with hx | hx
      · exact hp x hx
      · subst hx; exact ⟨List.cons_ne_nil _ _, hc⟩
  | cons c rest ih =>
    intro parts current hp hc x hx
    unfold path_parts at hx
    by_cases hslash : c = '/'
    · rw [if_pos hslash] at hx
      cases current with
      | nil => exact ih parts [] hp hc x (by simpa using hx)
      | cons d ds =>
        simp only [List.isEmpty_cons, Bool.not_false, if_true] at hx
        refine ih (parts ++ [d :: ds]) [] ?_ (by simp) x hx
        intro y hy
        rcases List.mem_append.mp hy with hy | hy
        · exact hp y hy
        · rw [List.mem_singleton.mp hy]; exact ⟨List.cons_ne_nil _ _, hc⟩
    · rw [if_neg hslash] at hx
      refine ih parts (current ++ [c]) hp ?_ x hx
      cases current with
      | nil => simpa using hslash
      | cons d ds => simpa using hc

/-- Appending a part that does not start with `/` to a path that does not start with
`/` gives a path that does not start with `/`. -/
theorem slash_assign_relative (current_path : Path) (part : List Char)
    (hc : current_path.path_.head? ≠ some '/') (hp : part ≠ [] ∧ part.head? ≠ some '/') :
    (current_path.slash_assign part).path_.head? ≠ some '/' := by
  unfold Path.slash_assign Path.join
  simp only
  cases hb : current_path.path_ with
  | nil =>
    simp only [List.isEmpty_nil, if_true]
    rw [normalize_head?]
    exact hp.2
  | cons b bs =>
    rw [hb] at hc
    simp only [List.isEmpty_cons, Bool.false_eq_true, if_false]
    split
    · exact hc
    · split
      · simpa using hc
      · split
        · simpa using hc
        · simpa using hc

/-- The loop of `create_directories` passes no name starting with `/` to `mkdir`
when it is entered with a path that does not start with `/`. -/
theorem create_directories_loop_relative :
    ∀ (parts : List (List Char)) (t : DirTree) (current_path : Path)
      (made : List (List Char)),
      (∀ x ∈ parts, x ≠ [] ∧ x.head? ≠ some '/') →
      current_path.path_.head? ≠ some '/' →
      made.all (fun name => name.head? != some '/') = true →
      (create_directories_loop t current_path made parts).made.all
        (fun name => name.head? != some '/') = true := by
  intro parts
  induction parts with
  | nil => intro t cp made _ _ hm; exact hm
  | cons part rest ih =>
    intro t cp made hp hc hm
    have hnext := slash_assign_relative cp part hc (hp part (List.mem_cons_self _ _))
    have hrest : ∀ x ∈ rest, x ≠ [] ∧ x.head? ≠ some '/' :=
      fun x hx => hp x (List.mem_cons_of_mem _ hx)
    have hm1 : (made ++ [(cp.slash_assign part).string]).all
        (fun name => name.head? != some '/') = true := by
      rw [List.all_append, hm]
      simpa [Path.string] using hnext
    unfold create_directories_loop
    simp only
    split
    · split
      · exact hm
      · exact ih t _ made hrest hnext hm
    · split
      · exact ih _ _ _ hrest hnext hm1
      · split
        · exact hm1
        · exact ih _ _ _ hrest hnext hm1

/-- No name that `create_directories` passes to `mkdir` starts with `/`. -/
theorem create_directories_relative (t : DirTree) (p : Path) :
    (create_directories t p).made.all (fun name => name.head? != some '/') = true := by
  unfold create_directories
  split
  · rfl
  · split
    · rfl
    · exact create_directories_loop_relative _ t _ [] (path_parts_relative _ [] []
        (fun x hx => absurd hx (List.not_mem_nil x)) (by simp)) (by simp) rfl

/-! ## Lemmas on `GetMatch` -/

/-- When the loop over the segments returns the match, a segment starts at `start`. -/
theorem starts_a_segment_mem (start : Nat) (segments : List Segment)
    (h : starts_a_segment start segments = true) : ∃ seg ∈ segments, seg.start = start := by
  induction segments with
  | nil => simp [starts_a_segment] at h
  | cons seg rest ih =>
    unfold starts_a_segment at h
    by_cases h1 : start < seg.start
    · simp [h1] at h
    · by_cases h2 : start = seg.start
      · exact ⟨seg, List.mem_cons_self _ _, h2.symm⟩
      · simp only [h1, h2, if_false] at h
        obtain ⟨s, hs, e⟩ := ih h
        exact ⟨s, List.mem_cons_of_mem _ hs, e⟩

/-- What the loop of `GetMatch` over the patterns returns: the not-found match, or a
match of one of the patterns that ends at the end of the input and starts at `j` or at
the start of a segment. -/
theorem GetMatch_loop_spec {Regex : Type}
    (regex_search : List Char → Regex → Option (Nat × Nat))
    (input active_input : List Char) (j k : Nat) (segments : List Segment)
    (patterns : List (List Char × Regex)) :
    GetMatch_loop regex_search input active_input j k segments patterns = RecognizerMatch.none_ ∨
    ∃ v ∈ patterns, ∃ position length,
      regex_search active_input v.2 = some (position, length) ∧
      GetMatch_loop regex_search input active_input j k segments patterns
        = { tag := v.1, start := (k + position) % 2 ^ 64,
            end_ := ((k + position) % 2 ^ 64 + length) % 2 ^ 64 } ∧
      ((k + position) % 2 ^ 64 + length) % 2 ^ 64 = input.length ∧
      ((k + position) % 2 ^ 64 = j ∨
        ∃ seg ∈ segments, seg.start = (k + position) % 2 ^ 64) := by
  induction patterns with
  | nil => exact Or.inl rfl
  | cons v rest ih =>
    have hrest : GetMatch_loop regex_search input active_input j k segments rest
          = RecognizerMatch.none_ ∨
        ∃ w ∈ v :: rest, ∃ position length,
          regex_search active_input w.2 = some (position, length) ∧
          GetMatch_loop regex_search input active_input j k segments rest
            = { tag := w.1, start := (k + position) % 2 ^ 64,
                end_ := ((k + position) % 2 ^ 64 + length) % 2 ^ 64 } ∧
          ((k + position) % 2 ^ 64 + length) % 2 ^ 64 = input.length ∧
          ((k + position) % 2 ^ 64 = j ∨
            ∃ seg ∈ segments, seg.start = (k + position) % 2 ^ 64) := by
      rcases ih with h | ⟨w, hw, p, l, h⟩
      · exact Or.inl h
      · exact Or.inr ⟨w, List.mem_cons_of_mem _ hw, p, l, h⟩
    unfold GetMatch_loop
    cases hs : regex_search active_input v.2 with
    | none => exact hrest
    | some m =>
      obtain ⟨position, length⟩ := m
      simp only
      by_cases hend : ((k + position) % 2 ^ 64 + length) % 2 ^ 64 = input.length
      · rw [if_neg (not_not.mpr hend)]
        by_cases hj : (k + position) % 2 ^ 64 = j
        · rw [if_pos hj]
          exact Or.inr ⟨v, List.mem_cons_self _ _, position, length, hs, rfl, hend, Or.inl hj⟩
        · rw [if_neg hj]
          by_cases hseg : starts_a_segment ((k + position) % 2 ^ 64) segments = true
          · rw [if_pos hseg]
            exact Or.inr ⟨v, List.mem_cons_self _ _, position, length, hs, rfl, hend,
              Or.inr (starts_a_segment_mem _ _ hseg)⟩
          · rw [if_neg hseg]
            exact hrest
      · rw [if_pos hend]
        exact hrest

/-! ## Lemmas on `tpSignal` -/

/-- A connection passes the test of `do_connect` exactly when it is a member
connection of the given triple. -/
theorem any_is_slot_of_iff (T obj func : Nat) (s : tpSignal) :
    s.connections_.any (Connection.is_slot_of T obj func) = true
      ↔ (T, obj, func) ∈ s.member_pairs := by
  unfold tpSignal.member_pairs
  rw [List.any_eq_true, List.mem_filterMap]
  constructor
  · rintro ⟨conn, hc, h⟩
    refine ⟨conn, hc, ?_⟩
    unfold Connection.is_slot_of at h
    cases hs : conn.slot with
    | member T1 r f =>
      rw [hs] at h
      simp only [Bool.and_eq_true, beq_iff_eq] at h
      obtain ⟨⟨h1, h2⟩, h3⟩ := h
      simp [h1, h2, h3]
    | lambda f => rw [hs] at h; exact Bool.noConfusion h
  · rintro ⟨conn, hc, h⟩
    refine ⟨conn, hc, ?_⟩
    unfold Connection.is_slot_of
    cases hs : conn.slot with
    | member T1 r f =>
      rw [hs] at h
      simp only [Option.some.injEq, Prod.mk.injEq] at h
      obtain ⟨h1, h2, h3⟩ := h
      simp [h1, h2, h3]
    | lambda f => rw [hs] at h; exact Option.noConfusion h

/-- The member triples after `do_connect`: unchanged for a connected triple, one more
at the end otherwise. -/
theorem member_pairs_do_connect (s : tpSignal) (T obj func : Nat) :
    (s.do_connect T obj func).member_pairs
      = if (T, obj, func) ∈ s.member_pairs then s.member_pairs
        else s.member_pairs ++ [(T, obj, func)] := by
  unfold tpSignal.do_connect
  by_cases h : s.connections_.any (Connection.is_slot_of T obj func) = true
  · rw [if_pos h, if_pos ((any_is_slot_of_iff T obj func s).mp h)]
  · rw [if_neg h, if_neg (fun hm => h ((any_is_slot_of_iff T obj func s).mpr hm))]
    simp [tpSignal.member_pairs, List.filterMap_append]

/-- No call makes the member triples of a signal repeat. -/
theorem member_pairs_nodup_apply (state : Nat × tpSignal) (c : Call)
    (h : state.2.member_pairs.Nodup) : (Call.apply state c).2.member_pairs.Nodup := by
  cases c with
  | connect T obj func =>
    simp only [Call.apply]
    rw [member_pairs_do_connect]
    by_cases hm : (T, obj, func) ∈ state.2.member_pairs
    · rw [if_pos hm]; exact h
    · rw [if_neg hm]
      exact List.Nodup.append h (List.nodup_singleton _)
        (List.disjoint_singleton.mpr hm)
  | connect_lambda func =>
    simp only [Call.apply, tpSignal.do_connect_lambda, tpSignal.member_pairs,
      List.filterMap_append, List.filterMap_cons, List.filterMap_nil, List.append_nil]
    exact h
  | disconnect T obj func =>
    simp only [Call.apply, tpSignal.disconnect, tpSignal.member_pairs]
    exact List.Nodup.sublist (List.Sublist.filterMap _ (List.filter_sublist _)) h
  | disconnect_id id =>
    simp only [Call.apply, tpSignal.disconnect_id, tpSignal.member_pairs]
    exact List.Nodup.sublist (List.Sublist.filterMap _ (List.filter_sublist _)) h

/-- After any sequence of calls on a new signal the member triples do not repeat. -/
theorem member_pairs_nodup_after (id : Nat) (calls : List Call) :
    (tpSignal.after id calls).member_pairs.Nodup := by
  unfold tpSignal.after
  have hgen : ∀ (calls : List Call) (state : Nat × tpSignal),
      state.2.member_pairs.Nodup → (calls.foldl Call.apply state).2.member_pairs.Nodup := by
    intro calls
    induction calls with
    | nil => intro state h; exact h
    | cons c rest ih =>
      intro state h
      exact ih _ (member_pairs_nodup_apply state c h)
  exact hgen calls _ List.nodup_nil

/-- When the member triples do not repeat, `emit` invokes a member slot once if its
triple is connected and not at all otherwise. -/
theorem emit_count (T obj func : Nat) :
    ∀ l : List Connection, (tpSignal.member_pairs { connections_ := l }).Nodup →
      (tpSignal.emit { connections_ := l }).count (Slot.member T obj func)
        = if (T, obj, func) ∈ tpSignal.member_pairs { connections_ := l } then 1 else 0 := by
  intro l
  induction l with
  | nil => intro _; rfl
  | cons conn rest ih =>
    intro hn
    simp only [tpSignal.emit, tpSignal.member_pairs] at ih hn ⊢
    rw [List.map_cons, List.count_cons]
    cases hs : conn.slot with
    | member T1 r f =>
      simp only [List.filterMap_cons, hs] at hn ⊢
      obtain ⟨hnot, hrest⟩ := List.nodup_cons.mp hn
      rw [ih hrest]
      by_cases he : T1 = T ∧ r = obj ∧ f = func
      · obtain ⟨h1, h2, h3⟩ := he
        subst h1 h2 h3
        rw [if_neg hnot, if_pos (List.mem_cons_self _ _)]
        simp
      · have h1 : (Slot.member T1 r f == Slot.member T obj func) = false := by
          simp only [beq_eq_false_iff_ne, ne_eq, Slot.member.injEq]
          exact he
        have h2 : (T, obj, func) ≠ (T1, r, f) := by
          intro e
          simp only [Prod.mk.injEq] at e
          exact he ⟨e.1.symm, e.2.1.symm, e.2.2.symm⟩
        rw [h1]
        simp only [List.mem_cons, h2, false_or, Bool.false_eq_true, if_false, Nat.add_zero]
    | lambda f =>
      simp only [List.filterMap_cons, hs] at hn ⊢
      rw [ih hn]
      simp

/-- The signal after one more member-function connect. -/
theorem after_connect (id : Nat) (calls : List Call) (T obj func : Nat) :
    tpSignal.after id (calls ++ [Call.connect T obj func])
      = (tpSignal.after id calls).do_connect T obj func := by
  unfold tpSignal.after
  rw [List.foldl_append]
  rfl

/-- The signal after one more member-function disconnect. -/
theorem after_disconnect (id : Nat) (calls : List Call) (T obj func : Nat) :
    tpSignal.after id (calls ++ [Call.disconnect T obj func])
      = (tpSignal.after id calls).disconnect T obj func := by
  unfold tpSignal.after
  rw [List.foldl_append]
  rfl

/-! ## Theorems -/

/-- C1: for every byte sequence, Reset, Update over the bytes and Finalize give the
reflected CRC-32 defined bit by bit (polynomial 0xEDB88320, register preset to
0xFFFFFFFF, final exclusive-or with 0xFFFFFFFF); the constructor's table has 256
entries, entry i being eight reduction steps applied to i (eight zero message bits
shifted through a register holding i); the ASCII bytes of "123456789" give
0xCBF43926. -/
theorem C1_crc32_refines_bitwise :
    (∀ data : List Byte, crc32 data = specCrc32 data) ∧
    (CRC32Calculator.new.table_.length = 256 ∧
      ∀ i, i < 256 →
        CRC32Calculator.new.table_.getD i 0 = crcShiftStep^[8] i ∧
        CRC32Calculator.new.table_.getD i 0 = (List.replicate 8 false).foldl specBit i) ∧
    crc32 [0x31, 0x32, 0x33, 0x34, 0x35, 0x36, 0x37, 0x38, 0x39] = 0xCBF43926 := by
  refine ⟨fun data => ?_, ⟨by simp [CRC32Calculator.new, CRC32Calculator.Reset], ?_⟩, by decide⟩
  · unfold crc32 specCrc32 CRC32Calculator.Finalize
    rw [Update_eq_spec (CRC32Calculator.new.Reset) rfl]
    rfl
  · intro i hi
    refine ⟨table_lookup i hi, ?_⟩
    rw [table_lookup i hi]
    simp only [List.replicate, List.foldl_cons, List.foldl_nil, specBit_eq, Bool.toNat_false,
      Nat.xor_zero]
    rfl

/-- C2 (as amended): for every ResourceType whose prefix and suffix contain no `/`
and every resource id that has no two adjacent `/` and contains neither the prefix
nor the suffix as a substring (an empty prefix or suffix imposes nothing),
`ToResourceId(ToFilePath(id))` returns `id`. -/
theorem C2_ToResourceId_ToFilePath_roundtrip (r : ResourceResolver) (id : List Char)
    (hp : '/' ∉ r.type_.prefix_) (hs : '/' ∉ r.type_.suffix)
    (hid : ¬ ['/', '/'] <:+: id)
    (hnp : r.type_.prefix_ = [] ∨ ¬ r.type_.prefix_ <:+: id)
    (hns : r.type_.suffix = [] ∨ ¬ r.type_.suffix <:+: id)
    (hlen : (r.type_.prefix_ ++ id ++ r.type_.suffix).length < 2 ^ 64) :
    r.ToResourceId (r.ToFilePath id) = some id := by
  rw [ToFilePath_eq r id hid]
  have hA : '/' ∉ (if (!id.contains '/' && !starts_with id r.type_.prefix_) = true
      then r.type_.prefix_ else []) := by
    split
    · exact hp
    · exact List.not_mem_nil _
  have hZ : '/' ∉ (if (!ends_with id r.type_.suffix) = true then r.type_.suffix else []) := by
    split
    · exact hs
    · exact List.not_mem_nil _
  apply ToResourceId_strip r _ _ id _ (normalize_noop _ (no_double_slash_sandwich _ _ _ hA hZ hid))
  · refine Nat.lt_of_le_of_lt ?_ hlen
    simp only [List.length_append]
    split <;> split <;> (try simp only [List.length_nil]) <;> omega
  · exact roundtrip_prefix_side _ id _ hp hnp
  · exact roundtrip_suffix_side _ _ id hns

/-- Witness for C2: prefix `p_`, suffix `.yaml`, id `luna/pinyin`. -/
theorem C2_ToResourceId_ToFilePath_roundtrip_witness :
    (ResourceResolver.new sampleType).ToResourceId
      ((ResourceResolver.new sampleType).ToFilePath "luna/pinyin".toList)
      = some "luna/pinyin".toList :=
  C2_ToResourceId_ToFilePath_roundtrip (ResourceResolver.new sampleType)
    "luna/pinyin".toList (by decide) (by decide) (by decide) (Or.inr (by decide))
    (Or.inr (by decide)) (by decide)

/-- Counterexample to C2 as stated: with prefix `p_` and suffix `.yaml`, the id
`a//b` contains neither, yet `ToFilePath` gives `a/b.yaml` and `ToResourceId` of
that gives `a/b`; and with prefix `p_` and suffix `/x`, the id `a/` contains
neither, `ToFilePath` gives `a//x`, and `ToResourceId` of that gives `a`. -/
theorem C2_roundtrip_counterexample :
    (¬ sampleType.prefix_ <:+: "a//b".toList ∧ ¬ sampleType.suffix <:+: "a//b".toList ∧
      (ResourceResolver.new sampleType).ToFilePath "a//b".toList = "a/b.yaml".toList ∧
      (ResourceResolver.new sampleType).ToResourceId
        ((ResourceResolver.new sampleType).ToFilePath "a//b".toList) = some "a/b".toList ∧
      (ResourceResolver.new sampleType).ToResourceId
        ((ResourceResolver.new sampleType).ToFilePath "a//b".toList) ≠ some "a//b".toList) ∧
    (¬ slashType.prefix_ <:+: "a/".toList ∧ ¬ slashType.suffix <:+: "a/".toList ∧
      (ResourceResolver.new slashType).ToFilePath "a/".toList = "a//x".toList ∧
      (ResourceResolver.new slashType).ToResourceId
        ((ResourceResolver.new slashType).ToFilePath "a/".toList) = some "a".toList ∧
      (ResourceResolver.new slashType).ToResourceId
        ((ResourceResolver.new slashType).ToFilePath "a/".toList) ≠ some "a/".toList) := by
  refine ⟨⟨by decide, by decide, by decide, by decide, by decide⟩,
    by decide, by decide, by decide, by decide, by decide⟩

/-- C3 (as amended): for every resolver whose root path is empty and every resource
id such that prefix + id + suffix has no two adjacent `/`, `ToResourceId` applied to
the string of `ResolvePath(id)` returns `id`. -/
theorem C3_ToResourceId_ResolvePath_roundtrip (r : ResourceResolver) (id : List Char)
    (hroot : r.root_path_.empty = true)
    (hn : ¬ ['/', '/'] <:+: r.type_.prefix_ ++ id ++ r.type_.suffix)
    (hlen : (r.type_.prefix_ ++ id ++ r.type_.suffix).length < 2 ^ 64) :
    r.ToResourceId (r.ResolvePath id).string = some id := by
  have hnorm := normalize_noop _ hn
  have hpath : (r.ResolvePath id).string = r.type_.prefix_ ++ id ++ r.type_.suffix := by
    unfold ResourceResolver.ResolvePath Path.absolute
    simp only
    split
    · simp only [Path.string, Path.ofString, hnorm]
    · unfold Path.empty at hroot
      simp only [Path.string, Path.slash, Path.ofString, Path.join, hroot, if_true, hnorm]
  rw [hpath]
  apply ToResourceId_strip r _ _ id _ hnorm hlen
  · rw [if_pos]
    rw [starts_with_iff, List.append_assoc]
    exact List.prefix_append _ _
  · rw [if_pos]
    rw [ends_with_iff]
    exact List.suffix_append _ _

/-- Witness for C3: prefix `p_`, suffix `.yaml`, no root path set, id `luna`. -/
theorem C3_ToResourceId_ResolvePath_roundtrip_witness :
    (ResourceResolver.new sampleType).ToResourceId
      ((ResourceResolver.new sampleType).ResolvePath "luna".toList).string
      = some "luna".toList :=
  C3_ToResourceId_ResolvePath_roundtrip (ResourceResolver.new sampleType) "luna".toList
    (by decide) (by decide) (by decide)

/-- Counterexample to C3 as stated: with prefix `p_`, suffix `.yaml` and root path
`/data`, the id `luna` contains neither prefix nor suffix, `ResolvePath` gives
`/data/p_luna.yaml` and `ToResourceId` of that gives `/data/p_luna`, not `luna`;
and with no root path set, the id `a//b` resolves to `p_a/b.yaml`, which gives
`a/b`. -/
theorem C3_roundtrip_counterexample :
    (¬ sampleType.prefix_ <:+: "luna".toList ∧ ¬ sampleType.suffix <:+: "luna".toList ∧
      (((ResourceResolver.new sampleType).set_root_path
        (Path.ofString "/data".toList)).ResolvePath "luna".toList).string
        = "/data/p_luna.yaml".toList ∧
      ((ResourceResolver.new sampleType).set_root_path (Path.ofString "/data".toList)).ToResourceId
        (((ResourceResolver.new sampleType).set_root_path
          (Path.ofString "/data".toList)).ResolvePath "luna".toList).string
        = some "/data/p_luna".toList ∧
      ((ResourceResolver.new sampleType).set_root_path (Path.ofString "/data".toList)).ToResourceId
        (((ResourceResolver.new sampleType).set_root_path
          (Path.ofString "/data".toList)).ResolvePath "luna".toList).string
        ≠ some "luna".toList) ∧
    (¬ sampleType.prefix_ <:+: "a//b".toList ∧ ¬ sampleType.suffix <:+: "a//b".toList ∧
      ((ResourceResolver.new sampleType).ResolvePath "a//b".toList).string
        = "p_a/b.yaml".toList ∧
      (ResourceResolver.new sampleType).ToResourceId
        ((ResourceResolver.new sampleType).ResolvePath "a//b".toList).string
        = some "a/b".toList ∧
      (ResourceResolver.new sampleType).ToResourceId
        ((ResourceResolver.new sampleType).ResolvePath "a//b".toList).string
        ≠ some "a//b".toList) := by
  refine ⟨⟨by decide, by decide, by decide, by decide, by decide⟩,
    by decide, by decide, by decide, by decide, by decide⟩

/-- C4: `FallbackResourceResolver::ResolvePath`, for every id and every existence
oracle: it returns the primary path when that exists (whatever the fallback); it
returns prefix + id + suffix joined under the fallback root when the primary path
does not exist, the fallback root is not empty and that fallback path exists; it
returns the primary path in every other case. -/
theorem C4_fallback_precedence (r : FallbackResourceResolver) (fs : RegularFiles)
    (id : List Char) :
    (Exists fs (r.toResourceResolver.ResolvePath id) = true →
      r.ResolvePath fs id = r.toResourceResolver.ResolvePath id) ∧
    (Exists fs (r.toResourceResolver.ResolvePath id) = false →
      r.fallback_root_path_.empty = false →
      Exists fs (r.fallback_root_path_.slash (r.type_.prefix_ ++ id ++ r.type_.suffix)) = true →
      r.ResolvePath fs id
        = r.fallback_root_path_.slash (r.type_.prefix_ ++ id ++ r.type_.suffix)) ∧
    (Exists fs (r.toResourceResolver.ResolvePath id) = false →
      (r.fallback_root_path_.empty = true ∨
        Exists fs (r.fallback_root_path_.slash (r.type_.prefix_ ++ id ++ r.type_.suffix))
          = false) →
      r.ResolvePath fs id = r.toResourceResolver.ResolvePath id) := by
  refine ⟨fun h => ?_, fun h he hf => ?_, fun h hor => ?_⟩
  · simp only [FallbackResourceResolver.ResolvePath, h, if_true]
  · simp only [FallbackResourceResolver.ResolvePath, h, he, hf, Bool.false_eq_true, if_false,
      Bool.not_false, if_true]
  · rcases hor with he | hf
    · simp only [FallbackResourceResolver.ResolvePath, h, he, Bool.false_eq_true, if_false,
        Bool.not_true]
    · simp only [FallbackResourceResolver.ResolvePath, h, hf, Bool.false_eq_true, if_false,
        ite_self]

/-- Witness for C4: the resource `luna` under roots `/user` and `/shared`, present
under both, under the fallback only, and under neither. -/
theorem C4_fallback_precedence_witness :
    sampleFallback.ResolvePath inBothRoots "luna".toList
      = sampleFallback.toResourceResolver.ResolvePath "luna".toList ∧
    sampleFallback.ResolvePath inFallbackOnly "luna".toList
      = sampleFallback.fallback_root_path_.slash
          (sampleFallback.type_.prefix_ ++ "luna".toList ++ sampleFallback.type_.suffix) ∧
    sampleFallback.ResolvePath inNeither "luna".toList
      = sampleFallback.toResourceResolver.ResolvePath "luna".toList :=
  ⟨(C4_fallback_precedence sampleFallback inBothRoots "luna".toList).1 (by decide),
   (C4_fallback_precedence sampleFallback inFallbackOnly "luna".toList).2.1
     (by decide) (by decide) (by decide),
   (C4_fallback_precedence sampleFallback inNeither "luna".toList).2.2
     (by decide) (Or.inr (by decide))⟩

/-- C5 (as amended): for every resource id, when prefix + id + suffix does not begin
with `/`, `ResolvePath(id)` is the root path joined (`operator/`) with prefix + id +
suffix; when it begins with `/`, `ResolvePath(id)` is the path of prefix + id +
suffix itself and the root path plays no part.  The result is computed from the
type, the root path and the id alone. -/
theorem C5_ResolvePath_anchored (r : ResourceResolver) (id : List Char) :
    ((r.type_.prefix_ ++ id ++ r.type_.suffix).head? ≠ some '/' →
      r.ResolvePath id = r.root_path_.slash (r.type_.prefix_ ++ id ++ r.type_.suffix) ∧
      (r.ResolvePath id).string = Path.normalize (Path.join r.root_path_.path_
        (Path.normalize (r.type_.prefix_ ++ id ++ r.type_.suffix)))) ∧
    ((r.type_.prefix_ ++ id ++ r.type_.suffix).head? = some '/' →
      r.ResolvePath id = Path.ofString (r.type_.prefix_ ++ id ++ r.type_.suffix) ∧
      ∀ root : Path, (r.set_root_path root).ResolvePath id = r.ResolvePath id) := by
  constructor
  · intro h
    have hna : (Path.ofString (r.type_.prefix_ ++ id ++ r.type_.suffix)).is_absolute = false := by
      rw [← Bool.not_eq_true, ResolvePath_absolute_iff]
      exact h
    have he : r.ResolvePath id = r.root_path_.slash (r.type_.prefix_ ++ id ++ r.type_.suffix) := by
      simp only [ResourceResolver.ResolvePath, Path.absolute, hna, Bool.false_eq_true, if_false]
      exact slash_normalize _ _
    refine ⟨he, ?_⟩
    rw [he]
    rfl
  · intro h
    have ha : (Path.ofString (r.type_.prefix_ ++ id ++ r.type_.suffix)).is_absolute = true :=
      (ResolvePath_absolute_iff _).mpr h
    refine ⟨?_, fun root => ?_⟩
    · simp only [ResourceResolver.ResolvePath, Path.absolute, ha, if_true]
    · simp only [ResourceResolver.ResolvePath, ResourceResolver.set_root_path, Path.absolute, ha,
        if_true]

/-- Witness for C5: root `/data` and empty prefix, with the relative id `etc/x` and
with the absolute id `/etc/x`. -/
theorem C5_ResolvePath_anchored_witness :
    (((ResourceResolver.new yamlType).set_root_path (Path.ofString "/data".toList)).ResolvePath
        "etc/x".toList).string = "/data/etc/x.yaml".toList ∧
    ((ResourceResolver.new yamlType).set_root_path (Path.ofString "/data".toList)).ResolvePath
        "/etc/x".toList = Path.ofString "/etc/x.yaml".toList :=
  ⟨((C5_ResolvePath_anchored
      ((ResourceResolver.new yamlType).set_root_path (Path.ofString "/data".toList))
      "etc/x".toList).1 (by decide)).2.trans (by decide),
   ((C5_ResolvePath_anchored
      ((ResourceResolver.new yamlType).set_root_path (Path.ofString "/data".toList))
      "/etc/x".toList).2 (by decide)).1⟩

/-- Counterexample to C5 as stated: with an empty prefix, suffix `.yaml` and root
`/data`, `ResolvePath` of the id `/etc/x` is `/etc/x.yaml`, which is not the root
joined with prefix + id + suffix (`/data/etc/x.yaml`). -/
theorem C5_anchored_counterexample :
    (((ResourceResolver.new yamlType).set_root_path (Path.ofString "/data".toList)).ResolvePath
        "/etc/x".toList).string = "/etc/x.yaml".toList ∧
    ((Path.ofString "/data".toList).slash
        (yamlType.prefix_ ++ "/etc/x".toList ++ yamlType.suffix)).string
      = "/data/etc/x.yaml".toList ∧
    ((ResourceResolver.new yamlType).set_root_path (Path.ofString "/data".toList)).ResolvePath
        "/etc/x".toList
      ≠ (Path.ofString "/data".toList).slash
          (yamlType.prefix_ ++ "/etc/x".toList ++ yamlType.suffix) := by
  refine ⟨by decide, by decide, by decide⟩

/-- C6 (as amended): for every file path, `ToResourceId` returns a string (it has no
error path), and with `p` the path after `Path` normalization (each run of `/`
collapsed to one): when `p` is prefix + m + suffix the result is `m`; when `p` is
prefix + m and does not end with the suffix the result is `m`; when `p` is
m + suffix and does not start with the prefix the result is `m`; when `p` neither
starts with the prefix nor ends with the suffix the result is `p`.  Nothing is said
of a `p` in which the prefix at the start and the suffix at the end overlap. -/
theorem C6_ToResourceId_strips (r : ResourceResolver) (file_path : List Char)
    (hlen : file_path.length < 2 ^ 64) :
    ∃ res, r.ToResourceId file_path = some res ∧
      (∀ m, Path.normalize file_path = r.type_.prefix_ ++ m ++ r.type_.suffix → res = m) ∧
      (¬ r.type_.suffix <:+ Path.normalize file_path →
        ∀ m, Path.normalize file_path = r.type_.prefix_ ++ m → res = m) ∧
      (¬ r.type_.prefix_ <+: Path.normalize file_path →
        ∀ m, Path.normalize file_path = m ++ r.type_.suffix → res = m) ∧
      (¬ r.type_.prefix_ <+: Path.normalize file_path →
        ¬ r.type_.suffix <:+ Path.normalize file_path → res = Path.normalize file_path) := by
  have hex : ∃ res, r.ToResourceId file_path = some res := by
    simp only [ResourceResolver.ToResourceId, Path.ofString, Path.generic_string, substr]
    rw [if_neg (Nat.not_lt.mpr (ToResourceId_start_le r _))]
    exact ⟨_, rfl⟩
  obtain ⟨res, hres⟩ := hex
  refine ⟨res, hres, ?_, ?_, ?_, ?_⟩
  · intro m hm
    have := ToResourceId_strip r file_path r.type_.prefix_ m r.type_.suffix hm hlen
      (by rw [if_pos]; rw [starts_with_iff, List.append_assoc]; exact List.prefix_append _ _)
      (by rw [if_pos]; rw [ends_with_iff]; exact List.suffix_append _ _)
    rw [hres] at this
    exact Option.some.inj this
  · intro hs m hm
    have := ToResourceId_strip r file_path r.type_.prefix_ m [] (by rw [hm, List.append_nil]) hlen
      (by rw [if_pos]; rw [starts_with_iff, List.append_assoc]; exact List.prefix_append _ _)
      (by rw [if_neg]; rw [ends_with_iff, List.append_nil, ← hm]; exact hs)
    rw [hres] at this
    exact Option.some.inj this
  · intro hp m hm
    have := ToResourceId_strip r file_path [] m r.type_.suffix (by rw [hm, List.nil_append]) hlen
      (by rw [if_neg]; rw [starts_with_iff, List.nil_append, ← hm]; exact hp)
      (by rw [if_pos]; rw [ends_with_iff]; exact List.suffix_append _ _)
    rw [hres] at this
    exact Option.some.inj this
  · intro hp hs
    have := ToResourceId_strip r file_path [] (Path.normalize file_path) []
      (by rw [List.nil_append, List.append_nil]) hlen
      (by rw [if_neg]; rw [starts_with_iff, List.nil_append, List.append_nil]; exact hp)
      (by rw [if_neg]; rw [ends_with_iff, List.nil_append, List.append_nil]; exact hs)
    rw [hres] at this
    exact Option.some.inj this

/-- Witness for C6: prefix `p_`, suffix `.yaml` and the path `p_luna.yaml`. -/
theorem C6_ToResourceId_strips_witness :
    ∃ res, (ResourceResolver.new sampleType).ToResourceId "p_luna.yaml".toList = some res ∧
      res = "luna".toList := by
  obtain ⟨res, hres, h1, _⟩ :=
    C6_ToResourceId_strips (ResourceResolver.new sampleType) "p_luna.yaml".toList (by decide)
  exact ⟨res, hres, h1 "luna".toList (by decide)⟩

/-- Counterexample to C6 as stated: with prefix `p_` and suffix `.yaml`, the path
`a//b` neither starts with the prefix nor ends with the suffix, yet `ToResourceId`
returns `a/b`, not the path unchanged. -/
theorem C6_unchanged_counterexample :
    ¬ sampleType.prefix_ <+: "a//b".toList ∧ ¬ sampleType.suffix <:+ "a//b".toList ∧
    (ResourceResolver.new sampleType).ToResourceId "a//b".toList = some "a/b".toList ∧
    (ResourceResolver.new sampleType).ToResourceId "a//b".toList ≠ some "a//b".toList := by
  refine ⟨by decide, by decide, by decide, by decide⟩

/-- C7: replacing the byte at any position of any byte sequence by a different byte
changes the checksum computed by the calculator. -/
theorem C7_single_byte_change_detected (before after : List Byte) (b b' : Byte) (h : b ≠ b') :
    crc32 (before ++ b :: after) ≠ crc32 (before ++ b' :: after) := by
  unfold crc32 CRC32Calculator.Finalize
  rw [Update_crc (CRC32Calculator.new.Reset) rfl, Update_crc (CRC32Calculator.new.Reset) rfl]
  simp only [List.foldl_append, List.foldl_cons]
  intro he
  have hne := Nat.xor_left_injective he
  have hr : List.foldl (fun r b => crcShiftStep^[8] (r ^^^ b.val))
      (CRC32Calculator.new.Reset).crc_ before < 2 ^ 32 :=
    foldl_register_lt before _ (by decide)
  revert hne
  generalize List.foldl (fun r b => crcShiftStep^[8] (r ^^^ b.val))
    (CRC32Calculator.new.Reset).crc_ before = r at hr
  refine (foldl_register_ne after _ _ (crcShiftStep_iterate_lt 8 _ (xor_byte_lt r b hr))
    (crcShiftStep_iterate_lt 8 _ (xor_byte_lt r b' hr)) ?_).1
  intro hs
  have := crcShiftStep_iterate_inj 8 _ _ (xor_byte_lt r b hr) (xor_byte_lt r b' hr) hs
  exact h (Fin.ext (Nat.xor_right_injective this))

/-- Witness for C7: the sequence 1, 2, 3 with its middle byte replaced by 7. -/
theorem C7_single_byte_change_detected_witness :
    (2 : Byte) ≠ 7 ∧ crc32 ([1] ++ 2 :: [3]) ≠ crc32 ([1] ++ 7 :: [3]) :=
  ⟨by decide, C7_single_byte_change_detected [1] [3] 2 7 (by decide)⟩

/-- C8: the checksum of a zero-length input is 0: a calculator that was just reset
finalizes to 0, and `ProcessFile` on an empty file returns normally and leaves a
computer whose `Checksum` is 0; so does the inline `Checksum`. -/
theorem C8_empty_input_checksum_zero (c : ChecksumComputer) (fs : FileSystem)
    (file_name : List Char) (h : fs file_name = some []) :
    c.crc_.Reset.Finalize = 0 ∧
    crc32 [] = 0 ∧
    (c.ProcessFile fs file_name).1 = Except.ok () ∧
    (c.ProcessFile fs file_name).2.Checksum = 0 ∧
    Checksum fs file_name = Except.ok 0 := by
  have hp : ∀ d : ChecksumComputer, d.ProcessFile fs file_name
      = (Except.ok (), { crc_ := d.crc_.Reset }) := by
    intro d
    unfold ChecksumComputer.ProcessFile
    rw [h]
    simp only
    rw [readLoop_eq_Update 0 _ [] (Nat.le_refl _)]
    rfl
  have hz : ∀ d : CRC32Calculator, d.Reset.Finalize = 0 := by
    intro d
    simp [CRC32Calculator.Reset, CRC32Calculator.Finalize]
  refine ⟨hz _, hz _, ?_, ?_, ?_⟩
  · rw [hp]
  · rw [hp]; exact hz _
  · unfold Checksum
    rw [hp]
    simp only [ChecksumComputer.Checksum]
    rw [hz]

/-- Witness for C8: a fresh computer and a file system whose every file is empty. -/
theorem C8_empty_input_checksum_zero_witness :
    (ChecksumComputer.new.ProcessFile (fun _ => some []) ['f']).2.Checksum = 0 ∧
    Checksum (fun _ => some []) ['f'] = Except.ok 0 :=
  ⟨(C8_empty_input_checksum_zero ChecksumComputer.new (fun _ => some []) ['f'] rfl).2.2.2.1,
   (C8_empty_input_checksum_zero ChecksumComputer.new (fun _ => some []) ['f'] rfl).2.2.2.2⟩

/-- C9: feeding any sequence of consecutive chunks to `Update` in order leaves the
calculator (hence the checksum) that one `Update` over their concatenation leaves;
the read loop of `ProcessFile`, which takes 64 KiB chunks and then a shorter or
empty one, leaves what one `Update` over the whole file leaves; an `Update` of
length zero changes nothing. -/
theorem C9_chunked_update_equals_whole :
    (∀ (c : CRC32Calculator) (chunks : List (List Byte)),
      chunks.foldl CRC32Calculator.Update c = c.Update chunks.flatten ∧
      (chunks.foldl CRC32Calculator.Update c).Finalize = (c.Update chunks.flatten).Finalize) ∧
    (∀ (c : CRC32Calculator) (bytes : List Byte),
      readLoop c bytes = c.Update bytes ∧
      readLoop c bytes
        = ((c.Update (bytes.take (buffer_size * (bytes.length / buffer_size)))).Update
            (bytes.drop (buffer_size * (bytes.length / buffer_size))))) ∧
    (∀ c : CRC32Calculator, c.Update [] = c) := by
  have hchunks : ∀ (chunks : List (List Byte)) (c : CRC32Calculator),
      chunks.foldl CRC32Calculator.Update c = c.Update chunks.flatten := by
    intro chunks
    induction chunks with
    | nil => intro c; rfl
    | cons ch rest ih =>
      intro c
      rw [List.foldl_cons, ih, List.flatten_cons, Update_append]
  refine ⟨fun c chunks => ?_, fun c bytes => ⟨readLoop_eq_Update bytes.length c bytes (Nat.le_refl _), ?_⟩,
    fun c => rfl⟩
  · rw [hchunks]
    exact ⟨rfl, rfl⟩
  · rw [readLoop_eq_Update bytes.length c bytes (Nat.le_refl _), ← Update_append,
      List.take_append_drop]

/-- C10: the checksum of a file depends on its bytes alone: whatever the register
of the computer holds beforehand, `ProcessFile` on a file that can be opened returns
normally and `Checksum` is then the CRC-32 of the file's bytes; the lookup table is
left as the constructor built it, whether or not the file could be opened. -/
theorem C10_checksum_depends_on_bytes_only (c : ChecksumComputer) (fs : FileSystem)
    (file_name : List Char) (bytes : List Byte)
    (hc : c.crc_.table_ = CRC32Calculator.new.table_) (hf : fs file_name = some bytes) :
    (c.ProcessFile fs file_name).1 = Except.ok () ∧
    (c.ProcessFile fs file_name).2.Checksum = crc32 bytes ∧
    (∀ (fs' : FileSystem) (other : List Char),
      (c.ProcessFile fs' other).2.crc_.table_ = CRC32Calculator.new.table_) := by
  refine ⟨?_, ?_, fun fs' other => by rw [ProcessFile_table, hc]⟩
  · unfold ChecksumComputer.ProcessFile
    rw [hf]
  · unfold ChecksumComputer.ProcessFile
    rw [hf]
    simp only [ChecksumComputer.Checksum]
    rw [readLoop_eq_Update bytes.length _ _ (Nat.le_refl _)]
    unfold crc32 CRC32Calculator.Finalize
    have hreg : ∀ d e : CRC32Calculator, d.table_ = e.table_ → d.crc_ = e.crc_ → d = e := by
      intro d e h1 h2
      cases d; cases e
      simp only at h1 h2
      rw [h1, h2]
    rw [hreg c.crc_.Reset CRC32Calculator.new.Reset hc rfl]

/-- Witness for C10: a computer that has already processed another file, then the
file `a` holding the bytes 1, 2, 3. -/
theorem C10_checksum_depends_on_bytes_only_witness :
    ((ChecksumComputer.new.ProcessFile (fun _ => some [9, 9]) ['b']).2.ProcessFile
        (fun _ => some [1, 2, 3]) ['a']).2.Checksum = crc32 [1, 2, 3] :=
  (C10_checksum_depends_on_bytes_only
    (ChecksumComputer.new.ProcessFile (fun _ => some [9, 9]) ['b']).2
    (fun _ => some [1, 2, 3]) ['a'] [1, 2, 3]
    (ProcessFile_table _ _ _) rfl).2.1

/-- C11: `ProcessFile` and the inline `Checksum` throw exactly when the file cannot
be opened: then the outcome is the error "Cannot open file: " + name and `Checksum`
yields no value; for every file that can be opened, the empty one included,
`ProcessFile` returns normally and `Checksum` yields the CRC-32 of the bytes. -/
theorem C11_error_iff_cannot_open (c : ChecksumComputer) (fs : FileSystem)
    (file_name : List Char) :
    ((c.ProcessFile fs file_name).1 = Except.error ("Cannot open file: ".toList ++ file_name)
      ↔ fs file_name = none) ∧
    ((c.ProcessFile fs file_name).1 = Except.ok () ↔ ∃ bytes, fs file_name = some bytes) ∧
    (Checksum fs file_name = Except.error ("Cannot open file: ".toList ++ file_name)
      ↔ fs file_name = none) ∧
    ((∃ value, Checksum fs file_name = Except.ok value) ↔ ∃ bytes, fs file_name = some bytes) ∧
    (∀ bytes, fs file_name = some bytes → Checksum fs file_name = Except.ok (crc32 bytes)) := by
  have hP : ∀ o : Option (List Byte), fs file_name = o →
      ((c.ProcessFile fs file_name).1 = Except.error ("Cannot open file: ".toList ++ file_name)
        ↔ o = none) ∧
      ((c.ProcessFile fs file_name).1 = Except.ok () ↔ ∃ bytes, o = some bytes) := by
    intro o ho
    unfold ChecksumComputer.ProcessFile
    rw [ho]
    cases o with
    | none => simp
    | some bytes => simp
  refine ⟨(hP _ rfl).1, (hP _ rfl).2, ?_, ?_, fun bytes h => Checksum_of_bytes fs file_name bytes h⟩
  · cases h : fs file_name with
    | none => simp [Checksum_of_none fs file_name h]
    | some bytes => simp [Checksum_of_bytes fs file_name bytes h]
  · cases h : fs file_name with
    | none => simp [Checksum_of_none fs file_name h]
    | some bytes => simp [Checksum_of_bytes fs file_name bytes h]

/-- Witness for C11: a file system holding only the empty file `e`; `e` is
processed without error and the missing file `m` is not. -/
theorem C11_error_iff_cannot_open_witness :
    Checksum (fun n => if n = ['e'] then some [] else none) ['e'] = Except.ok (crc32 []) ∧
    Checksum (fun n => if n = ['e'] then some [] else none) ['m']
      = Except.error ("Cannot open file: ".toList ++ ['m']) :=
  ⟨(C11_error_iff_cannot_open ChecksumComputer.new
      (fun n => if n = ['e'] then some [] else none) ['e']).2.2.2.2 [] (by decide),
   (C11_error_iff_cannot_open ChecksumComputer.new
      (fun n => if n = ['e'] then some [] else none) ['m']).2.2.1.mpr (by decide)⟩

/-- C12, what the code does: `Create` checks neither `Resize`, which drops the result
of `truncate`, nor the seek and the write on a new file, and maps the file that is
there.  A `Create(c)` that returns true leaves the store open with logical size 0 and
`capacity()` equal to the length of the backing file, which is not 0; but that length
need not be `c`.  Where files may be 2^44 bytes long, `Create(2^45)` returns true on
the absent name `/d/y.bin` with a file of one byte and `capacity() == 1`, and on the
four-byte file `/d/x.bin` with its four bytes and `capacity() == 4`; so does
`Create(2^63)`, whose length is negative as an `off_t`. -/
theorem C12_Create_hides_failed_resize (m : MappedFile) (fs : FileSys) (capacity addr : Nat)
    (hok : (m.Create fs capacity addr).result = Except.ok true) :
    (∃ content, (m.Create fs capacity addr).fs.lookup m.file_name_
        = some (Node.regular content) ∧
      content.length ≠ 0 ∧
      (m.Create fs capacity addr).store.IsOpen = true ∧
      (m.Create fs capacity addr).store.size_ = 0 ∧
      (m.Create fs capacity addr).store.capacity = some content.length) ∧
    (sampleFs.lookup storeY.file_name_ = none ∧
      (storeY.Create sampleFs (2 ^ 45) 4096).result = Except.ok true ∧
      (storeY.Create sampleFs (2 ^ 45) 4096).fs.lookup storeY.file_name_
        = some (Node.regular [0]) ∧
      (storeY.Create sampleFs (2 ^ 45) 4096).store.capacity = some 1) ∧
    (sampleFs.lookup storeX.file_name_ = some (Node.regular [1, 2, 3, 4]) ∧
      (storeX.Create sampleFs (2 ^ 45) 4096).result = Except.ok true ∧
      (storeX.Create sampleFs (2 ^ 45) 4096).fs.lookup storeX.file_name_
        = some (Node.regular [1, 2, 3, 4]) ∧
      (storeX.Create sampleFs (2 ^ 45) 4096).store.capacity = some 4) ∧
    ((storeX.Create sampleFs (2 ^ 63) 4096).result = Except.ok true ∧
      (storeX.Create sampleFs (2 ^ 63) 4096).fs.lookup storeX.file_name_
        = some (Node.regular [1, 2, 3, 4]) ∧
      (storeX.Create sampleFs (2 ^ 63) 4096).store.capacity = some 4) := by
  obtain ⟨-, content, hl, hz, hs⟩ := Create_ok m fs capacity addr true hok
  refine ⟨⟨content, hl, hz, by rw [hs]; rfl, by rw [hs], by rw [hs]; rfl⟩,
    ⟨by decide, by rfl, by decide, by decide⟩, ⟨by decide, by rfl, by decide, by decide⟩,
    ⟨by rfl, by decide, by decide⟩⟩

/-- Witness for C12: `Create(3)` on the absent name `/d/y.bin`, which returns true;
here the file is three bytes long. -/
theorem C12_Create_hides_failed_resize_witness :
    (storeY.Create sampleFs 3 4096).result = Except.ok true ∧
    ∃ content, (storeY.Create sampleFs 3 4096).fs.lookup storeY.file_name_
        = some (Node.regular content) ∧
      content.length ≠ 0 ∧
      (storeY.Create sampleFs 3 4096).store.IsOpen = true ∧
      (storeY.Create sampleFs 3 4096).store.size_ = 0 ∧
      (storeY.Create sampleFs 3 4096).store.capacity = some content.length :=
  ⟨by rfl, (C12_Create_hides_failed_resize storeY sampleFs 3 4096 (by rfl)).1⟩

/-- C13: for an existing backing file of any length L, an `OpenReadOnly` that
returns true leaves `capacity() == L` and logical size L, and an `OpenReadWrite`
that returns true leaves `capacity() == L` and logical size 0; both return true
when L is not 0, and neither changes the file system. -/
theorem C13_open_sets_capacity_and_size (m : MappedFile) (fs : FileSys) (addr : Nat)
    (content : List Byte) (h : fs.lookup m.file_name_ = some (Node.regular content)) :
    ((m.OpenReadOnly fs addr).result = Except.ok true →
      (m.OpenReadOnly fs addr).store.capacity = some content.length ∧
      (m.OpenReadOnly fs addr).store.size_ = content.length) ∧
    ((m.OpenReadWrite fs addr).result = Except.ok true →
      (m.OpenReadWrite fs addr).store.capacity = some content.length ∧
      (m.OpenReadWrite fs addr).store.size_ = 0) ∧
    (content ≠ [] →
      (m.OpenReadOnly fs addr).result = Except.ok true ∧
      (m.OpenReadWrite fs addr).result = Except.ok true) ∧
    (m.OpenReadOnly fs addr).fs.lookup m.file_name_ = some (Node.regular content) ∧
    (m.OpenReadWrite fs addr).fs.lookup m.file_name_ = some (Node.regular content) := by
  have he := Exists_of_regular m fs content h
  by_cases hz : content = []
  · have hlen : content.length = 0 := by rw [hz]; rfl
    have hro : MappedFileImpl.open_posix fs m.file_name_ OpenMode.kOpenReadOnly addr
        = Except.error "Cannot map file".toList := by
      unfold MappedFileImpl.open_posix
      rw [h]
      simp only
      rw [if_pos hlen]
    have hrw : MappedFileImpl.open_posix fs m.file_name_ OpenMode.kOpenReadWrite addr
        = Except.error "Cannot map file".toList := by
      unfold MappedFileImpl.open_posix
      rw [h]
      simp only
      rw [if_pos hlen]
    simp only [MappedFile.OpenReadOnly, MappedFile.OpenReadWrite, he, hro, hrw, Bool.not_true,
      Bool.false_eq_true, if_false]
    refine ⟨fun hc => ?_, fun hc => ?_, fun hn => absurd hz hn, h, h⟩
    · simp at hc
    · simp at hc
  · have hro := open_posix_regular fs m.file_name_ OpenMode.kOpenReadOnly addr content h hz
    have hrw := open_posix_regular fs m.file_name_ OpenMode.kOpenReadWrite addr content h hz
    simp only [MappedFile.OpenReadOnly, MappedFile.OpenReadWrite, he, hro, hrw, Bool.not_true,
      Bool.false_eq_true, if_false]
    refine ⟨?_, ?_, ?_, h, h⟩ <;> intro _ <;>
      simp [MappedFile.capacity, MappedFileImpl.get_size]

/-- Witness for C13: the four-byte file `/d/x.bin` opened read-only and
read-write. -/
theorem C13_open_sets_capacity_and_size_witness :
    ((storeX.OpenReadOnly sampleFs 4096).store.capacity = some 4 ∧
      (storeX.OpenReadOnly sampleFs 4096).store.size_ = 4) ∧
    ((storeX.OpenReadWrite sampleFs 4096).store.capacity = some 4 ∧
      (storeX.OpenReadWrite sampleFs 4096).store.size_ = 0) :=
  ⟨(C13_open_sets_capacity_and_size storeX sampleFs 4096 [1, 2, 3, 4] (by decide)).1 (by rfl),
   (C13_open_sets_capacity_and_size storeX sampleFs 4096 [1, 2, 3, 4] (by decide)).2.1 (by rfl)⟩

/-- C14: when the backing file is absent, `OpenReadOnly` and `OpenReadWrite` return
false, leave the file system as it was (no file is created) and leave the store,
its handle and logical size included, as it was. -/
theorem C14_open_absent_fails (m : MappedFile) (fs : FileSys) (addr : Nat)
    (h : fs.lookup m.file_name_ = none) :
    ((m.OpenReadOnly fs addr).result = Except.ok false ∧
      (m.OpenReadOnly fs addr).store = m ∧
      (m.OpenReadOnly fs addr).fs = fs) ∧
    ((m.OpenReadWrite fs addr).result = Except.ok false ∧
      (m.OpenReadWrite fs addr).store = m ∧
      (m.OpenReadWrite fs addr).fs = fs) := by
  have he := Exists_of_absent m fs h
  simp only [MappedFile.OpenReadOnly, MappedFile.OpenReadWrite, he, Bool.not_false, if_true,
    and_self]

/-- Witness for C14: the name `/d/y.bin` denotes nothing in `sampleFs`. -/
theorem C14_open_absent_fails_witness :
    (storeY.OpenReadOnly sampleFs 4096).result = Except.ok false ∧
    (storeY.OpenReadWrite sampleFs 4096).result = Except.ok false :=
  ⟨(C14_open_absent_fails storeY sampleFs 4096 (by decide)).1.1,
   (C14_open_absent_fails storeY sampleFs 4096 (by decide)).2.1⟩

/-- C15: for a store whose backing file has C bytes (C below 2^63, as every file
length is) and whose logical size is N with N < C, `ShrinkToFit` returns true and
leaves the backing file exactly N bytes long, every byte at an offset below N being
the byte that was there; the store is left closed. -/
theorem C15_ShrinkToFit_truncates (m : MappedFile) (fs : FileSys) (content : List Byte)
    (hfile : fs.lookup m.file_name_ = some (Node.regular content))
    (hsize : m.size_ < content.length) (hfits : content.length < 2 ^ 63) :
    (m.ShrinkToFit fs).result = Except.ok true ∧
    (∃ shrunk, (m.ShrinkToFit fs).fs.lookup m.file_name_ = some (Node.regular shrunk) ∧
      shrunk.length = m.size_ ∧ shrunk = content.take m.size_ ∧
      ∀ i, i < m.size_ → shrunk[i]? = content[i]?) ∧
    (m.ShrinkToFit fs).store.IsOpen = false := by
  refine ⟨rfl, ⟨content.take m.size_, ?_, ?_, rfl, ?_⟩, ?_⟩
  · unfold MappedFile.ShrinkToFit
    rw [Resize_regular m fs m.size_ content (by omega) (Or.inl (by omega)) hfile,
      show m.size_ - content.length = 0 by omega]
    simp
  · rw [List.length_take]
    omega
  · intro i hi
    rw [List.getElem?_take_of_lt hi]
  · unfold MappedFile.ShrinkToFit
    rw [show (m.Resize fs m.size_).store = (if m.IsOpen then m.Close else m) from rfl]
    unfold MappedFile.IsOpen
    rw [show (if m.file_.isSome then m.Close else m).file_
      = (if m.IsOpen then m.Close else m).file_ from rfl, closed_file]
    rfl

/-- Witness for C15: the four-byte file `/d/x.bin` with two bytes in use. -/
theorem C15_ShrinkToFit_truncates_witness :
    (storeXUsed.ShrinkToFit sampleFs).result = Except.ok true ∧
    (∃ shrunk, (storeXUsed.ShrinkToFit sampleFs).fs.lookup storeXUsed.file_name_
        = some (Node.regular shrunk) ∧
      shrunk.length = storeXUsed.size_ ∧ shrunk = [1, 2, 3, 4].take storeXUsed.size_ ∧
      ∀ i, i < storeXUsed.size_ → shrunk[i]? = [1, 2, 3, 4][i]?) ∧
    (storeXUsed.ShrinkToFit sampleFs).store.IsOpen = false :=
  C15_ShrinkToFit_truncates storeXUsed sampleFs [1, 2, 3, 4] (by decide) (by decide) (by decide)

/-- C16, what the code does: when the backing file is absent, so that `truncate`
fails, `Resize` still returns true and the file is still absent, whatever the
requested capacity; so does `ShrinkToFit` on an open store. -/
theorem C16_Resize_hides_truncate_failure (m : MappedFile) (fs : FileSys) (capacity : Nat)
    (h : fs.lookup m.file_name_ = none) :
    (posix_truncate fs m.file_name_ (to_off_t capacity)).1 = false ∧
    (m.Resize fs capacity).result = Except.ok true ∧
    (m.Resize fs capacity).fs.lookup m.file_name_ = none ∧
    (m.IsOpen = true →
      (m.ShrinkToFit fs).result = Except.ok true ∧
      (m.ShrinkToFit fs).fs.lookup m.file_name_ = none) := by
  have ht : ∀ c, posix_truncate fs m.file_name_ (to_off_t c) = (false, fs) := by
    intro c
    unfold posix_truncate
    rw [h]
  have hr : ∀ c, (m.Resize fs c).fs = fs := by
    intro c
    simp only [MappedFile.Resize, closed_file_name, ht]
  refine ⟨by rw [ht], rfl, by rw [hr]; exact h, fun _ => ⟨rfl, ?_⟩⟩
  unfold MappedFile.ShrinkToFit
  rw [hr]
  exact h

/-- Witness for C16: `Resize(10)` on the closed store whose name `/d/y.bin` denotes
nothing. -/
theorem C16_Resize_hides_truncate_failure_witness :
    (storeY.Resize sampleFs 10).result = Except.ok true ∧
    (storeY.Resize sampleFs 10).fs.lookup storeY.file_name_ = none :=
  ⟨(C16_Resize_hides_truncate_failure storeY sampleFs 10 (by decide)).2.1,
   (C16_Resize_hides_truncate_failure storeY sampleFs 10 (by decide)).2.2.1⟩

/-- C17: `Close` is idempotent: for every store, `Close` after `Close` gives what one
`Close` gives, a store that is not open, and whose logical size is 0 when the store
was open or its logical size was 0 already (as it is in every closed store the
class produces); `Close` on a closed store changes nothing. -/
theorem C17_Close_idempotent (m : MappedFile) :
    m.Close.Close = m.Close ∧
    m.Close.IsOpen = false ∧
    (m.IsOpen = true ∨ m.size_ = 0 → m.Close.size_ = 0) ∧
    (m.IsOpen = false → m.Close = m) := by
  unfold MappedFile.Close MappedFile.IsOpen
  cases hf : m.file_ with
  | none =>
    simp only [Option.isSome_none, Bool.false_eq_true, if_false, hf, true_and, implies_true,
      and_true, false_or]
    exact fun h => h
  | some impl =>
    simp only [Option.isSome_some, if_true, Option.isSome_none, Bool.false_eq_true, if_false,
      true_and, implies_true, true_or, Bool.true_eq_false, false_implies, and_self]

/-- Witness for C17: the open store `storeXUsed`. -/
theorem C17_Close_idempotent_witness :
    storeXUsed.Close.Close = storeXUsed.Close ∧ storeXUsed.Close.size_ = 0 ∧
    storeY.Close = storeY :=
  ⟨(C17_Close_idempotent storeXUsed).1,
   (C17_Close_idempotent storeXUsed).2.2.1 (Or.inl (by decide)),
   (C17_Close_idempotent storeY).2.2.2 (by decide)⟩

/-- C18 (amended): for every store with a non-empty file name, open or closed, a
`Remove` that returns has returned true and leaves the store closed and the backing
file absent; when the file was already absent and `unlink` reports that as `ENOENT`,
`Remove` returns true; when `unlink` rejects the absent name with another error,
`Remove` throws, the store closed and the file system as it was. -/
theorem C18_Remove_leaves_absent (m : MappedFile) (fs : FileSys) (hname : m.file_name_ ≠ []) :
    (∀ b, (m.Remove fs).result = Except.ok b →
      b = true ∧ (m.Remove fs).store.IsOpen = false ∧
      (m.Remove fs).fs.lookup m.file_name_ = none) ∧
    (fs.lookup m.file_name_ = none → fs.absent_errno m.file_name_ = Errno.ENOENT →
      (m.Remove fs).result = Except.ok true) ∧
    (fs.lookup m.file_name_ = none → fs.absent_errno m.file_name_ ≠ Errno.ENOENT →
      (m.Remove fs).result = Except.error ("Cannot delete file: ".toList ++ m.file_name_) ∧
      (m.Remove fs).store.IsOpen = false ∧ (m.Remove fs).fs = fs) := by
  have hclosed : (m.Remove fs).store.IsOpen = false := by
    show ((if m.IsOpen then m.Close else m).file_).isSome = false
    rw [closed_file]
    rfl
  have hempty : m.file_name_.isEmpty = false := by
    cases hm : m.file_name_ with
    | nil => exact absurd hm hname
    | cons x xs => rfl
  cases hl : fs.lookup m.file_name_ with
  | none =>
    have hrf : remove_file fs m.file_name_
        = (if fs.absent_errno m.file_name_ = Errno.ENOENT then Except.ok true
            else Except.error ("Cannot delete file: ".toList ++ m.file_name_), fs) := by
      simp only [remove_file, hempty, Bool.false_eq_true, if_false, posix_unlink, hl]
      cases fs.absent_errno m.file_name_ <;> rfl
    have hfs : (m.Remove fs).fs = fs := by
      simp only [MappedFile.Remove, closed_file_name, hrf]
    have hyes : fs.absent_errno m.file_name_ = Errno.ENOENT →
        (m.Remove fs).result = Except.ok true := by
      intro he
      simp only [MappedFile.Remove, closed_file_name, hrf, he, if_true]
    have hno : fs.absent_errno m.file_name_ ≠ Errno.ENOENT →
        (m.Remove fs).result
          = Except.error ("Cannot delete file: ".toList ++ m.file_name_) := by
      intro he
      simp only [MappedFile.Remove, closed_file_name, hrf, if_neg he]
    refine ⟨fun b hb => ⟨?_, hclosed, by rw [hfs]; exact hl⟩, fun _ => hyes,
      fun _ he => ⟨hno he, hclosed, hfs⟩⟩
    by_cases he : fs.absent_errno m.file_name_ = Errno.ENOENT
    · rw [hyes he] at hb
      exact (Except.ok.inj hb).symm
    · rw [hno he] at hb
      exact Except.noConfusion hb
  | some n =>
    cases n with
    | directory =>
      have hres : (m.Remove fs).result
          = Except.error ("Cannot delete file: ".toList ++ m.file_name_) := by
        simp only [MappedFile.Remove, closed_file_name, remove_file, hempty,
          Bool.false_eq_true, if_false, posix_unlink, hl]
      refine ⟨fun b hb => ?_, fun hc => by simp at hc, fun hc => by simp at hc⟩
      rw [hres] at hb
      exact Except.noConfusion hb
    | regular content =>
      refine ⟨fun b hb => ?_, fun hc => by simp at hc, fun hc => by simp at hc⟩
      by_cases hrm : fs.removable (Path.normalize m.file_name_) = true
      · have hr : remove_file fs m.file_name_
            = (Except.ok true, fs.put m.file_name_ none) := by
          simp only [remove_file, hempty, Bool.false_eq_true, if_false, posix_unlink, hl, hrm,
            if_true]
        have hres : (m.Remove fs).result = Except.ok true := by
          simp only [MappedFile.Remove, closed_file_name, hr]
        have hfs : (m.Remove fs).fs = fs.put m.file_name_ none := by
          simp only [MappedFile.Remove, closed_file_name, hr]
        refine ⟨?_, hclosed, ?_⟩
        · rw [hres] at hb
          exact (Except.ok.inj hb).symm
        · rw [hfs]
          exact lookup_put_self fs m.file_name_ none hname
      · have hres : (m.Remove fs).result
            = Except.error ("Cannot delete file: ".toList ++ m.file_name_) := by
          simp only [MappedFile.Remove, closed_file_name, remove_file, hempty,
            Bool.false_eq_true, if_false, posix_unlink, hl, hrm]
        rw [hres] at hb
        exact Except.noConfusion hb

/-- Witness for C18: `Remove` on the open store `storeXUsed`, whose file exists, and
on `storeY`, whose file is absent. -/
theorem C18_Remove_leaves_absent_witness :
    ((storeXUsed.Remove sampleFs).store.IsOpen = false ∧
      (storeXUsed.Remove sampleFs).fs.lookup storeXUsed.file_name_ = none) ∧
    (storeY.Remove sampleFs).result = Except.ok true :=
  ⟨((C18_Remove_leaves_absent storeXUsed sampleFs (by decide)).1 true (by rfl)).2,
   (C18_Remove_leaves_absent storeY sampleFs (by decide)).2.1 (by decide) (by decide)⟩

/-- Counterexample to C18 as stated: the name `/d/x.bin/z` denotes nothing, for
`/d/x.bin` is a regular file; `unlink` fails with `ENOTDIR`, and `Remove` throws
instead of returning true. -/
theorem C18_absent_counterexample :
    sampleFs.lookup storeBelow.file_name_ = none ∧
    sampleFs.lookup "/d/x.bin".toList = some (Node.regular [1, 2, 3, 4]) ∧
    (posix_unlink sampleFs storeBelow.file_name_).1 = some Errno.ENOTDIR ∧
    (storeBelow.Remove sampleFs).result
      = Except.error "Cannot delete file: /d/x.bin/z".toList ∧
    (storeBelow.Remove sampleFs).result ≠ Except.ok true := by
  refine ⟨by decide, by decide, by decide, by rfl, ?_⟩
  intro h
  have hr : (storeBelow.Remove sampleFs).result
      = Except.error "Cannot delete file: /d/x.bin/z".toList := by rfl
  rw [hr] at h
  exact Except.noConfusion h

/-- C19 (as amended): on an open store whose mapping covers its file, for every
non-empty text without a zero byte, when the arena has room for the `String` record
and for text.length()+1 characters, `CreateString(text)` returns the record (at the
old logical size), advances the logical size by the record and text.length()+1
character bytes, stores in those character bytes the text followed by one zero
byte, and stores in the record the pointer to them, so that the C string read from
where the record points is the text.  For the empty text it allocates the record
alone, zero-filled (a null `data`), and no character bytes. -/
theorem C19_CreateString_stores_text (layout : StringLayout) (m : MappedFile) (fs : FileSys)
    (impl : MappedFileImpl) (content : List Byte)
    (himpl : m.file_ = some impl)
    (hfile : fs.lookup impl.file_descriptor_ = some (Node.regular content))
    (hmap : impl.size_ = content.length) :
    (∀ text : List Byte, text ≠ [] → (0 : Byte) ∉ text →
      m.size_ + layout.sizeof_String + (text.length + 1) ≤ impl.size_ →
      (MappedFile.CreateString layout m fs text).1 = some m.size_ ∧
      (MappedFile.CreateString layout m fs text).2.1.size_
        = m.size_ + layout.sizeof_String + (text.length + 1) ∧
      (MappedFile.CreateString layout m fs text).2.1.peek
          (MappedFile.CreateString layout m fs text).2.2
          (m.size_ + layout.sizeof_String) (text.length + 1) = text ++ [0] ∧
      (MappedFile.CreateString layout m fs text).2.1.peek
          (MappedFile.CreateString layout m fs text).2.2 m.size_ layout.sizeof_String
        = layout.store m.size_ (m.size_ + layout.sizeof_String) ∧
      ∃ after, (MappedFile.CreateString layout m fs text).2.2.lookup impl.file_descriptor_
          = some (Node.regular after) ∧
        after.length = content.length ∧
        c_str_at after (m.size_ + layout.sizeof_String) = text) ∧
    (m.size_ + layout.sizeof_String ≤ impl.size_ →
      (MappedFile.CreateString layout m fs []).1 = some m.size_ ∧
      (MappedFile.CreateString layout m fs []).2.1.size_ = m.size_ + layout.sizeof_String ∧
      (MappedFile.CreateString layout m fs []).2.1.peek
          (MappedFile.CreateString layout m fs []).2.2 m.size_ layout.sizeof_String
        = List.replicate layout.sizeof_String 0) := by
  constructor
  · intro text hne hnz hroom
    obtain ⟨h1, h2, h3⟩ := CreateString_fits layout m fs impl content text himpl hfile hroom hne
    rw [strncpy_text text hnz] at h3
    have himpl' : (MappedFile.CreateString layout m fs text).2.1.file_ = some impl := by
      rw [h2]
      exact himpl
    have hsl : (text ++ [0]).length = text.length + 1 := by simp
    generalize hc1 : writeAt content m.size_ (List.replicate layout.sizeof_String 0) = c1 at h3
    generalize hc2 : writeAt c1 (m.size_ + layout.sizeof_String)
      (List.replicate (text.length + 1) 0) = c2 at h3
    generalize hc3 : writeAt c2 (m.size_ + layout.sizeof_String) (text ++ [0]) = c3 at h3
    generalize hc4 : writeAt c3 m.size_
      (layout.store m.size_ (m.size_ + layout.sizeof_String)) = c4 at h3
    have hl1 : c1.length = content.length := by
      rw [← hc1]
      exact writeAt_length _ _ _ (by rw [List.length_replicate]; omega)
    have hl2 : c2.length = content.length := by
      rw [← hc2, writeAt_length _ _ _ (by rw [List.length_replicate]; omega)]
      exact hl1
    have hl3 : c3.length = content.length := by
      rw [← hc3, writeAt_length _ _ _ (by rw [hsl]; omega)]
      exact hl2
    have hl4 : c4.length = content.length := by
      rw [← hc4, writeAt_length _ _ _ (by rw [layout.store_length]; omega)]
      exact hl3
    have hchars3 : (c3.drop (m.size_ + layout.sizeof_String)).take (text.length + 1)
        = text ++ [0] := by
      have := writeAt_read_same c2 (m.size_ + layout.sizeof_String) (text ++ [0]) (by omega)
      rw [hsl, hc3] at this
      exact this
    have hchars : (c4.drop (m.size_ + layout.sizeof_String)).take (text.length + 1)
        = text ++ [0] := by
      rw [← hc4, writeAt_read_after c3 m.size_ _ (m.size_ + layout.sizeof_String)
        (text.length + 1) (by rw [layout.store_length]) (by omega)]
      exact hchars3
    have hrec : (c4.drop m.size_).take layout.sizeof_String
        = layout.store m.size_ (m.size_ + layout.sizeof_String) := by
      have := writeAt_read_same c3 m.size_
        (layout.store m.size_ (m.size_ + layout.sizeof_String)) (by omega)
      rw [layout.store_length, hc4] at this
      exact this
    refine ⟨h1, by rw [h2], ?_, ?_, c4, h3, hl4, ?_⟩
    · rw [peek_eq _ _ impl _ _ _ himpl' h3]
      exact hchars
    · rw [peek_eq _ _ impl _ _ _ himpl' h3]
      exact hrec
    · refine c_str_at_text c4 text
        (c4.drop (m.size_ + layout.sizeof_String + (text.length + 1)))
        (m.size_ + layout.sizeof_String) hnz ?_
      have hsplit :=
        (List.take_append_drop (text.length + 1) (c4.drop (m.size_ + layout.sizeof_String))).symm
      rw [hchars, List.drop_drop, List.append_assoc, List.singleton_append] at hsplit
      exact hsplit
  · intro hroom
    have h1 := Allocate_fits m fs impl layout.sizeof_String 1 himpl (by omega)
    have hfile1 := poke_lookup m fs impl content m.size_
      (List.replicate (layout.sizeof_String * 1) 0) himpl hfile
    simp only [Nat.mul_one] at h1 hfile1
    simp only [MappedFile.CreateString, h1, List.isEmpty_nil, Bool.not_true, Bool.false_eq_true,
      if_false, true_and]
    rw [peek_eq { m with size_ := m.size_ + layout.sizeof_String } _ impl _ _ _ himpl hfile1]
    have := writeAt_read_same content m.size_ (List.replicate layout.sizeof_String 0) (by omega)
    rw [List.length_replicate] at this
    exact this

/-- Witness for C19: the text `hi` created in the fresh twelve-byte arena on
`/d/a.bin`, with the sample layout. -/
theorem C19_CreateString_stores_text_witness :
    (MappedFile.CreateString sampleLayout storeA sampleFs [104, 105]).1 = some storeA.size_ ∧
    (MappedFile.CreateString sampleLayout storeA sampleFs [104, 105]).2.1.peek
        (MappedFile.CreateString sampleLayout storeA sampleFs [104, 105]).2.2
        (storeA.size_ + sampleLayout.sizeof_String) (([104, 105] : List Byte).length + 1)
      = [104, 105] ++ [0] ∧
    (MappedFile.CreateString sampleLayout storeA sampleFs []).2.1.size_
      = storeA.size_ + sampleLayout.sizeof_String :=
  ⟨((C19_CreateString_stores_text sampleLayout storeA sampleFs
      { file_descriptor_ := "/d/a.bin".toList, address_ := 4096, size_ := 12 }
      (List.replicate 12 7) rfl (by decide) (by decide)).1 [104, 105]
      (by decide) (by decide) (by decide)).1,
   ((C19_CreateString_stores_text sampleLayout storeA sampleFs
      { file_descriptor_ := "/d/a.bin".toList, address_ := 4096, size_ := 12 }
      (List.replicate 12 7) rfl (by decide) (by decide)).1 [104, 105]
      (by decide) (by decide) (by decide)).2.2.1,
   ((C19_CreateString_stores_text sampleLayout storeA sampleFs
      { file_descriptor_ := "/d/a.bin".toList, address_ := 4096, size_ := 12 }
      (List.replicate 12 7) rfl (by decide) (by decide)).2 (by decide)).2.1⟩

/-- Counterexample to C19 as stated: in the fresh twelve-byte arena, `CreateString`
of the empty text returns the record at offset 0 and advances the logical size by
the four bytes of the record only, the record staying null, so no terminating byte
is allocated or reachable; and for the text 104, 0, 105 the four character bytes
stored are 104, 0, 0, 0, not the text followed by a zero byte. -/
theorem C19_CreateString_counterexample :
    ((MappedFile.CreateString sampleLayout storeA sampleFs []).1 = some 0 ∧
      (MappedFile.CreateString sampleLayout storeA sampleFs []).2.1.size_ = 4 ∧
      sampleLayout.load 0
        ((MappedFile.CreateString sampleLayout storeA sampleFs []).2.1.peek
          (MappedFile.CreateString sampleLayout storeA sampleFs []).2.2 0 4) = none) ∧
    ((MappedFile.CreateString sampleLayout storeA sampleFs [104, 0, 105]).1 = some 0 ∧
      (MappedFile.CreateString sampleLayout storeA sampleFs [104, 0, 105]).2.1.peek
        (MappedFile.CreateString sampleLayout storeA sampleFs [104, 0, 105]).2.2 4 4
        = [104, 0, 0, 0] ∧
      (MappedFile.CreateString sampleLayout storeA sampleFs [104, 0, 105]).2.1.peek
        (MappedFile.CreateString sampleLayout storeA sampleFs [104, 0, 105]).2.2 4 4
        ≠ [104, 0, 105] ++ [0]) := by
  refine ⟨⟨by decide, by decide, by decide⟩, by decide, by decide, by decide⟩

/-- C20, what the code does: on an open store whose arena has room for the `String`
record but not for the text.length()+1 characters of a non-empty text, the
character allocation inside `CopyString` fails and `CreateString` still returns the
record, a non-null pointer, with the logical size advanced by the record alone and
the record left zero-filled, that is with no data. -/
theorem C20_CreateString_hides_CopyString_failure (layout : StringLayout) (m : MappedFile)
    (fs : FileSys) (impl : MappedFileImpl) (content text : List Byte)
    (himpl : m.file_ = some impl)
    (hfile : fs.lookup impl.file_descriptor_ = some (Node.regular content))
    (hmap : impl.size_ = content.length)
    (hne : text ≠ [])
    (hrecord : m.size_ + layout.sizeof_String ≤ impl.size_)
    (hchars : impl.size_ < m.size_ + layout.sizeof_String + (text.length + 1)) :
    (MappedFile.CopyString layout { m with size_ := m.size_ + layout.sizeof_String }
        (m.poke fs m.size_ (List.replicate layout.sizeof_String 0)) text (some m.size_)).1
      = false ∧
    (MappedFile.CreateString layout m fs text).1 = some m.size_ ∧
    (MappedFile.CreateString layout m fs text).2.1.size_ = m.size_ + layout.sizeof_String ∧
    (MappedFile.CreateString layout m fs text).2.1.peek
        (MappedFile.CreateString layout m fs text).2.2 m.size_ layout.sizeof_String
      = List.replicate layout.sizeof_String 0 := by
  have hemp : text.isEmpty = false := by
    cases text with
    | nil => exact absurd rfl hne
    | cons x xs => rfl
  have h1 := Allocate_fits m fs impl layout.sizeof_String 1 himpl (by omega)
  have himpl1 : ({ m with size_ := m.size_ + layout.sizeof_String * 1 } : MappedFile).file_
      = some impl := himpl
  have hfile1 := poke_lookup m fs impl content m.size_
    (List.replicate (layout.sizeof_String * 1) 0) himpl hfile
  have h2 := Allocate_fails { m with size_ := m.size_ + layout.sizeof_String * 1 }
    (m.poke fs m.size_ (List.replicate (layout.sizeof_String * 1) 0)) impl 1 (text.length + 1)
    himpl1 (by simp only; omega)
  simp only [Nat.mul_one] at h1 h2 hfile1
  simp only [MappedFile.CreateString, MappedFile.CopyString, h1, h2, hemp, Bool.not_false,
    if_true, true_and]
  rw [peek_eq { m with size_ := m.size_ + layout.sizeof_String } _ impl _ _ _ himpl hfile1]
  have := writeAt_read_same content m.size_ (List.replicate layout.sizeof_String 0) (by omega)
  rw [List.length_replicate] at this
  exact this

/-- Witness for C20: the text `hi` in the fresh four-byte arena on `/d/x.bin`, which
holds the four-byte record and nothing more. -/
theorem C20_CreateString_hides_CopyString_failure_witness :
    (MappedFile.CreateString sampleLayout storeXFresh sampleFs [104, 105]).1
      = some storeXFresh.size_ ∧
    (MappedFile.CreateString sampleLayout storeXFresh sampleFs [104, 105]).2.1.peek
        (MappedFile.CreateString sampleLayout storeXFresh sampleFs [104, 105]).2.2
        storeXFresh.size_ sampleLayout.sizeof_String
      = List.replicate sampleLayout.sizeof_String 0 :=
  ⟨(C20_CreateString_hides_CopyString_failure sampleLayout storeXFresh sampleFs
      { file_descriptor_ := "/d/x.bin".toList, address_ := 4096, size_ := 4 } [1, 2, 3, 4]
      [104, 105] rfl (by decide) (by decide) (by decide) (by decide) (by decide)).2.1,
   (C20_CreateString_hides_CopyString_failure sampleLayout storeXFresh sampleFs
      { file_descriptor_ := "/d/x.bin".toList, address_ := 4096, size_ := 4 } [1, 2, 3, 4]
      [104, 105] rfl (by decide) (by decide) (by decide) (by decide) (by decide)).2.2.2⟩

/-- C23 (amended): `ReviewLinkOutput` returns true and stores the engine version under
`__build_info/rime_version`; for every enumerated resource (their ids distinct) it
stores under `__build_info/timestamps/<resource_id>` the value 0 when the resource was
not loaded or has no file name, and otherwise the file's last-modified time converted
to a 32-bit `int`: exactly that time when it lies in `[-2^31, 2^31)`, and 0 when the
file cannot be stat'ed. -/
theorem C23_ReviewLinkOutput_timestamps (RIME_VERSION : List Char) (stat : StatTimes)
    (enumerated : List ConfigResource) (resource : ConfigTree)
    (hnd : (enumerated.map ConfigResource.resource_id).Nodup) :
    (BuildInfoPlugin.ReviewLinkOutput RIME_VERSION stat enumerated resource).1 = true ∧
    (BuildInfoPlugin.ReviewLinkOutput RIME_VERSION stat enumerated resource).2.get
        ["__build_info".toList, "rime_version".toList]
      = some (ConfigValue.string RIME_VERSION) ∧
    ∀ r ∈ enumerated,
      ((r.loaded = false ∨ r.file_name = []) →
        (BuildInfoPlugin.ReviewLinkOutput RIME_VERSION stat enumerated resource).2.get
            ["__build_info".toList, "timestamps".toList, r.resource_id]
          = some (ConfigValue.int 0)) ∧
      (r.loaded = true → r.file_name ≠ [] →
        (∀ t, stat r.file_name = some t → -2 ^ 31 ≤ t → t < 2 ^ 31 →
          (BuildInfoPlugin.ReviewLinkOutput RIME_VERSION stat enumerated resource).2.get
              ["__build_info".toList, "timestamps".toList, r.resource_id]
            = some (ConfigValue.int t)) ∧
        (∀ t, stat r.file_name = some t →
          (BuildInfoPlugin.ReviewLinkOutput RIME_VERSION stat enumerated resource).2.get
              ["__build_info".toList, "timestamps".toList, r.resource_id]
            = some (ConfigValue.int (to_int t))) ∧
        (stat r.file_name = none →
          (BuildInfoPlugin.ReviewLinkOutput RIME_VERSION stat enumerated resource).2.get
              ["__build_info".toList, "timestamps".toList, r.resource_id]
            = some (ConfigValue.int 0))) := by
  unfold BuildInfoPlugin.ReviewLinkOutput
  simp only [true_and]
  constructor
  · rw [foldl_record_get_other stat enumerated _ _ (by intro r _ h; simp at h),
      ConfigTree.get_set_self]
  · intro r hr
    have key := foldl_record_get stat enumerated
      (resource.set ["__build_info".toList, "rime_version".toList]
        (ConfigValue.string RIME_VERSION)) hnd r hr
    refine ⟨fun h => ?_, fun hl hf => ⟨fun t ht hlo hhi => ?_, fun t ht => ?_, fun hnone => ?_⟩⟩
    · rw [key, if_pos h]
    · rw [key, if_neg (by simp [hl, hf])]
      simp only [get_last_write_time, ht, to_int_of_range t hlo hhi]
    · rw [key, if_neg (by simp [hl, hf])]
      simp only [get_last_write_time, ht]
    · rw [key, if_neg (by simp [hl, hf])]
      simp only [get_last_write_time, hnone]
      rfl

/-- Witness for C23: four resources with distinct ids, enumerated into an empty tree. -/
theorem C23_ReviewLinkOutput_timestamps_witness :
    ([resDefault, resMissing, resMemory, resGone].map ConfigResource.resource_id).Nodup ∧
    (BuildInfoPlugin.ReviewLinkOutput "1.8.5".toList sampleStat
        [resDefault, resMissing, resMemory, resGone] emptyTree).2.get
        ["__build_info".toList, "rime_version".toList]
      = some (ConfigValue.string "1.8.5".toList) :=
  ⟨by decide,
    (C23_ReviewLinkOutput_timestamps "1.8.5".toList sampleStat
      [resDefault, resMissing, resMemory, resGone] emptyTree (by decide)).2.1⟩

/-- Counterexample to C23 as stated: a loaded resource whose file was modified at
2147483648 seconds since the epoch gets the timestamp -2147483648, not its
modification time. -/
theorem C23_timestamp_counterexample :
    resDefault.loaded = true ∧ resDefault.file_name ≠ [] ∧
    lateStat resDefault.file_name = some 2147483648 ∧
    (BuildInfoPlugin.ReviewLinkOutput "1.8.5".toList lateStat [resDefault] emptyTree).2.get
        ["__build_info".toList, "timestamps".toList, resDefault.resource_id]
      = some (ConfigValue.int (-2147483648)) ∧
    (BuildInfoPlugin.ReviewLinkOutput "1.8.5".toList lateStat [resDefault] emptyTree).2.get
        ["__build_info".toList, "timestamps".toList, resDefault.resource_id]
      ≠ some (ConfigValue.int 2147483648) := by
  decide

/-- C24: when the file of a loaded resource with a file name cannot be stat'ed, the
timestamp recorded for it is 0, `ReviewLinkOutput` still returns true, and every
enumerated resource has a timestamp recorded, each other one the value its own state
gives (ids distinct). -/
theorem C24_stat_failure_records_zero (RIME_VERSION : List Char) (stat : StatTimes)
    (enumerated : List ConfigResource) (resource : ConfigTree) (r : ConfigResource)
    (hnd : (enumerated.map ConfigResource.resource_id).Nodup)
    (hr : r ∈ enumerated) (hl : r.loaded = true) (hf : r.file_name ≠ [])
    (hs : stat r.file_name = none) :
    (BuildInfoPlugin.ReviewLinkOutput RIME_VERSION stat enumerated resource).2.get
        ["__build_info".toList, "timestamps".toList, r.resource_id]
      = some (ConfigValue.int 0) ∧
    (BuildInfoPlugin.ReviewLinkOutput RIME_VERSION stat enumerated resource).1 = true ∧
    ∀ other ∈ enumerated,
      (BuildInfoPlugin.ReviewLinkOutput RIME_VERSION stat enumerated resource).2.get
          ["__build_info".toList, "timestamps".toList, other.resource_id]
        = some (ConfigValue.int
            (if other.loaded = false ∨ other.file_name = [] then 0
              else to_int (get_last_write_time stat other.file_name))) := by
  unfold BuildInfoPlugin.ReviewLinkOutput
  simp only [true_and]
  refine ⟨?_, fun other ho => foldl_record_get stat enumerated _ hnd other ho⟩
  rw [foldl_record_get stat enumerated _ hnd r hr, if_neg (by simp [hl, hf])]
  simp only [get_last_write_time, hs]
  rfl

/-- Witness for C24: `/d/gone.yaml` cannot be stat'ed; the resource read from it is
enumerated last of four. -/
theorem C24_stat_failure_records_zero_witness :
    sampleStat resGone.file_name = none ∧
    (BuildInfoPlugin.ReviewLinkOutput "1.8.5".toList sampleStat
        [resDefault, resMissing, resMemory, resGone] emptyTree).2.get
        ["__build_info".toList, "timestamps".toList, resGone.resource_id]
      = some (ConfigValue.int 0) :=
  ⟨by decide,
    (C24_stat_failure_records_zero "1.8.5".toList sampleStat
      [resDefault, resMissing, resMemory, resGone] emptyTree resGone (by decide) (by decide)
      (by decide) (by decide) (by decide)).1⟩

/-- C25: for every configuration and deployer, `Sign` returns true, and afterwards
the configuration holds under the key prefix `generator` = the generator id,
`distribution_code_name` and `distribution_version` = the values of the deployer,
`rime_version` = the engine version, and a `modified_time` string; for the null
configuration `Sign` returns false and there is no configuration to write to. -/
theorem C25_Sign_writes_fields (sig : Signature) (RIME_VERSION ctime_now : List Char)
    (config : Config) (deployer : Deployer) :
    (∃ signed, sig.Sign RIME_VERSION ctime_now (some config) deployer = (true, some signed) ∧
      signed (sig.key_ ++ "/generator".toList) = some sig.generator_ ∧
      signed (sig.key_ ++ "/distribution_code_name".toList)
        = some deployer.distribution_code_name ∧
      signed (sig.key_ ++ "/distribution_version".toList)
        = some deployer.distribution_version ∧
      signed (sig.key_ ++ "/rime_version".toList) = some RIME_VERSION ∧
      ∃ time_str, signed (sig.key_ ++ "/modified_time".toList) = some time_str) ∧
    sig.Sign RIME_VERSION ctime_now none deployer = (false, none) := by
  refine ⟨⟨_, rfl, ?_, ?_, ?_, ?_,
    trim (if !ctime_now.isEmpty && ctime_now.getLast? == some '\n' then ctime_now.dropLast
      else ctime_now), ?_⟩, rfl⟩ <;>
    simp [Config.SetString]

/-- C26: `Sign` is additive and signing again overwrites.  After `Sign` every key
path other than the five fields under the key prefix holds what it held before; a
second `Sign` under the same key prefix, with any generator, version, time and
deployer, leaves exactly the configuration that this second `Sign` alone would have
left, and the fields hold the values of the second call; and a second call with the
same inputs and the same time changes nothing. -/
theorem C26_Sign_additive_and_overwrites (sig : Signature)
    (RIME_VERSION ctime_now : List Char) (config : Config) (deployer : Deployer) :
    (∃ signed, sig.Sign RIME_VERSION ctime_now (some config) deployer = (true, some signed) ∧
      ∀ k, k ≠ sig.key_ ++ "/generator".toList → k ≠ sig.key_ ++ "/modified_time".toList →
        k ≠ sig.key_ ++ "/distribution_code_name".toList →
        k ≠ sig.key_ ++ "/distribution_version".toList →
        k ≠ sig.key_ ++ "/rime_version".toList → signed k = config k) ∧
    (∀ (generator2 version2 ctime2 : List Char) (deployer2 : Deployer),
      Signature.Sign { generator_ := generator2, key_ := sig.key_ } version2 ctime2
          (sig.Sign RIME_VERSION ctime_now (some config) deployer).2 deployer2
        = Signature.Sign { generator_ := generator2, key_ := sig.key_ } version2 ctime2
          (some config) deployer2) ∧
    (∀ (generator2 version2 ctime2 : List Char) (deployer2 : Deployer),
      ∃ again, Signature.Sign { generator_ := generator2, key_ := sig.key_ } version2 ctime2
          (sig.Sign RIME_VERSION ctime_now (some config) deployer).2 deployer2
          = (true, some again) ∧
        again (sig.key_ ++ "/generator".toList) = some generator2 ∧
        again (sig.key_ ++ "/distribution_code_name".toList)
          = some deployer2.distribution_code_name ∧
        again (sig.key_ ++ "/distribution_version".toList)
          = some deployer2.distribution_version ∧
        again (sig.key_ ++ "/rime_version".toList) = some version2) ∧
    sig.Sign RIME_VERSION ctime_now
        (sig.Sign RIME_VERSION ctime_now (some config) deployer).2 deployer
      = sig.Sign RIME_VERSION ctime_now (some config) deployer := by
  have overwrite : ∀ (generator2 version2 ctime2 : List Char) (deployer2 : Deployer),
      Signature.Sign { generator_ := generator2, key_ := sig.key_ } version2 ctime2
          (sig.Sign RIME_VERSION ctime_now (some config) deployer).2 deployer2
        = Signature.Sign { generator_ := generator2, key_ := sig.key_ } version2 ctime2
          (some config) deployer2 := by
    intro generator2 version2 ctime2 deployer2
    simp only [Signature.Sign, Prod.mk.injEq, true_and, Option.some.injEq]
    funext k
    simp only [Config.SetString]
    split_ifs <;> rfl
  refine ⟨⟨_, rfl, ?_⟩, overwrite, ?_,
    overwrite sig.generator_ RIME_VERSION ctime_now deployer⟩
  · intro k h1 h2 h3 h4 h5
    simp only [Config.SetString, if_neg h1, if_neg h2, if_neg h3, if_neg h4, if_neg h5]
  · intro generator2 version2 ctime2 deployer2
    refine ⟨_, rfl, ?_, ?_, ?_, ?_⟩ <;> simp [Config.SetString]

/-- C28: the `modified_time` stored by `Sign` is trimmed and a single line.  For a
time string `text` + newline the stored value is `trim(text)`, which neither begins
nor ends with white space; when `text` itself holds no newline, as in the line that
`ctime` returns, the stored value contains no newline.
For any time string the stored value is `trim` of it.  In general `trim(s)` is `s`
without its maximal leading and trailing runs of white space: `s` is a run of white
space, `trim(s)`, and a run of white space, where `trim(s)` neither begins nor ends
with white space; and `trim(trim(s)) = trim(s)`. -/
theorem C28_modified_time_trimmed (sig : Signature) (RIME_VERSION : List Char)
    (config : Config) (deployer : Deployer) (text s : List Char)
    (hline : '\n' ∉ text) :
    (∃ signed, sig.Sign RIME_VERSION (text ++ ['\n']) (some config) deployer
        = (true, some signed) ∧
      signed (sig.key_ ++ "/modified_time".toList) = some (trim text)) ∧
    (∀ c, (trim text).head? = some c → isspace c = false) ∧
    (∀ c, (trim text).getLast? = some c → isspace c = false) ∧
    '\n' ∉ trim text ∧
    (∃ signed, sig.Sign RIME_VERSION s (some config) deployer = (true, some signed) ∧
      signed (sig.key_ ++ "/modified_time".toList) = some (trim s)) ∧
    (∃ leading trailing, s = leading ++ trim s ++ trailing ∧
      (∀ c ∈ leading, isspace c = true) ∧ (∀ c ∈ trailing, isspace c = true)) ∧
    (∀ c, (trim s).head? = some c → isspace c = false) ∧
    (∀ c, (trim s).getLast? = some c → isspace c = false) ∧
    trim (trim s) = trim s := by
  have stored : ∀ t : List Char, ∃ signed,
      sig.Sign RIME_VERSION t (some config) deployer = (true, some signed) ∧
      signed (sig.key_ ++ "/modified_time".toList) = some (trim t) := by
    intro t
    refine ⟨_, rfl, ?_⟩
    simp only [Config.SetString, trim_popped]
    simp
  refine ⟨?_, trim_head_not_space text, trim_last_not_space text,
    fun h => hline (trim_mem text _ h), stored s,
    ⟨_, _, trim_decompose s, fun c hc => List.mem_takeWhile_imp hc,
      fun c hc => List.mem_rtakeWhile_imp hc⟩,
    trim_head_not_space s, trim_last_not_space s, trim_idem s⟩
  obtain ⟨signed, h1, h2⟩ := stored (text ++ ['\n'])
  exact ⟨signed, h1, by rw [h2, trim_append_newline]⟩

/-- Witness for C28: the line `Wed Jun 30 21:49:08 1993` and a string with white
space on both sides and inside. -/
theorem C28_modified_time_trimmed_witness :
    '\n' ∉ ctimeLine ∧ trim (trim " \t ab c \n ".toList) = trim " \t ab c \n ".toList :=
  ⟨by decide,
    (C28_modified_time_trimmed sampleSignature "1.8.5".toList blankConfig sampleDeployer
      ctimeLine " \t ab c \n ".toList (by decide)).2.2.2.2.2.2.2.2⟩

/-- C29: for all lists `xs` and `ys` of component values below `2^31`, written as
version strings (the decimal numerals without leading zeros, joined by dots; the
empty string for the empty list), `CompareVersionString` is negative exactly when
`xs` is lexicographically less than `ys`, a proper prefix being smaller, zero exactly
when they are equal, and positive exactly when `ys` is less than `xs`. -/
theorem C29_CompareVersionString_orders (xs ys : List Nat)
    (hxs : ∀ n ∈ xs, n < 2 ^ 31) (hys : ∀ n ∈ ys, n < 2 ^ 31) :
    (CompareVersionString (List.intercalate ['.'] (xs.map decimal))
        (List.intercalate ['.'] (ys.map decimal)) < 0
      ↔ List.Lex (fun a b : Nat => a < b) xs ys) ∧
    (CompareVersionString (List.intercalate ['.'] (xs.map decimal))
        (List.intercalate ['.'] (ys.map decimal)) = 0
      ↔ xs = ys) ∧
    (0 < CompareVersionString (List.intercalate ['.'] (xs.map decimal))
        (List.intercalate ['.'] (ys.map decimal))
      ↔ List.Lex (fun a b : Nat => a < b) ys xs) := by
  have hsplit : ∀ zs : List Nat,
      split_string_any (List.intercalate ['.'] (zs.map decimal)) ".".toList = zs.map decimal := by
    intro zs
    refine split_string_any_intercalate ".".toList '.' (by decide) _ ?_
    intro t ht
    obtain ⟨n, -, rfl⟩ := List.mem_map.mp ht
    exact decimal_component n
  have hempty : ∀ (z : Nat) (zs : List Nat),
      (List.intercalate ['.'] ((z :: zs).map decimal)).isEmpty = false := by
    intro z zs
    rw [List.map_cons, intercalate_cons]
    cases hd : decimal z with
    | nil => exact absurd hd (decimal_component z).1
    | cons c cs => rfl
  obtain ⟨o1, o2, o3⟩ := version_order_iff xs ys
  obtain ⟨l1, l2, l3⟩ := CompareVersionString_loop_decimal xs ys hxs hys
  unfold CompareVersionString
  cases xs with
  | nil =>
    cases ys with
    | nil => simp [List.intercalate]
    | cons b bs =>
      have hx : (List.intercalate ['.'] (([] : List Nat).map decimal)).isEmpty = true := rfl
      rw [hx, hempty b bs]
      simp [List.Lex.nil]
  | cons a as =>
    cases ys with
    | nil =>
      have hy : (List.intercalate ['.'] (([] : List Nat).map decimal)).isEmpty = true := rfl
      rw [hy, hempty a as]
      simp [List.Lex.nil]
    | cons b bs =>
      rw [hempty a as, hempty b bs]
      simp only [Bool.and_self, Bool.false_eq_true, if_false]
      rw [hsplit, hsplit]
      exact ⟨l1.trans o1, l2.trans o2, l3.trans o3⟩

/-- Witness for C29: `1.10` is greater than `1.9`, and `1.2` is less than `1.2.0`. -/
theorem C29_CompareVersionString_orders_witness :
    List.intercalate ['.'] ([1, 10].map decimal) = "1.10".toList ∧
    List.intercalate ['.'] ([1, 9].map decimal) = "1.9".toList ∧
    0 < CompareVersionString (List.intercalate ['.'] ([1, 10].map decimal))
      (List.intercalate ['.'] ([1, 9].map decimal)) ∧
    CompareVersionString (List.intercalate ['.'] ([1, 2].map decimal))
      (List.intercalate ['.'] ([1, 2, 0].map decimal)) < 0 :=
  ⟨by simp [decimal, List.intercalate], by simp [decimal, List.intercalate],
    (C29_CompareVersionString_orders [1, 10] [1, 9] (by decide) (by decide)).2.2.mpr
      (by decide),
    (C29_CompareVersionString_orders [1, 2] [1, 2, 0] (by decide) (by decide)).1.mpr
      (by decide)⟩

/-- C30: `CompareVersionString` is not antisymmetric on all strings: for `2147483647`
and `-1`, components that `atoi` reads as 2147483647 and -1, the difference
`dx - dy` does not fit an `int`, and the result is negative in both orders.
`CompareVersionString(x, x)` is 0 for every string, and swapping the arguments
negates the result whenever `atoi` reads no dot-separated component of either string
as negative. -/
theorem C30_antisymmetry_breaks_on_overflow :
    atoi "2147483647".toList = 2147483647 ∧ atoi "-1".toList = -1 ∧
    CompareVersionString "2147483647".toList "-1".toList < 0 ∧
    CompareVersionString "-1".toList "2147483647".toList < 0 ∧
    (∀ x : List Char, CompareVersionString x x = 0) ∧
    (∀ x y : List Char,
      (∀ s ∈ split_string_any x ".".toList, 0 ≤ atoi s) →
      (∀ s ∈ split_string_any y ".".toList, 0 ≤ atoi s) →
      CompareVersionString x y = -CompareVersionString y x) := by
  refine ⟨by decide, by decide, by decide, by decide, ?_, ?_⟩
  · intro x
    unfold CompareVersionString
    cases x with
    | nil => rfl
    | cons c cs =>
      simp only [List.isEmpty_cons, Bool.and_self, Bool.false_eq_true, if_false]
      exact CompareVersionString_loop_self _
  · intro x y hx hy
    unfold CompareVersionString
    cases x with
    | nil =>
      cases y with
      | nil => rfl
      | cons d ds => rfl
    | cons c cs =>
      cases y with
      | nil => rfl
      | cons d ds =>
        simp only [List.isEmpty_cons, Bool.and_self, Bool.false_eq_true, if_false]
        exact CompareVersionString_loop_antisymm _ _ hx hy

/-- Witness for C30: `1.2` and `1.10` have no negative component, and swapping them
negates the result. -/
theorem C30_antisymmetry_breaks_on_overflow_witness :
    (∀ s ∈ split_string_any "1.2".toList ".".toList, 0 ≤ atoi s) ∧
    CompareVersionString "1.2".toList "1.10".toList
      = -CompareVersionString "1.10".toList "1.2".toList :=
  ⟨by decide,
    C30_antisymmetry_breaks_on_overflow.2.2.2.2.2 "1.2".toList "1.10".toList (by decide)
      (by decide)⟩

/-- C31: with `full_shape` on and a text with at least one byte in 0x20..0x7E, whether
`char` is signed or not, `Format` replaces, in order, each byte 0x20 by the UTF-8
encoding of U+3000, which is E3 80 80, each byte `b` in 0x21..0x7E by the UTF-8
encoding of U+FF00 + (b - 0x20), which has three bytes, and copies every other byte;
the output has the length of the input plus twice the number of bytes in
0x20..0x7E. -/
theorem C31_Format_full_width (char_signed : Bool) (text : List Byte)
    (h : ∃ b ∈ text, 0x20 ≤ b.val ∧ b.val ≤ 0x7E) :
    ShapeFormatter.Format char_signed true text = text.flatMap full_width ∧
    utf8_encode 0x3000 = [0xE3, 0x80, 0x80] ∧
    (∀ b : Byte, 0x21 ≤ b.val → b.val ≤ 0x7E →
      (utf8_encode (0xFF00 + (b.val - 0x20))).length = 3) ∧
    (ShapeFormatter.Format char_signed true text).length
      = text.length + 2 * text.countP (fun b => decide (0x20 ≤ b.val ∧ b.val ≤ 0x7E)) := by
  have hF : ShapeFormatter.Format char_signed true text = text.flatMap full_width := by
    rw [Format_eq, if_neg]
    intro hall
    obtain ⟨b, hb, hr⟩ := h
    exact hall b hb hr
  refine ⟨hF, by decide, ?_, by rw [hF, flatMap_full_width_length]⟩
  intro b h1 h2
  have := full_width_length b
  unfold full_width at this
  rw [if_neg (by omega), if_pos ⟨h1, h2⟩, if_pos (by omega)] at this
  exact this

/-- Witness for C31: the bytes of `A`, a space, the three bytes of a Chinese
character, `~`, and the controls 0x7F and 0x1F. -/
theorem C31_Format_full_width_witness :
    ShapeFormatter.Format true true [0x41, 0x20, 0xe4, 0xb8, 0xad, 0x7e, 0x7f, 0x1f]
      = [0xef, 0xbc, 0xa1, 0xe3, 0x80, 0x80, 0xe4, 0xb8, 0xad, 0xef, 0xbd, 0x9e, 0x7f, 0x1f] ∧
    (ShapeFormatter.Format true true [0x41, 0x20, 0xe4, 0xb8, 0xad, 0x7e, 0x7f, 0x1f]).length
      = [0x41, 0x20, 0xe4, 0xb8, 0xad, 0x7e, 0x7f, (0x1f : Byte)].length
        + 2 * [0x41, 0x20, 0xe4, 0xb8, 0xad, 0x7e, 0x7f, (0x1f : Byte)].countP
            (fun b => decide (0x20 ≤ b.val ∧ b.val ≤ 0x7E)) :=
  ⟨by decide,
    (C31_Format_full_width true [0x41, 0x20, 0xe4, 0xb8, 0xad, 0x7e, 0x7f, 0x1f]
      ⟨0x41, by decide, by decide⟩).2.2.2⟩

/-- C32: `Format` leaves the text as it is when `full_shape` is off, and when the text
has no byte in 0x20..0x7E (the empty text included); with `full_shape` on its output
has no byte in 0x20..0x7E; and formatting twice, under the same option, gives what
formatting once gives, for every text and whether `char` is signed or not. -/
theorem C32_Format_idempotent (char_signed : Bool) :
    (∀ text, ShapeFormatter.Format char_signed false text = text) ∧
    (∀ full_shape text, (∀ b ∈ text, ¬ (0x20 ≤ b.val ∧ b.val ≤ 0x7E)) →
      ShapeFormatter.Format char_signed full_shape text = text) ∧
    (∀ full_shape, ShapeFormatter.Format char_signed full_shape [] = []) ∧
    (∀ text, ∀ b ∈ ShapeFormatter.Format char_signed true text,
      ¬ (0x20 ≤ b.val ∧ b.val ≤ 0x7E)) ∧
    (∀ full_shape text,
      ShapeFormatter.Format char_signed full_shape
          (ShapeFormatter.Format char_signed full_shape text)
        = ShapeFormatter.Format char_signed full_shape text) := by
  have hoff : ∀ text, ShapeFormatter.Format char_signed false text = text := fun _ => rfl
  have hnone : ∀ full_shape text, (∀ b ∈ text, ¬ (0x20 ≤ b.val ∧ b.val ≤ 0x7E)) →
      ShapeFormatter.Format char_signed full_shape text = text := by
    intro full_shape text h
    cases full_shape with
    | false => rfl
    | true => rw [Format_eq, if_pos h]
  have hout : ∀ text, ∀ b ∈ ShapeFormatter.Format char_signed true text,
      ¬ (0x20 ≤ b.val ∧ b.val ≤ 0x7E) := by
    intro text b hb
    rw [Format_eq] at hb
    by_cases h : ∀ b ∈ text, ¬ (0x20 ≤ b.val ∧ b.val ≤ 0x7E)
    · rw [if_pos h] at hb
      exact h b hb
    · rw [if_neg h, List.mem_flatMap] at hb
      obtain ⟨a, -, hba⟩ := hb
      exact full_width_not_ascii a b hba
  refine ⟨hoff, hnone, fun fs => hnone fs [] (fun b hb => by cases hb), hout, ?_⟩
  intro full_shape text
  cases full_shape with
  | false => rfl
  | true => exact hnone true _ (hout text)

/-- C33 (amended): for every resource type and every resource id, `ToFilePath(id)`
ends with the suffix, and it starts with the prefix whenever the id contains no `/`;
when the id already starts with the prefix, nothing is put in front of the normalized
id, and when the id already ends with the suffix and the suffix has no `//`, nothing
is put behind the normalized id. -/
theorem C33_ToFilePath_affixes (r : ResourceResolver) (id : List Char) :
    r.type_.suffix <:+ r.ToFilePath id ∧
    ('/' ∉ id → r.type_.prefix_ <+: r.ToFilePath id) ∧
    (r.type_.prefix_ <+: id →
      ∃ z, r.ToFilePath id = Path.normalize id ++ z ∧ (z = [] ∨ z = r.type_.suffix)) ∧
    (r.type_.suffix <:+ id → ¬ ['/', '/'] <:+: r.type_.suffix →
      ∃ a, r.ToFilePath id = a ++ Path.normalize id ∧ (a = [] ∨ a = r.type_.prefix_)) := by
  refine ⟨ToFilePath_ends r id, ?_, ?_, ?_⟩
  · intro h
    apply ToFilePath_starts
    rw [← Bool.not_eq_true]
    exact fun hc => h (List.elem_iff.mp hc)
  · intro hpre
    have hP : (!id.contains '/' && !starts_with (Path.normalize id) r.type_.prefix_)
        = false := by
      by_cases hc : id.contains '/' = true
      · rw [hc]
        rfl
      · have hno : ¬ ['/', '/'] <:+: id := by
          intro hi
          exact hc (List.elem_iff.mpr (hi.subset (List.mem_cons_self _ _)))
        rw [normalize_noop id hno, (starts_with_iff _ _).mpr hpre]
        simp
    rw [ToFilePath_parts, hP]
    simp only [Bool.false_eq_true, if_false, List.nil_append]
    refine ⟨_, rfl, ?_⟩
    by_cases he : ends_with (Path.normalize id) r.type_.suffix = true
    · left
      rw [he]
      rfl
    · right
      rw [Bool.not_eq_true] at he
      rw [he]
      rfl
  · intro hsuf hS
    obtain ⟨Y, hY⟩ := hsuf
    have he : ends_with (Path.normalize id) r.type_.suffix = true := by
      rw [ends_with_iff, ← hY]
      exact normalize_keeps_suffix Y _ hS
    rw [ToFilePath_parts, he]
    simp only [Bool.not_true, Bool.false_eq_true, if_false, List.append_nil]
    refine ⟨_, rfl, ?_⟩
    by_cases hc : (!id.contains '/' && !starts_with (Path.normalize id) r.type_.prefix_) = true
    · right
      rw [if_pos hc]
    · left
      rw [if_neg hc]

/-- Counterexample to C33 as stated: with the suffix `//x` the id `a//x` ends with the
suffix, yet `ToFilePath` gives `a/x//x`: the suffix is put behind the normalized id. -/
theorem C33_suffix_counterexample :
    doubleSlashType.suffix <:+ "a//x".toList ∧
    (ResourceResolver.new doubleSlashType).ToFilePath "a//x".toList = "a/x//x".toList ∧
    Path.normalize "a//x".toList = "a/x".toList := by
  refine ⟨⟨"a".toList, by decide⟩, by decide, by decide⟩

/-- C34: for every resource type whose prefix and suffix contain no `/` and every
resource id, `ToFilePath(ToFilePath(id)) = ToFilePath(id)`. -/
theorem C34_ToFilePath_idempotent (r : ResourceResolver) (id : List Char)
    (hp : '/' ∉ r.type_.prefix_) (hs : '/' ∉ r.type_.suffix) :
    r.ToFilePath (r.ToFilePath id) = r.ToFilePath id := by
  have hends := ToFilePath_ends r id
  have hnone : ¬ ['/', '/'] <:+: r.ToFilePath id := by
    rw [ToFilePath_parts]
    apply no_double_slash_sandwich _ _ _ _ _ (normalize_no_double_slash id)
    · split
      · exact hp
      · exact List.not_mem_nil _
    · split
      · exact hs
      · exact List.not_mem_nil _
  have hstart : (r.ToFilePath id).contains '/' = true ∨
      r.type_.prefix_ <+: r.ToFilePath id := by
    by_cases hc : id.contains '/' = true
    · left
      rw [ToFilePath_parts]
      apply List.elem_iff.mpr
      have : '/' ∈ Path.normalize id :=
        List.elem_iff.mp ((normalize_contains_slash id).trans hc)
      exact List.mem_append_left _ (List.mem_append_right _ this)
    · right
      rw [Bool.not_eq_true] at hc
      exact ToFilePath_starts r id hc
  have hP : (!(r.ToFilePath id).contains '/' &&
      !starts_with (Path.normalize (r.ToFilePath id)) r.type_.prefix_) = false := by
    rw [normalize_noop _ hnone]
    rcases hstart with h | h
    · rw [h]
      rfl
    · rw [(starts_with_iff _ _).mpr h]
      simp
  have hS : ends_with (Path.normalize (r.ToFilePath id)) r.type_.suffix = true := by
    rw [normalize_noop _ hnone]
    exact (ends_with_iff _ _).mpr hends
  rw [ToFilePath_parts r (r.ToFilePath id), hP, hS, normalize_noop _ hnone]
  simp

/-- Witness for C34: prefix `p_`, suffix `.yaml`, and the ids `a` and `d//a`. -/
theorem C34_ToFilePath_idempotent_witness :
    (ResourceResolver.new sampleType).ToFilePath "a".toList = "p_a.yaml".toList ∧
    (ResourceResolver.new sampleType).ToFilePath
        ((ResourceResolver.new sampleType).ToFilePath "d//a".toList)
      = (ResourceResolver.new sampleType).ToFilePath "d//a".toList :=
  ⟨by decide,
    C34_ToFilePath_idempotent (ResourceResolver.new sampleType) "d//a".toList (by decide)
      (by decide)⟩

/-- C35: for every string `s` and delimiter set `d`, `split_string_any(s, d)` terminates
(every iteration bound of at least `s.size() + 1` gives the same list) and returns, in
order, the maximal runs of non-delimiter characters of `s`, that is the non-empty
pieces of `s` between delimiters: every token is non-empty and holds no delimiter, and
the tokens concatenated are `s` without its delimiter characters; the empty component
of `1..2` is dropped. -/
theorem C35_split_string_any_runs (s d : List Char) :
    (∀ fuel, s.length + 1 ≤ fuel →
      split_string_any_loop s d fuel 0 0 [] = split_string_any s d) ∧
    split_string_any s d
      = (s.splitOnP (fun c => d.contains c)).filter (fun t => !t.isEmpty) ∧
    (∀ t ∈ split_string_any s d, t ≠ [] ∧ ∀ c ∈ t, c ∉ d) ∧
    (split_string_any s d).flatten = s.filter (fun c => !d.contains c) ∧
    split_string_any "1..2".toList ".".toList = ["1".toList, "2".toList] := by
  have hp : split_string_any s d
      = (s.splitOnP (fun c => d.contains c)).filter (fun t => !t.isEmpty) :=
    split_string_any_fuel s d (s.length + 1) (Nat.le_refl _)
  refine ⟨fun fuel hf => ?_, hp, ?_, ?_, by decide⟩
  · rw [hp]
    exact split_string_any_fuel s d fuel hf
  · intro t ht
    rw [hp] at ht
    obtain ⟨h1, h2⟩ := pieces_nonempty_clean (fun c => d.contains c) s t ht
    refine ⟨h1, fun c hc hm => ?_⟩
    have := h2 c hc
    simp only [List.contains] at this
    rw [List.elem_iff.mpr hm] at this
    exact Bool.noConfusion this
  · rw [hp]
    exact pieces_flatten (fun c => d.contains c) s

/-- C36: for every input string and delimiter set, and whatever the container held
before, `rime::split` fills it with the same token list with `compress = true` as
with `compress = false`; that list is `split_string_any` of the same input and
delimiters, and it holds no empty token. -/
theorem C36_split_compress (result_container : List (List Char))
    (input_string delimiters : List Char) :
    split result_container input_string delimiters true
      = split result_container input_string delimiters false ∧
    split result_container input_string delimiters false
      = split_string_any input_string delimiters ∧
    (∀ compress, ∀ t ∈ split result_container input_string delimiters compress, t ≠ []) := by
  have hp : split_string_any input_string delimiters
      = (input_string.splitOnP (fun c => delimiters.contains c)).filter
          (fun t => !t.isEmpty) :=
    split_string_any_fuel input_string delimiters (input_string.length + 1) (Nat.le_refl _)
  refine ⟨?_, ?_, fun compress t ht => ?_⟩
  · rw [split_eq_pieces, split_eq_pieces]
  · rw [split_eq_pieces, hp]
  · rw [split_eq_pieces] at ht
    exact (pieces_nonempty_clean (fun c => delimiters.contains c) input_string t ht).1

/-- C37: for every string `p`, `Path::normalize(p)` is `p` with each maximal run of
`/` replaced by one `/`; the result has no two adjacent `/`, the characters other
than `/` are those of `p` in the same order, and normalizing again changes nothing. -/
theorem C37_normalize_squeezes (p : List Char) :
    Path.normalize p = squeeze_slashes p ∧
    ¬ ['/', '/'] <:+: Path.normalize p ∧
    (Path.normalize p).filter (fun c => c != '/') = p.filter (fun c => c != '/') ∧
    Path.normalize (Path.normalize p) = Path.normalize p :=
  ⟨normalize_eq_squeeze p, normalize_no_double_slash p, normalize_filter p, normalize_idem p⟩

/-- C38: `create_directories` never passes a name starting with `/` to `mkdir`, so for
an absolute `p` the names are not `p` cut at a component boundary.  With the working
directory `/w` and neither `/a` nor `/w/a` present, `create_directories("/a/b")`
returns true after `mkdir("a")` and `mkdir("a/b")`: `/w/a/b` is made and `/a/b` is
still missing. -/
theorem C38_create_directories_drops_root (t : DirTree) (p : Path) :
    (create_directories t p).made.all (fun name => name.head? != some '/') = true ∧
    (Path.ofString "/a/b".toList).is_absolute = true ∧
    workTree.stat "/a".toList = none ∧
    (create_directories workTree (Path.ofString "/a/b".toList)).result = true ∧
    (create_directories workTree (Path.ofString "/a/b".toList)).made
      = ["a".toList, "a/b".toList] ∧
    (create_directories workTree (Path.ofString "/a/b".toList)).tree.stat "/a/b".toList
      = none ∧
    (create_directories workTree (Path.ofString "/a/b".toList)).tree.stat "/w/a/b".toList
      = some Node.directory :=
  ⟨create_directories_relative t p, by decide, by decide, by decide, by decide, by decide,
    by decide⟩

/-- C39: for every input shorter than `2 ^ 64`, every segmentation and pattern set, and
every search oracle whose matches lie inside the searched text, `GetMatch` returns a
match whenever the confirmed position is not behind the end of the input, and what it
returns is either the not-found match `RecognizerMatch()` or a match tagged with one
of the patterns that ends exactly at `input.length()`, starts at or after the
confirmed position, and starts at the current end position or at the start of a
segment; in particular every found match has these properties. -/
theorem C39_GetMatch_found_match {Regex : Type} (patterns : List (List Char × Regex))
    (regex_search : List Char → Regex → Option (Nat × Nat))
    (input : List Char) (segmentation : Segmentation)
    (hlen : input.length < 2 ^ 64)
    (hin : ∀ s pattern position length,
      regex_search s pattern = some (position, length) → position + length ≤ s.length) :
    (segmentation.confirmed_position ≤ input.length →
      ∃ r, RecognizerPatterns.GetMatch patterns regex_search input segmentation
        = Except.ok r) ∧
    ∀ r, RecognizerPatterns.GetMatch patterns regex_search input segmentation = Except.ok r →
      (r = RecognizerMatch.none_ ∨
        ((∃ v ∈ patterns, v.1 = r.tag) ∧ r.end_ = input.length ∧
          segmentation.confirmed_position ≤ r.start ∧
          (r.start = segmentation.current_end_position ∨
            ∃ seg ∈ segmentation.segments, seg.start = r.start))) ∧
      (r.found = true →
        r.end_ = input.length ∧ segmentation.confirmed_position ≤ r.start ∧
          (r.start = segmentation.current_end_position ∨
            ∃ seg ∈ segmentation.segments, seg.start = r.start)) := by
  have hmain : ∀ r,
      RecognizerPatterns.GetMatch patterns regex_search input segmentation = Except.ok r →
      (r = RecognizerMatch.none_ ∨
        ((∃ v ∈ patterns, v.1 = r.tag) ∧ r.end_ = input.length ∧
          segmentation.confirmed_position ≤ r.start ∧
          (r.start = segmentation.current_end_position ∨
            ∃ seg ∈ segmentation.segments, seg.start = r.start))) := by
    intro r hr
    unfold RecognizerPatterns.GetMatch substr at hr
    simp only at hr
    by_cases hk : segmentation.confirmed_position > input.length
    · rw [if_pos hk] at hr
      exact Except.noConfusion hr
    · rw [if_neg hk] at hr
      simp only [Except.ok.injEq] at hr
      rcases GetMatch_loop_spec regex_search input
        ((input.drop segmentation.confirmed_position).take (2 ^ 64 - 1))
        segmentation.current_end_position segmentation.confirmed_position
        segmentation.segments patterns with h | ⟨v, hv, position, length, hs, hval, hend, hat⟩
      · exact Or.inl (hr.symm.trans h)
      · right
        have hinside := hin _ _ _ _ hs
        have hle : ((input.drop segmentation.confirmed_position).take (2 ^ 64 - 1)).length
            ≤ input.length - segmentation.confirmed_position := by
          rw [List.length_take, List.length_drop]
          exact Nat.min_le_right _ _
        have hstart : (segmentation.confirmed_position + position) % 2 ^ 64
            = segmentation.confirmed_position + position :=
          Nat.mod_eq_of_lt (by omega)
        rw [hval] at hr
        subst hr
        simp only
        refine ⟨⟨v, hv, rfl⟩, hend, ?_, ?_⟩
        · rw [hstart]; exact Nat.le_add_right _ _
        · rcases hat with h | h
          · exact Or.inl h
          · exact Or.inr h
  refine ⟨fun hk => ?_, fun r hr => ⟨hmain r hr, fun hf => ?_⟩⟩
  · unfold RecognizerPatterns.GetMatch substr
    simp only
    rw [if_neg (by omega)]
    exact ⟨_, rfl⟩
  · rcases hmain r hr with h | h
    · rw [h] at hf
      exact absurd hf (by decide)
    · exact h.2

/-- C39 at the input `ab12` with the pattern `12`, whose match starts at the current
end position 2 and ends at 4. -/
theorem C39_GetMatch_found_match_witness :
    RecognizerPatterns.GetMatch [("number".toList, "12".toList)] literal_search "ab12".toList
        sampleSegmentation
      = Except.ok { tag := "number".toList, start := 2, end_ := 4 } ∧
    ((2 : Nat) = sampleSegmentation.current_end_position ∨
      ∃ seg ∈ sampleSegmentation.segments, seg.start = 2) := by
  have hin : ∀ (s pattern : List Char) (position length : Nat),
      literal_search s pattern = some (position, length) → position + length ≤ s.length := by
    intro s pattern position length h
    unfold literal_search at h
    rw [Option.map_eq_some'] at h
    obtain ⟨i, hi, he⟩ := h
    have hp := List.find?_some hi
    have hm := List.mem_range.mp (List.mem_of_find?_eq_some hi)
    simp only [beq_iff_eq] at hp
    have hl := congrArg List.length hp
    rw [List.length_take, List.length_drop] at hl
    simp only [Prod.mk.injEq] at he
    omega
  have h := C39_GetMatch_found_match [("number".toList, "12".toList)] literal_search
    "ab12".toList sampleSegmentation (by decide) hin
  have hval : RecognizerPatterns.GetMatch [("number".toList, "12".toList)] literal_search
      "ab12".toList sampleSegmentation
      = Except.ok { tag := "number".toList, start := 2, end_ := 4 } := by rfl
  refine ⟨hval, ?_⟩
  have h2 := (h.2 _ hval).2 (by decide)
  exact h2.2.2

/-- C40: after every sequence of connect and disconnect calls on a new signal the
connection list holds no two member-function connections with the same (class,
receiver, member function) triple.  A further connect of a connected triple leaves
the list unchanged and a connect of any other triple adds it at the end; a
disconnect removes the triple and keeps the order of what is left; so `emit` invokes
each connected triple exactly once, in the order in which the connections held were
added. -/
theorem C40_member_connections_unique (id : Nat) (calls : List Call) (T obj func : Nat) :
    (tpSignal.after id calls).member_pairs.Nodup ∧
    (tpSignal.after id (calls ++ [Call.connect T obj func])).connections_
      = (if (T, obj, func) ∈ (tpSignal.after id calls).member_pairs then
          (tpSignal.after id calls).connections_
        else (tpSignal.after id calls).connections_
          ++ [{ slot := Slot.member T obj func, lambdaID := 0 }]) ∧
    List.Sublist (tpSignal.after id (calls ++ [Call.disconnect T obj func])).connections_
      (tpSignal.after id calls).connections_ ∧
    (T, obj, func) ∉ (tpSignal.after id (calls ++ [Call.disconnect T obj func])).member_pairs ∧
    (tpSignal.after id calls).emit.count (Slot.member T obj func)
      = (if (T, obj, func) ∈ (tpSignal.after id calls).member_pairs then 1 else 0) := by
  have hn := member_pairs_nodup_after id calls
  refine ⟨hn, ?_, ?_, ?_, ?_⟩
  · rw [after_connect]
    unfold tpSignal.do_connect
    by_cases h : (T, obj, func) ∈ (tpSignal.after id calls).member_pairs
    · rw [if_pos h, if_pos ((any_is_slot_of_iff T obj func _).mpr h)]
    · rw [if_neg h, if_neg (fun ha => h ((any_is_slot_of_iff T obj func _).mp ha))]
  · rw [after_disconnect]
    exact List.filter_sublist _
  · rw [after_disconnect]
    intro hm
    have ha := (any_is_slot_of_iff T obj func _).mpr hm
    rw [List.any_eq_true] at ha
    obtain ⟨conn, hc, hs⟩ := ha
    simp only [tpSignal.disconnect, List.mem_filter, Bool.not_eq_true'] at hc
    rw [hc.2] at hs
    exact Bool.noConfusion hs
  · exact emit_count T obj func _ hn

/-- C40, the order of first connection: class 0 connects member function 10 of object
1, then of object 2, disconnects object 1 and connects it again; `emit` invokes object
2 before object 1, whose first connection came first. -/
theorem C40_reconnect_counterexample :
    (tpSignal.after 0 [Call.connect 0 1 10, Call.connect 0 2 10, Call.disconnect 0 1 10,
        Call.connect 0 1 10]).emit
      = [Slot.member 0 2 10, Slot.member 0 1 10] ∧
    List.indexOf (Call.connect 0 1 10)
        [Call.connect 0 1 10, Call.connect 0 2 10, Call.disconnect 0 1 10, Call.connect 0 1 10]
      < List.indexOf (Call.connect 0 2 10)
        [Call.connect 0 1 10, Call.connect 0 2 10, Call.disconnect 0 1 10,
          Call.connect 0 1 10] := by
  decide

end rime
